import Mathlib

/-!
Verification of the drone pathfinding engine (`drone_path_finder.py`).

The Python source is shallowly embedded: grids are lists of rows of
characters, cells are pairs of integers (Python tuples of ints), Python
dicts become association lists with newest-binding-first lookup, Python
sets become duplicate-free lists, and `heapq` becomes a list kept sorted
by the lexicographic order on `(key, cell)` entries, whose pop returns the
least entry — exactly the observable behaviour of a binary heap of
distinct comparable entries (entries that compare fully equal are
identical values here, so which copy is returned is immaterial).
The `while` loops of the five search methods become fuel-indexed
recursions returning `none` when fuel runs out; termination theorems show
the chosen fuel always suffices.
-/

namespace Drone

/-- A cell is a Python `(row, col)` tuple of ints. -/
abbrev Cell := Int × Int

/-- A grid is a list of rows of single-character symbols. -/
abbrev Grid := List (List Char)

/-- Association-list lookup modelling Python dict indexing: the most
recently inserted binding (cons'd at the front) wins. -/
def alookup {α : Type} : List (Cell × α) → Cell → Option α
  | [], _ => none
  | (k', v) :: rest, k => if k' = k then some v else alookup rest k

/-- `grid[r][c]` for in-bounds indices (the default is never reached when
the bounds checks of `_is_valid` have passed on a well-formed grid). -/
def cellAt (g : Grid) (r c : Int) : Char :=
  ((g[r.toNat]?.getD [])[c.toNat]?).getD ' '

/-- The engine state built by `DronePathfinder.__init__` on a validated
grid: the grid, its dimensions, and the start and goal cells. -/
structure PF where
  grid : Grid
  rows : Nat
  cols : Nat
  start : Cell
  goal : Cell
deriving Repr, DecidableEq

/-- The inner `for j in range(cols)` loop of `_find_pos` on one row:
`fuel` counts the indices left in the range, `j` is the current index.
Each step executes `grid[i][j]`, so an out-of-range index — possible on
a ragged grid — is Python's `IndexError`, modelled as `none`;
`some none` is a completed scan without a match; `some (some j)` is the
first match. -/
def findInRange (sym : Char) (row : List Char) : Nat → Nat → Option (Option Nat)
  | _, 0 => some none
  | j, fuel + 1 =>
    match row[j]? with
    | none => none
    | some c => if c = sym then some (some j) else findInRange sym row (j + 1) fuel

/-- `_find_pos` restricted to one row: scan `j in range(cols)`, indexing
`row[j]` at every step. -/
def findPosRow (cols : Nat) (row : List Char) (sym : Char) : Option (Option Nat) :=
  findInRange sym row 0 cols

/-- `_find_pos(symbol)`: row-major scan over `range(rows) × range(cols)`
returning the first matching position (`some (some p)`), `some none`
when the scan completes without a match (the function's implicit
`None`), or `none` for an `IndexError` raised by `grid[i][j]` when a row
is shorter than `cols`. -/
def find_pos (g : Grid) (cols : Nat) (sym : Char) : Option (Option Cell) :=
  go g 0
where
  go : List (List Char) → Nat → Option (Option Cell)
    | [], _ => some none
    | row :: rest, i =>
      match findPosRow cols row sym with
      | none => none
      | some (some j) => some (some ((i : Int), (j : Int)))
      | some none => go rest (i + 1)

/-- The raw result of `DronePathfinder.__init__`: the constructor stores
whatever `_find_pos` returns, including `None`, and never raises any
structural error.  The only failures are `IndexError`s, modelled as
`none` of `initRaw`: from `grid[0]` on an empty grid, or from
`grid[i][j]` inside `_find_pos` on a ragged grid. -/
structure PFRaw where
  grid : Grid
  rows : Nat
  cols : Nat
  startPos : Option Cell
  goalPos : Option Cell
deriving Repr, DecidableEq

/-- `DronePathfinder.__init__`: sets `rows`, `cols = len(grid[0])`, then
`start = _find_pos('S')` and `goal = _find_pos('G')` with no check at
all on the results; an `IndexError` escaping either scan (or `grid[0]`
on an empty grid) aborts construction (`none`). -/
def initRaw (g : Grid) : Option PFRaw :=
  match g with
  | [] => none
  | r0 :: _ =>
    match find_pos g r0.length 'S' with
    | none => none
    | some s =>
      match find_pos g r0.length 'G' with
      | none => none
      | some gl =>
        some { grid := g, rows := g.length, cols := r0.length,
               startPos := s, goalPos := gl }

/-- Packaging of the constructed engine for the searches: defined exactly
when both `_find_pos('S')` and `_find_pos('G')` found a cell (always the
case after validation). -/
def mkPF (g : Grid) : Option PF :=
  match initRaw g with
  | none => none
  | some raw =>
    match raw.startPos, raw.goalPos with
    | some s, some gl =>
      some { grid := raw.grid, rows := raw.rows, cols := raw.cols,
             start := s, goal := gl }
    | _, _ => none

/-- `_is_valid(row, col)`: in bounds and not an obstacle. -/
def is_valid (pf : PF) (r c : Int) : Bool :=
  decide (0 ≤ r) && decide (r < (pf.rows : Int)) &&
  decide (0 ≤ c) && decide (c < (pf.cols : Int)) &&
  (cellAt pf.grid r c != 'X')

/-- `self.directions`: north, south, west, east, in this fixed order. -/
def directions : List (Int × Int) := [(-1, 0), (1, 0), (0, -1), (0, 1)]

/-- `_get_neighbors(pos)`: the traversable orthogonal neighbours, in the
fixed direction order. -/
def get_neighbors (pf : PF) (pos : Cell) : List Cell :=
  (directions.map (fun d => (pos.1 + d.1, pos.2 + d.2))).filter
    (fun p => is_valid pf p.1 p.2)

/-- `_manhattan_dist(pos1, pos2)`. -/
def manhattan_dist (p1 p2 : Cell) : Nat :=
  (p1.1 - p2.1).natAbs + (p1.2 - p2.2).natAbs

/-- `_build_path(came_from, current)`: follow predecessor links back from
`current`, collecting cells; the Python list-then-reverse is realised by
consing onto the accumulator, yielding the start→goal order directly.
Fuel bounds the walk; `none` marks a walk longer than the fuel (which a
cyclic map would cause and which the termination theorems rule out). -/
def build_path (cf : List (Cell × Cell)) : Nat → Cell → List Cell → Option (List Cell)
  | 0, _, _ => none
  | fuel + 1, current, acc =>
    match alookup cf current with
    | none => some (current :: acc)
    | some prev => build_path cf fuel prev (current :: acc)

/-- Fuel given to `_build_path`: one more than the number of grid cells. -/
def bpFuel (pf : PF) : Nat := pf.rows * pf.cols + 1

/-! ### The heap of `heapq`

Entries are `(key, cell)` pairs compared lexicographically, as Python
compares the tuples `(int, (int, int))`.  The heap is modelled as a list
kept sorted under that order; `heappush` inserts in place and `heappop`
removes the head, which is a least entry — the value `heapq.heappop`
returns. -/

/-- The (total, decidable) lexicographic order on heap entries used by
Python's tuple comparison. -/
def entryLe (a b : Nat × Cell) : Bool :=
  decide (a.1 < b.1) ||
  (decide (a.1 = b.1) &&
    (decide (a.2.1 < b.2.1) ||
      (decide (a.2.1 = b.2.1) && decide (a.2.2 ≤ b.2.2))))

/-- `heapq.heappush`: insert keeping the list sorted under `entryLe`. -/
def heappush : List (Nat × Cell) → Nat × Cell → List (Nat × Cell)
  | [], e => [e]
  | x :: rest, e => if entryLe e x then e :: x :: rest else x :: heappush rest e

/-- `heapq.heappop`: return a least entry and the remaining heap. -/
def heappop : List (Nat × Cell) → Option ((Nat × Cell) × List (Nat × Cell))
  | [] => none
  | e :: rest => some (e, rest)

/-! ### The five search methods

Each loop is a fuel-indexed recursion; `loopFuel` is proved sufficient
below.  The frontier, visited set, predecessor map and cost map are
threaded explicitly. -/

/-- Fuel for every search loop. -/
def loopFuel (pf : PF) : Nat := 5 * (pf.rows * pf.cols) + 2

/-- The neighbour loop of `dfs`: push each unvisited neighbour (in
order) and record `came_from` only for neighbours not already in it. -/
def dfsPush (current : Cell) (visited : List Cell) :
    List Cell → List Cell → List (Cell × Cell) → List Cell × List (Cell × Cell)
  | [], stack, cf => (stack, cf)
  | n :: ns, stack, cf =>
    if n ∈ visited then dfsPush current visited ns stack cf
    else
      dfsPush current visited ns (n :: stack)
        (if (alookup cf n).isSome then cf else (n, current) :: cf)

/-- The `while stack:` loop of `dfs`. -/
def dfsAux (pf : PF) :
    Nat → List Cell → List Cell → List (Cell × Cell) → Nat →
    Option (Option (List Cell) × Nat)
  | 0, _, _, _, _ => none
  | fuel + 1, stack, visited, cf, nodes =>
    match stack with
    | [] => some (none, nodes)
    | current :: rest =>
      if current ∈ visited then dfsAux pf fuel rest visited cf nodes
      else
        let visited' := current :: visited
        if current = pf.goal then
          match build_path cf (bpFuel pf) current [] with
          | some p => some (some p, nodes + 1)
          | none => none
        else
          let (stack', cf') := dfsPush current visited' (get_neighbors pf current) rest cf
          dfsAux pf fuel stack' visited' cf' (nodes + 1)

/-- `dfs()`. -/
def PF.dfs (pf : PF) : Option (Option (List Cell) × Nat) :=
  dfsAux pf (loopFuel pf) [pf.start] [] [] 0

/-- The neighbour loop of `bfs`: mark each unvisited neighbour visited,
record its predecessor, and enqueue it at the back. -/
def bfsPush (current : Cell) :
    List Cell → List Cell → List (Cell × Cell) → List Cell →
    List Cell × List (Cell × Cell) × List Cell
  | [], visited, cf, queue => (visited, cf, queue)
  | n :: ns, visited, cf, queue =>
    if n ∈ visited then bfsPush current ns visited cf queue
    else bfsPush current ns (n :: visited) ((n, current) :: cf) (queue ++ [n])

/-- The `while queue:` loop of `bfs`. -/
def bfsAux (pf : PF) :
    Nat → List Cell → List Cell → List (Cell × Cell) → Nat →
    Option (Option (List Cell) × Nat)
  | 0, _, _, _, _ => none
  | fuel + 1, queue, visited, cf, nodes =>
    match queue with
    | [] => some (none, nodes)
    | current :: rest =>
      if current = pf.goal then
        match build_path cf (bpFuel pf) current [] with
        | some p => some (some p, nodes + 1)
        | none => none
      else
        let (visited', cf', queue') := bfsPush current (get_neighbors pf current) visited cf rest
        bfsAux pf fuel queue' visited' cf' (nodes + 1)

/-- `bfs()`: the start is marked visited immediately. -/
def PF.bfs (pf : PF) : Option (Option (List Cell) × Nat) :=
  bfsAux pf (loopFuel pf) [pf.start] [pf.start] [] 0

/-- The neighbour loop of `ucs`: relax each neighbour at cost
`curr_cost + 1`, updating cost, predecessor and heap when strictly
cheaper than any recorded cost (or unseen). -/
def ucsRelax (current : Cell) (curr_cost : Nat) :
    List Cell → List (Nat × Cell) → List (Cell × Cell) → List (Cell × Nat) →
    List (Nat × Cell) × List (Cell × Cell) × List (Cell × Nat)
  | [], heap, cf, cost => (heap, cf, cost)
  | n :: ns, heap, cf, cost =>
    let new_cost := curr_cost + 1
    let better := match alookup cost n with
      | none => true
      | some cn => decide (new_cost < cn)
    if better then
      ucsRelax current curr_cost ns (heappush heap (new_cost, n))
        ((n, current) :: cf) ((n, new_cost) :: cost)
    else
      ucsRelax current curr_cost ns heap cf cost

/-- The `while heap:` loop of `ucs`, with lazy deletion of stale
entries. -/
def ucsAux (pf : PF) :
    Nat → List (Nat × Cell) → List Cell → List (Cell × Cell) → List (Cell × Nat) → Nat →
    Option (Option (List Cell) × Nat)
  | 0, _, _, _, _, _ => none
  | fuel + 1, heap, visited, cf, cost, nodes =>
    match heappop heap with
    | none => some (none, nodes)
    | some ((curr_cost, current), rest) =>
      if current ∈ visited then ucsAux pf fuel rest visited cf cost nodes
      else
        let visited' := current :: visited
        if current = pf.goal then
          match build_path cf (bpFuel pf) current [] with
          | some p => some (some p, nodes + 1)
          | none => none
        else
          let (heap', cf', cost') := ucsRelax current curr_cost (get_neighbors pf current) rest cf cost
          ucsAux pf fuel heap' visited' cf' cost' (nodes + 1)

/-- `ucs()`. -/
def PF.ucs (pf : PF) : Option (Option (List Cell) × Nat) :=
  ucsAux pf (loopFuel pf) [(0, pf.start)] [] [] [(pf.start, 0)] 0

/-- The neighbour loop of `a_star`: relax each neighbour at
`tentative_g = g_score[current] + 1`, pushing with key
`tentative_g + h(neighbour)`. -/
def aStarRelax (pf : PF) (current : Cell) (gc : Nat) :
    List Cell → List (Nat × Cell) → List (Cell × Cell) → List (Cell × Nat) →
    List (Nat × Cell) × List (Cell × Cell) × List (Cell × Nat)
  | [], heap, cf, gs => (heap, cf, gs)
  | n :: ns, heap, cf, gs =>
    let tentative_g := gc + 1
    let better := match alookup gs n with
      | none => true
      | some gn => decide (tentative_g < gn)
    if better then
      aStarRelax pf current gc ns
        (heappush heap (tentative_g + manhattan_dist n pf.goal, n))
        ((n, current) :: cf) ((n, tentative_g) :: gs)
    else
      aStarRelax pf current gc ns heap cf gs

/-- The `while heap:` loop of `a_star`.  The Python code indexes
`g_score[current]`; a missing key (a `KeyError`, proved unreachable
below) is modelled as `none`. -/
def aStarAux (pf : PF) :
    Nat → List (Nat × Cell) → List Cell → List (Cell × Cell) → List (Cell × Nat) → Nat →
    Option (Option (List Cell) × Nat)
  | 0, _, _, _, _, _ => none
  | fuel + 1, heap, visited, cf, gs, nodes =>
    match heappop heap with
    | none => some (none, nodes)
    | some ((_, current), rest) =>
      if current ∈ visited then aStarAux pf fuel rest visited cf gs nodes
      else
        let visited' := current :: visited
        if current = pf.goal then
          match build_path cf (bpFuel pf) current [] with
          | some p => some (some p, nodes + 1)
          | none => none
        else
          match alookup gs current with
          | none => none
          | some gc =>
            let (heap', cf', gs') := aStarRelax pf current gc (get_neighbors pf current) rest cf gs
            aStarAux pf fuel heap' visited' cf' gs' (nodes + 1)

/-- `a_star()`. -/
def PF.a_star (pf : PF) : Option (Option (List Cell) × Nat) :=
  aStarAux pf (loopFuel pf) [(0, pf.start)] [] [] [(pf.start, 0)] 0

/-- The neighbour loop of `greedy`: every unvisited neighbour gets its
predecessor (re)assigned and is pushed with its heuristic key. -/
def greedyPush (pf : PF) (current : Cell) (visited : List Cell) :
    List Cell → List (Nat × Cell) → List (Cell × Cell) →
    List (Nat × Cell) × List (Cell × Cell)
  | [], heap, cf => (heap, cf)
  | n :: ns, heap, cf =>
    if n ∈ visited then greedyPush pf current visited ns heap cf
    else
      greedyPush pf current visited ns
        (heappush heap (manhattan_dist n pf.goal, n)) ((n, current) :: cf)

/-- The `while heap:` loop of `greedy`. -/
def greedyAux (pf : PF) :
    Nat → List (Nat × Cell) → List Cell → List (Cell × Cell) → Nat →
    Option (Option (List Cell) × Nat)
  | 0, _, _, _, _ => none
  | fuel + 1, heap, visited, cf, nodes =>
    match heappop heap with
    | none => some (none, nodes)
    | some ((_, current), rest) =>
      if current ∈ visited then greedyAux pf fuel rest visited cf nodes
      else
        let visited' := current :: visited
        if current = pf.goal then
          match build_path cf (bpFuel pf) current [] with
          | some p => some (some p, nodes + 1)
          | none => none
        else
          let (heap', cf') := greedyPush pf current visited' (get_neighbors pf current) rest cf
          greedyAux pf fuel heap' visited' cf' (nodes + 1)

/-- `greedy()`. -/
def PF.greedy (pf : PF) : Option (Option (List Cell) × Nat) :=
  greedyAux pf (loopFuel pf) [(manhattan_dist pf.start pf.goal, pf.start)] [] [] 0

/-! ### A first-push-wins variant of `greedy`

Claim C5 (and spec §4.6) reads the source as recording a neighbour's
predecessor only the first time it is pushed.  The source's neighbour
loop has no such guard, so to compare, the variant below follows the
claim's words: it is `greedy` with the predecessor assignment guarded by
`came_from` membership (the guard `dfs` actually has). -/

/-- The neighbour loop of `greedy` as the claim describes it: the
predecessor is recorded only when the cell has none yet. -/
def greedyPushOnce (pf : PF) (current : Cell) (visited : List Cell) :
    List Cell → List (Nat × Cell) → List (Cell × Cell) →
    List (Nat × Cell) × List (Cell × Cell)
  | [], heap, cf => (heap, cf)
  | n :: ns, heap, cf =>
    if n ∈ visited then greedyPushOnce pf current visited ns heap cf
    else
      greedyPushOnce pf current visited ns
        (heappush heap (manhattan_dist n pf.goal, n))
        (if (alookup cf n).isSome then cf else (n, current) :: cf)

/-- The `greedy` loop with the first-push-wins predecessor policy of
claim C5. -/
def greedyOnceAux (pf : PF) :
    Nat → List (Nat × Cell) → List Cell → List (Cell × Cell) → Nat →
    Option (Option (List Cell) × Nat)
  | 0, _, _, _, _ => none
  | fuel + 1, heap, visited, cf, nodes =>
    match heappop heap with
    | none => some (none, nodes)
    | some ((_, current), rest) =>
      if current ∈ visited then greedyOnceAux pf fuel rest visited cf nodes
      else
        let visited' := current :: visited
        if current = pf.goal then
          match build_path cf (bpFuel pf) current [] with
          | some p => some (some p, nodes + 1)
          | none => none
        else
          let (heap', cf') := greedyPushOnce pf current visited' (get_neighbors pf current) rest cf
          greedyOnceAux pf fuel heap' visited' cf' (nodes + 1)

/-- `greedy` as claim C5 describes it (first-push-wins predecessors). -/
def PF.greedyOnce (pf : PF) : Option (Option (List Cell) × Nat) :=
  greedyOnceAux pf (loopFuel pf) [(manhattan_dist pf.start pf.goal, pf.start)] [] [] 0

/-! ### Concrete grids used by the scenario claims -/

/-- Scenario 1 of the spec (claim C6). -/
def gridC6 : Grid :=
  [['S', '.', 'X', '.', 'G'], ['.', 'X', '.', 'X', '.'], ['.', '.', '.', '.', '.']]

/-- The engine built on `gridC6`. -/
def pfC6 : PF :=
  { grid := gridC6, rows := 3, cols := 5, start := (0, 0), goal := (0, 4) }

/-- The path `bfs` actually returns on `gridC6`. -/
def pathC6 : List Cell :=
  [(0, 0), (1, 0), (2, 0), (2, 1), (2, 2), (2, 3), (2, 4), (1, 4), (0, 4)]

/-- Scenario 2 of the spec (claim C3): the goal is walled off. -/
def gridWalled : Grid := [['S', 'X'], ['X', 'G']]

/-- The engine built on `gridWalled`. -/
def pfWalled : PF :=
  { grid := gridWalled, rows := 2, cols := 2, start := (0, 0), goal := (1, 1) }

/-- A grid on which `greedy`'s predecessor overwriting is visible in the
returned path (claim C5): the cell `(1,1)` is pushed first from the
start `(1,0)` and later, still unvisited, from `(0,1)`. -/
def gridC5 : Grid := [['.', '.', 'X', 'G'], ['S', '.', '.', '.'], ['.', '.', '.', '.']]

/-- The engine built on `gridC5`. -/
def pfC5 : PF :=
  { grid := gridC5, rows := 3, cols := 4, start := (1, 0), goal := (0, 3) }

/-- Scenario 4 of the spec: the single-row grid. -/
def gridRow : Grid := [['S', '.', 'G']]

/-- The engine built on `gridRow`. -/
def pfRow : PF :=
  { grid := gridRow, rows := 1, cols := 3, start := (0, 0), goal := (0, 2) }

/-! ### `validate_grid` -/

/-- The inner `for cell in row` loop of `validate_grid`: first invalid
symbol aborts with its message, otherwise the S/G counters advance. -/
def countRow : List Char → Nat → Nat → Sum String (Nat × Nat)
  | [], s, g => .inr (s, g)
  | c :: rest, s, g =>
    if c = 'X' ∨ c = '.' ∨ c = 'S' ∨ c = 'G' then
      countRow rest (if c = 'S' then s + 1 else s) (if c = 'G' then g + 1 else g)
    else .inl (String.push "Invalid symbol: " c)

/-- The outer `for row in grid` loop of `validate_grid`: per row, the
length check comes first, then the symbol scan of that row. -/
def countRows (cols : Nat) : List (List Char) → Nat → Nat → Sum String (Nat × Nat)
  | [], s, g => .inr (s, g)
  | row :: rest, s, g =>
    if row.length ≠ cols then .inl "Unequal row lengths"
    else
      match countRow row s g with
      | .inl e => .inl e
      | .inr (s', g') => countRows cols rest s' g'

/-- `validate_grid(grid)`. -/
def validate_grid (grid : Grid) : Bool × String :=
  match grid with
  | [] => (false, "Empty grid")
  | r0 :: _ =>
    if r0.length = 0 then (false, "Empty grid")
    else
      match countRows r0.length grid 0 0 with
      | .inl e => (false, e)
      | .inr (s, g) =>
        if s ≠ 1 then (false, "Need exactly one S")
        else if g ≠ 1 then (false, "Need exactly one G")
        else (true, "Valid")

/-! ### Semantic notions used to state the claims -/

/-- Well-formedness of a constructed engine, as guaranteed by
`validate_grid` + `mkPF`: dimensions match the grid, and the stored
start/goal are traversable cells carrying their symbols. -/
structure WF (pf : PF) : Prop where
  hrows : pf.grid.length = pf.rows
  hcols : ∀ row ∈ pf.grid, row.length = pf.cols
  rows_pos : 0 < pf.rows
  cols_pos : 0 < pf.cols
  start_valid : is_valid pf pf.start.1 pf.start.2 = true
  goal_valid : is_valid pf pf.goal.1 pf.goal.2 = true
  start_cell : cellAt pf.grid pf.start.1 pf.start.2 = 'S'
  goal_cell : cellAt pf.grid pf.goal.1 pf.goal.2 = 'G'

/-- Reachability from the start in exactly `n` moves along traversable
neighbours. -/
inductive ReachN (pf : PF) : Nat → Cell → Prop where
  | zero : ReachN pf 0 pf.start
  | succ {n : Nat} {c m : Cell} :
      ReachN pf n c → m ∈ get_neighbors pf c → ReachN pf (n + 1) m

/-- Reachability from the start. -/
def Reachable (pf : PF) (c : Cell) : Prop := ∃ n, ReachN pf n c

/-- A well-formed route: starts at the start, ends at the goal, and each
step moves to a traversable neighbour. -/
def ValidPath (pf : PF) (p : List Cell) : Prop :=
  p.head? = some pf.start ∧ p.getLast? = some pf.goal ∧
  List.Chain' (fun a b => b ∈ get_neighbors pf a) p

/-- A shortest route: valid, and no valid route has fewer cells. -/
def Shortest (pf : PF) (p : List Cell) : Prop :=
  ValidPath pf p ∧ ∀ q, ValidPath pf q → p.length ≤ q.length

/-- `d` is the exact shortest-path distance (in moves) from the start to
`c`. -/
def IsDist (pf : PF) (c : Cell) (d : Nat) : Prop :=
  ReachN pf d c ∧ ∀ m, ReachN pf m c → d ≤ m

/-- The age of a cell in a newest-first visited list: the oldest element
has age 0.  Unchanged when a new cell is consed on, which makes it a
stable measure across loop iterations. -/
def revIdx : List Cell → Cell → Nat
  | [], _ => 0
  | x :: rest, c => if c = x then rest.length else revIdx rest c

/-! ## Theorems -/

/-- Basic lookup fact: a cons for a different key does not change a
lookup. -/
theorem alookup_cons_ne {α : Type} (m : List (Cell × α)) (k k' : Cell) (v : α)
    (h : k' ≠ k) : alookup ((k', v) :: m) k = alookup m k := by
  simp [alookup, h]

/-- Basic lookup fact: a cons for the same key wins. -/
theorem alookup_cons_self {α : Type} (m : List (Cell × α)) (k : Cell) (v : α) :
    alookup ((k, v) :: m) k = some v := by
  simp [alookup]

/-! ### Generic list, grid and path-reconstruction facts -/

theorem nodup_subset_length {α : Type} [DecidableEq α] {l1 l2 : List α}
    (h1 : l1.Nodup) (h2 : l2.Nodup) (hsub : ∀ x ∈ l1, x ∈ l2) :
    l1.length ≤ l2.length := by
  rw [← List.toFinset_card_of_nodup h1, ← List.toFinset_card_of_nodup h2]
  apply Finset.card_le_card
  intro x hx
  rw [List.mem_toFinset] at hx ⊢
  exact hsub x hx

theorem is_valid_elim {pf : PF} {r c : Int} (h : is_valid pf r c = true) :
    0 ≤ r ∧ r < (pf.rows : Int) ∧ 0 ≤ c ∧ c < (pf.cols : Int) ∧
      cellAt pf.grid r c ≠ 'X' := by
  simp only [is_valid, Bool.and_eq_true, decide_eq_true_eq, bne_iff_ne] at h
  tauto

/-- Distinct traversable cells number at most `rows * cols`. -/
theorem valid_cells_bound (pf : PF) (l : List Cell) (hnd : l.Nodup)
    (hval : ∀ c ∈ l, is_valid pf c.1 c.2 = true) :
    l.length ≤ pf.rows * pf.cols := by
  classical
  set f : Cell → Nat := fun c => c.1.toNat * pf.cols + c.2.toNat with hf
  have hbnd : ∀ c ∈ l, f c < pf.rows * pf.cols := by
    intro c hc
    obtain ⟨h0r, hr, h0c, hcc, _⟩ := is_valid_elim (hval c hc)
    have hr' : c.1.toNat < pf.rows := by omega
    have hc' : c.2.toNat < pf.cols := by omega
    calc f c < c.1.toNat * pf.cols + pf.cols := by simp only [hf]; omega
    _ = (c.1.toNat + 1) * pf.cols := by ring
    _ ≤ pf.rows * pf.cols := Nat.mul_le_mul_right _ hr'
  have hinj : ∀ x ∈ l, ∀ y ∈ l, f x = f y → x = y := by
    intro x hx y hy hxy
    obtain ⟨hx0r, hxr, hx0c, hxc, _⟩ := is_valid_elim (hval x hx)
    obtain ⟨hy0r, hyr, hy0c, hyc, _⟩ := is_valid_elim (hval y hy)
    have hxc' : x.2.toNat < pf.cols := by omega
    have hyc' : y.2.toNat < pf.cols := by omega
    have hx1 : x.1.toNat * pf.cols + x.2.toNat = y.1.toNat * pf.cols + y.2.toNat := hxy
    have hrow : x.1.toNat = y.1.toNat := by
      have e1 : (pf.cols * x.1.toNat + x.2.toNat) / pf.cols = x.1.toNat := by
        rw [Nat.mul_add_div (by omega), Nat.div_eq_of_lt hxc']; omega
      have e2 : (pf.cols * y.1.toNat + y.2.toNat) / pf.cols = y.1.toNat := by
        rw [Nat.mul_add_div (by omega), Nat.div_eq_of_lt hyc']; omega
      rw [← e1, ← e2, Nat.mul_comm pf.cols, Nat.mul_comm pf.cols, hx1]
    have hcol : x.2.toNat = y.2.toNat := Nat.add_left_cancel (hrow ▸ hx1)
    have hxx : x.1 = y.1 := by omega
    have hyy : x.2 = y.2 := by omega
    exact Prod.ext hxx hyy
  have hmap : (l.map f).Nodup := hnd.map_on hinj
  have hlen := nodup_subset_length hmap (List.nodup_range (pf.rows * pf.cols))
    (fun k hk => by
      obtain ⟨c, hc, hck⟩ := List.mem_map.mp hk
      exact List.mem_range.mpr (hck ▸ hbnd c hc))
  simpa using hlen

theorem mem_neighbors_valid {pf : PF} {c n : Cell}
    (h : n ∈ get_neighbors pf c) : is_valid pf n.1 n.2 = true := by
  simp only [get_neighbors, List.mem_filter] at h
  exact h.2

theorem neighbors_length (pf : PF) (c : Cell) :
    (get_neighbors pf c).length ≤ 4 := by
  have h := List.length_filter_le (fun p : Cell => is_valid pf p.1 p.2)
    (directions.map (fun d => (c.1 + d.1, c.2 + d.2)))
  simpa [get_neighbors, directions] using h

theorem revIdx_lt {vis : List Cell} {c : Cell} (h : c ∈ vis) :
    revIdx vis c < vis.length := by
  induction vis with
  | nil => cases h
  | cons x rest ih =>
    by_cases hc : c = x
    · simp [revIdx, hc]
    · rcases List.mem_cons.mp h with hEq | hTail
      · exact absurd hEq hc
      · simp only [revIdx, if_neg hc, List.length_cons]
        exact Nat.lt_succ_of_lt (ih hTail)

theorem revIdx_cons {vis : List Cell} {x c : Cell} (hc : c ∈ vis) (hx : x ∉ vis) :
    revIdx (x :: vis) c = revIdx vis c := by
  have : c ≠ x := fun h => hx (h ▸ hc)
  simp [revIdx, this]

theorem revIdx_head (vis : List Cell) (x : Cell) :
    revIdx (x :: vis) x = vis.length := by
  simp [revIdx]

/-- `_build_path` terminates whenever the predecessor map strictly
decreases some natural measure. -/
theorem build_path_isSome (cf : List (Cell × Cell)) (μ : Cell → Nat)
    (hdec : ∀ n c, alookup cf n = some c → μ c < μ n) :
    ∀ (fuel : Nat) (current : Cell) (acc : List Cell),
      μ current < fuel → (build_path cf fuel current acc).isSome := by
  intro fuel
  induction fuel with
  | zero => intro current acc h; omega
  | succ k ih =>
    intro current acc h
    cases hl : alookup cf current with
    | none => simp [build_path, hl]
    | some prev =>
      simp only [build_path, hl]
      exact ih prev (current :: acc) (by have := hdec current prev hl; omega)

/-- What `_build_path` returns: the accumulated suffix prefixed with a
non-empty predecessor chain that ends at `current`, starts at a cell
with no predecessor, is linked by the predecessor map, and consists of
`current` plus recorded predecessor values. -/
theorem build_path_spec (cf : List (Cell × Cell)) :
    ∀ (fuel : Nat) (current : Cell) (acc p : List Cell),
    build_path cf fuel current acc = some p →
    ∃ q : List Cell, p = q ++ acc ∧ q ≠ [] ∧ q.getLast? = some current ∧
      (∃ h0, q.head? = some h0 ∧ alookup cf h0 = none) ∧
      List.Chain' (fun a b => alookup cf b = some a) q ∧
      (∀ x ∈ q, x = current ∨ ∃ y, alookup cf y = some x) := by
  intro fuel
  induction fuel with
  | zero => intro current acc p h; cases h
  | succ k ih =>
    intro current acc p h
    cases hl : alookup cf current with
    | none =>
      rw [build_path, hl] at h
      injection h with h'
      refine ⟨[current], by rw [← h']; rfl, by simp, by simp, ⟨current, by simp, hl⟩,
        by simp, by simp⟩
    | some prev =>
      rw [build_path, hl] at h
      obtain ⟨q', hp, hne, hlast, ⟨h0, hh0, hh0l⟩, hchain, hmem⟩ := ih prev (current :: acc) p h
      refine ⟨q' ++ [current], by rw [hp]; simp, by simp, ?_, ⟨h0, ?_, hh0l⟩, ?_, ?_⟩
      · exact List.getLast?_concat _
      · rw [List.head?_append_of_ne_nil _ hne]; exact hh0
      · refine List.Chain'.append hchain (by simp) ?_
        intro x hx y hy
        rw [hlast, Option.mem_def] at hx
        rw [Option.mem_def] at hy
        injection hx with hx'
        injection hy with hy'
        rw [← hx', ← hy']
        exact hl
      · intro x hx
        rcases List.mem_append.mp hx with hq | hc
        · rcases hmem x hq with hEq | hval
          · exact Or.inr ⟨current, hEq ▸ hl⟩
          · exact Or.inr hval
        · simp only [List.mem_singleton] at hc
          exact Or.inl hc

/-- A list strictly increasing under some natural measure along
successive elements has no duplicates. -/
theorem chain_nodup (μ : Cell → Nat) (q : List Cell)
    (hchain : List.Chain' (fun a b => μ a < μ b) q) : q.Nodup := by
  haveI : IsTrans Cell (fun a b => μ a < μ b) := ⟨fun _ _ _ => Nat.lt_trans⟩
  have hp := List.chain'_iff_pairwise.mp hchain
  exact hp.imp (fun h => by intro hEq; subst hEq; exact Nat.lt_irrefl _ h)

theorem chain_reachable {pf : PF} :
    ∀ (q : List Cell) (a : Cell), Reachable pf a →
    List.Chain (fun x y => y ∈ get_neighbors pf x) a q → ∀ x ∈ q, Reachable pf x := by
  intro q
  induction q with
  | nil => intro a _ _ x hx; cases hx
  | cons b t ih =>
    intro a ha hchain x hx
    rw [List.chain_cons] at hchain
    obtain ⟨n, hn⟩ := ha
    have hb : Reachable pf b := ⟨n + 1, hn.succ hchain.1⟩
    rcases List.mem_cons.mp hx with hEq | hTail
    · exact hEq ▸ hb
    · exact ih b hb hchain.2 x hTail

/-- A valid route witnesses reachability of the goal. -/
theorem validpath_reachable {pf : PF} {p : List Cell} (h : ValidPath pf p) :
    Reachable pf pf.goal := by
  obtain ⟨hhead, hlast, hchain⟩ := h
  cases p with
  | nil => cases hhead
  | cons a t =>
    injection hhead with hhead'
    subst hhead'
    have hstart : Reachable pf pf.start := ⟨0, .zero⟩
    have hgoal_mem : pf.goal ∈ pf.start :: t := by
      obtain ⟨hne, hEq⟩ := List.mem_getLast?_eq_getLast (x := pf.goal) hlast
      rw [hEq]
      exact List.getLast_mem hne
    rcases List.mem_cons.mp hgoal_mem with hEq | hTail
    · exact hEq ▸ hstart
    · exact chain_reachable t pf.start hstart hchain pf.goal hTail

/-! ### Facts about the dfs neighbour loop -/

theorem dfsPush_length (current : Cell) (visited : List Cell) :
    ∀ (ns stack : List Cell) (cf : List (Cell × Cell)),
    (dfsPush current visited ns stack cf).1.length ≤ ns.length + stack.length := by
  intro ns
  induction ns with
  | nil => intro stack cf; simp [dfsPush]
  | cons n rest ih =>
    intro stack cf
    by_cases hn : n ∈ visited
    · simp only [dfsPush, if_pos hn]
      have := ih stack cf
      simp only [List.length_cons]
      omega
    · simp only [dfsPush, if_neg hn]
      have := ih (n :: stack)
        (if (alookup cf n).isSome then cf else (n, current) :: cf)
      simp only [List.length_cons] at this ⊢
      omega

theorem dfsPush_stack_mem (current : Cell) (visited : List Cell) :
    ∀ (ns stack : List Cell) (cf : List (Cell × Cell)) (x : Cell),
    x ∈ (dfsPush current visited ns stack cf).1 →
    x ∈ stack ∨ (x ∈ ns ∧ x ∉ visited) := by
  intro ns
  induction ns with
  | nil => intro stack cf x hx; exact Or.inl hx
  | cons n rest ih =>
    intro stack cf x hx
    by_cases hn : n ∈ visited
    · simp only [dfsPush, if_pos hn] at hx
      rcases ih stack cf x hx with h | ⟨h1, h2⟩
      · exact Or.inl h
      · exact Or.inr ⟨List.mem_cons_of_mem n h1, h2⟩
    · simp only [dfsPush, if_neg hn] at hx
      rcases ih (n :: stack) _ x hx with h | ⟨h1, h2⟩
      · rcases List.mem_cons.mp h with hEq | hTail
        · exact Or.inr ⟨hEq ▸ List.mem_cons_self n rest, hEq ▸ hn⟩
        · exact Or.inl hTail
      · exact Or.inr ⟨List.mem_cons_of_mem n h1, h2⟩

theorem dfsPush_stack_superset (current : Cell) (visited : List Cell) :
    ∀ (ns stack : List Cell) (cf : List (Cell × Cell)) (x : Cell),
    x ∈ stack → x ∈ (dfsPush current visited ns stack cf).1 := by
  intro ns
  induction ns with
  | nil => intro stack cf x hx; exact hx
  | cons n rest ih =>
    intro stack cf x hx
    by_cases hn : n ∈ visited
    · simp only [dfsPush, if_pos hn]; exact ih stack cf x hx
    · simp only [dfsPush, if_neg hn]
      exact ih (n :: stack) _ x (List.mem_cons_of_mem n hx)

theorem dfsPush_stack_pushes (current : Cell) (visited : List Cell) :
    ∀ (ns stack : List Cell) (cf : List (Cell × Cell)) (n : Cell),
    n ∈ ns → n ∉ visited → n ∈ (dfsPush current visited ns stack cf).1 := by
  intro ns
  induction ns with
  | nil => intro stack cf n hn; cases hn
  | cons m rest ih =>
    intro stack cf n hn hnv
    rcases List.mem_cons.mp hn with hEq | hTail
    · subst hEq
      simp only [dfsPush, if_neg hnv]
      exact dfsPush_stack_superset _ _ _ _ _ n (List.mem_cons_self n stack)
    · by_cases hm : m ∈ visited
      · simp only [dfsPush, if_pos hm]; exact ih stack cf n hTail hnv
      · simp only [dfsPush, if_neg hm]; exact ih (m :: stack) _ n hTail hnv

theorem dfsPush_cf_mono (current : Cell) (visited : List Cell) :
    ∀ (ns stack : List Cell) (cf : List (Cell × Cell)) (n : Cell) (c : Cell),
    alookup cf n = some c →
    alookup (dfsPush current visited ns stack cf).2 n = some c := by
  intro ns
  induction ns with
  | nil => intro stack cf n c h; exact h
  | cons m rest ih =>
    intro stack cf n c h
    by_cases hm : m ∈ visited
    · simp only [dfsPush, if_pos hm]; exact ih stack cf n c h
    · simp only [dfsPush, if_neg hm]
      by_cases hb : (alookup cf m).isSome
      · rw [if_pos hb]; exact ih _ _ n c h
      · rw [if_neg hb]
        refine ih _ _ n c ?_
        have hmn : m ≠ n := by
          intro hEq; subst hEq; rw [h] at hb; exact hb rfl
        rw [alookup_cons_ne _ _ _ _ hmn]
        exact h

theorem dfsPush_cf_bindings (current : Cell) (visited : List Cell) :
    ∀ (ns stack : List Cell) (cf : List (Cell × Cell)) (n : Cell) (c : Cell),
    alookup (dfsPush current visited ns stack cf).2 n = some c →
    alookup cf n = some c ∨ (c = current ∧ n ∈ ns ∧ n ∉ visited) := by
  intro ns
  induction ns with
  | nil => intro stack cf n c h; exact Or.inl h
  | cons m rest ih =>
    intro stack cf n c h
    by_cases hm : m ∈ visited
    · simp only [dfsPush, if_pos hm] at h
      rcases ih stack cf n c h with h1 | ⟨h1, h2, h3⟩
      · exact Or.inl h1
      · exact Or.inr ⟨h1, List.mem_cons_of_mem m h2, h3⟩
    · simp only [dfsPush, if_neg hm] at h
      by_cases hb : (alookup cf m).isSome
      · rw [if_pos hb] at h
        rcases ih _ _ n c h with h1 | ⟨h1, h2, h3⟩
        · exact Or.inl h1
        · exact Or.inr ⟨h1, List.mem_cons_of_mem m h2, h3⟩
      · rw [if_neg hb] at h
        rcases ih _ _ n c h with h1 | ⟨h1, h2, h3⟩
        · by_cases hmn : m = n
          · subst hmn
            rw [alookup_cons_self] at h1
            injection h1 with h1'
            exact Or.inr ⟨h1'.symm, List.mem_cons_self m rest, hm⟩
          · rw [alookup_cons_ne _ _ _ _ hmn] at h1
            exact Or.inl h1
        · exact Or.inr ⟨h1, List.mem_cons_of_mem m h2, h3⟩

theorem dfsPush_cf_pushes_bound (current : Cell) (visited : List Cell) :
    ∀ (ns stack : List Cell) (cf : List (Cell × Cell)) (n : Cell),
    n ∈ ns → n ∉ visited →
    (alookup (dfsPush current visited ns stack cf).2 n).isSome := by
  intro ns
  induction ns with
  | nil => intro stack cf n hn; cases hn
  | cons m rest ih =>
    intro stack cf n hn hnv
    rcases List.mem_cons.mp hn with hEq | hTail
    · subst hEq
      simp only [dfsPush, if_neg hnv]
      by_cases hb : (alookup cf n).isSome
      · rw [if_pos hb]
        obtain ⟨c, hc⟩ := Option.isSome_iff_exists.mp hb
        rw [dfsPush_cf_mono _ _ _ _ _ _ _ hc]
        rfl
      · rw [if_neg hb]
        rw [dfsPush_cf_mono _ _ _ _ _ _ _ (alookup_cons_self cf n current)]
        rfl
    · by_cases hm : m ∈ visited
      · simp only [dfsPush, if_pos hm]; exact ih stack cf n hTail hnv
      · simp only [dfsPush, if_neg hm]; exact ih _ _ n hTail hnv

/-! ### Closure and start/goal basics -/

theorem WF_start_ne_goal {pf : PF} (hwf : WF pf) : pf.start ≠ pf.goal := by
  intro h
  have h1 := hwf.start_cell
  rw [h, hwf.goal_cell] at h1
  cases h1

/-- A neighbour-closed visited set containing the start contains every
reachable cell. -/
theorem reach_subset_of_closed {pf : PF} {visited : List Cell}
    (hs : pf.start ∈ visited)
    (hc : ∀ c ∈ visited, ∀ nb ∈ get_neighbors pf c, nb ∈ visited) :
    ∀ {n : Nat} {x : Cell}, ReachN pf n x → x ∈ visited := by
  intro n x h
  induction h with
  | zero => exact hs
  | succ hr hnb ih => exact hc _ ih _ hnb

/-- What a successful `_build_path` call from the goal yields, given the
predecessor-map invariants every search maintains: a valid start→goal
route whose cells all lie in the duplicate-free set `D`, hence a route
no longer than `D`. -/
theorem built_path_facts {pf : PF} {cf : List (Cell × Cell)} {p : List Cell}
    {fuel : Nat} (μ : Cell → Nat)
    (hμ : ∀ n c, alookup cf n = some c → μ c < μ n)
    (D : List Cell) (hD : D.Nodup)
    (hvals : ∀ n c, alookup cf n = some c → c ∈ D)
    (hgoalD : pf.goal ∈ D)
    (hbindless : ∀ x ∈ D, alookup cf x = none → x = pf.start)
    (hnbr : ∀ n c, alookup cf n = some c → n ∈ get_neighbors pf c)
    (hp : build_path cf fuel pf.goal [] = some p) :
    ValidPath pf p ∧ p.length ≤ D.length := by
  obtain ⟨q, hpq, hqne, hqlast, ⟨h0, hh0, hh0l⟩, hqchain, hqmem⟩ :=
    build_path_spec cf fuel pf.goal [] p hp
  rw [List.append_nil] at hpq
  subst hpq
  have hsubD : ∀ x ∈ p, x ∈ D := by
    intro x hx
    rcases hqmem x hx with hEq | ⟨y, hy⟩
    · exact hEq ▸ hgoalD
    · exact hvals y x hy
  have hh0D : h0 ∈ D := hsubD h0 (by
    cases p with
    | nil => cases hh0
    | cons a t => injection hh0 with h'; exact h' ▸ List.mem_cons_self a t)
  have hh0start : h0 = pf.start := hbindless h0 hh0D hh0l
  have hnodup : p.Nodup :=
    chain_nodup μ p (hqchain.imp (fun a b h => hμ b a h))
  refine ⟨⟨?_, hqlast, hqchain.imp (fun a b h => hnbr b a h)⟩, ?_⟩
  · rw [hh0, hh0start]
  · exact nodup_subset_length hnodup hD hsubD

/-- The master run lemma for `dfs`: under the loop invariants the search
returns; a `None` result certifies unreachability of the goal, and a
returned path is a valid start→goal route of at most `nodesVisited`
cells. -/
theorem dfsAux_master (pf : PF) :
    ∀ (fuel : Nat) (stack visited : List Cell) (cf : List (Cell × Cell)) (nodes : Nat),
    visited.Nodup →
    (∀ c ∈ visited, is_valid pf c.1 c.2 = true) →
    (∀ c ∈ stack, is_valid pf c.1 c.2 = true) →
    nodes = visited.length →
    (∀ c ∈ visited, c ≠ pf.goal) →
    (∀ c ∈ stack, c = pf.start ∨ (alookup cf c).isSome) →
    (∀ c ∈ visited, c = pf.start ∨ (alookup cf c).isSome) →
    (∀ c ∈ visited, ∀ nb ∈ get_neighbors pf c, nb ∈ visited ∨ nb ∈ stack) →
    (pf.start ∈ visited ∨ pf.start ∈ stack) →
    (∀ n c, alookup cf n = some c → c ∈ visited ∧ n ∈ get_neighbors pf c ∧
      (n ∈ visited → revIdx visited c < revIdx visited n)) →
    stack.length + 5 * (pf.rows * pf.cols - visited.length) < fuel →
    ∃ r n, dfsAux pf fuel stack visited cf nodes = some (r, n) ∧
      (r = none → ¬ Reachable pf pf.goal) ∧
      (∀ p, r = some p → ValidPath pf p ∧ p.length ≤ n) := by
  intro fuel
  induction fuel with
  | zero => intro stack visited cf nodes _ _ _ _ _ _ _ _ _ _ hfuel; omega
  | succ k ih =>
    intro stack visited cf nodes hndv hvv hvs hnodes hng hsb hvb hclose hstart hcf hfuel
    cases stack with
    | nil =>
      refine ⟨none, nodes, ?_, ?_, ?_⟩
      · simp [dfsAux]
      · intro _ hreach
        obtain ⟨n, hr⟩ := hreach
        have hsv : pf.start ∈ visited := by
          rcases hstart with h | h
          · exact h
          · cases h
        have hcl : ∀ c ∈ visited, ∀ nb ∈ get_neighbors pf c, nb ∈ visited := by
          intro c hc nb hnb
          rcases hclose c hc nb hnb with h | h
          · exact h
          · cases h
        exact hng pf.goal (reach_subset_of_closed hsv hcl hr) rfl
      · intro p hp; cases hp
    | cons current rest =>
      by_cases hcv : current ∈ visited
      · obtain ⟨r, n, hrun, h1, h2⟩ := ih rest visited cf nodes hndv hvv
          (fun c hc => hvs c (List.mem_cons_of_mem _ hc)) hnodes hng
          (fun c hc => hsb c (List.mem_cons_of_mem _ hc)) hvb
          (fun c hc nb hnb => by
            rcases hclose c hc nb hnb with h | h
            · exact Or.inl h
            · rcases List.mem_cons.mp h with hEq | hT
              · exact Or.inl (hEq ▸ hcv)
              · exact Or.inr hT)
          (by
            rcases hstart with h | h
            · exact Or.inl h
            · rcases List.mem_cons.mp h with hEq | hT
              · exact Or.inl (hEq ▸ hcv)
              · exact Or.inr hT)
          hcf (by simp only [List.length_cons] at hfuel; omega)
        exact ⟨r, n, by simp only [dfsAux, if_pos hcv]; exact hrun, h1, h2⟩
      · have hcurv : is_valid pf current.1 current.2 = true :=
          hvs current (List.mem_cons_self _ _)
        have hndv' : (current :: visited).Nodup := List.nodup_cons.mpr ⟨hcv, hndv⟩
        have hvv' : ∀ c ∈ current :: visited, is_valid pf c.1 c.2 = true := by
          intro c hc
          rcases List.mem_cons.mp hc with hEq | hT
          · exact hEq ▸ hcurv
          · exact hvv c hT
        have hbnd : (current :: visited).length ≤ pf.rows * pf.cols :=
          valid_cells_bound pf _ hndv' hvv'
        have hvb' : ∀ c ∈ current :: visited, c = pf.start ∨ (alookup cf c).isSome := by
          intro c hc
          rcases List.mem_cons.mp hc with hEq | hT
          · exact hEq ▸ hsb current (List.mem_cons_self _ _)
          · exact hvb c hT
        have hcf' : ∀ n c, alookup cf n = some c → c ∈ current :: visited ∧
            n ∈ get_neighbors pf c ∧
            (n ∈ current :: visited →
              revIdx (current :: visited) c < revIdx (current :: visited) n) := by
          intro n c h
          obtain ⟨hcvis, hnb, hrev⟩ := hcf n c h
          refine ⟨List.mem_cons_of_mem _ hcvis, hnb, ?_⟩
          intro hn
          rcases List.mem_cons.mp hn with hEq | hT
          · subst hEq
            rw [revIdx_head, revIdx_cons hcvis hcv]
            exact revIdx_lt hcvis
          · rw [revIdx_cons hcvis hcv, revIdx_cons hT hcv]
            exact hrev hT
        by_cases hgoal : current = pf.goal
        · -- the goal is popped: reconstruct the path
          set visited' := current :: visited with hvis'
          set μ : Cell → Nat := fun x =>
            if x ∈ visited' then revIdx visited' x else visited'.length with hμdef
          have hμ : ∀ n c, alookup cf n = some c → μ c < μ n := by
            intro n c h
            obtain ⟨hcvis, _, hrev⟩ := hcf' n c h
            by_cases hn : n ∈ visited'
            · simp only [hμdef, if_pos hn, if_pos hcvis]
              exact hrev hn
            · simp only [hμdef, if_neg hn, if_pos hcvis]
              exact revIdx_lt hcvis
          have hbp : (build_path cf (bpFuel pf) current []).isSome := by
            refine build_path_isSome cf μ hμ (bpFuel pf) current [] ?_
            have : μ current ≤ visited'.length := by
              by_cases hn : current ∈ visited'
              · exact Nat.le_of_lt (by simpa [hμdef, hn] using revIdx_lt hn)
              · simp [hμdef, hn]
            have hlt : visited'.length ≤ pf.rows * pf.cols := hbnd
            simp only [bpFuel]
            omega
          obtain ⟨p, hp⟩ := Option.isSome_iff_exists.mp hbp
          have hfacts : ValidPath pf p ∧ p.length ≤ visited'.length := by
            refine built_path_facts μ hμ visited' hndv' ?_ ?_ ?_ ?_ (hgoal ▸ hp)
            · intro n c h
              exact (hcf' n c h).1
            · exact hgoal ▸ List.mem_cons_self _ _
            · intro x hx hbl
              rcases hvb' x hx with h | h
              · exact h
              · rw [hbl] at h; cases h
            · intro n c h
              exact (hcf' n c h).2.1
          refine ⟨some p, nodes + 1, ?_, ?_, ?_⟩
          · simp only [dfsAux, if_neg hcv, if_pos hgoal, hp]
          · intro h; cases h
          · intro p' hp'
            injection hp' with hpp
            subst hpp
            refine ⟨hfacts.1, ?_⟩
            have := hfacts.2
            simp only [hvis', List.length_cons] at this
            omega
        · -- expand the neighbours
          rcases hsplit : dfsPush current (current :: visited)
            (get_neighbors pf current) rest cf with ⟨stack', cf'⟩
          have hs1 : stack' = (dfsPush current (current :: visited)
              (get_neighbors pf current) rest cf).1 := by rw [hsplit]
          have hc1 : cf' = (dfsPush current (current :: visited)
              (get_neighbors pf current) rest cf).2 := by rw [hsplit]
          have hrest_val : ∀ c ∈ rest, is_valid pf c.1 c.2 = true :=
            fun c hc => hvs c (List.mem_cons_of_mem _ hc)
          have hvs' : ∀ c ∈ stack', is_valid pf c.1 c.2 = true := by
            intro c hc
            rcases dfsPush_stack_mem _ _ _ _ _ c (hs1 ▸ hc) with h | ⟨h, _⟩
            · exact hrest_val c h
            · exact mem_neighbors_valid h
          have hsb' : ∀ c ∈ stack', c = pf.start ∨ (alookup cf' c).isSome := by
            intro c hc
            rcases dfsPush_stack_mem _ _ _ _ _ c (hs1 ▸ hc) with h | ⟨h1, h2⟩
            · rcases hsb c (List.mem_cons_of_mem _ h) with hS | hB
              · exact Or.inl hS
              · obtain ⟨v, hv⟩ := Option.isSome_iff_exists.mp hB
                exact Or.inr (by rw [hc1, dfsPush_cf_mono _ _ _ _ _ _ _ hv]; rfl)
            · exact Or.inr (hc1 ▸ dfsPush_cf_pushes_bound _ _ _ _ _ _ h1 h2)
          have hvb'' : ∀ c ∈ current :: visited, c = pf.start ∨ (alookup cf' c).isSome := by
            intro c hc
            rcases hvb' c hc with hS | hB
            · exact Or.inl hS
            · obtain ⟨v, hv⟩ := Option.isSome_iff_exists.mp hB
              exact Or.inr (by rw [hc1, dfsPush_cf_mono _ _ _ _ _ _ _ hv]; rfl)
          have hclose' : ∀ c ∈ current :: visited, ∀ nb ∈ get_neighbors pf c,
              nb ∈ current :: visited ∨ nb ∈ stack' := by
            intro c hc nb hnb
            rcases List.mem_cons.mp hc with hEq | hT
            · rw [hEq] at hnb
              by_cases hnv : nb ∈ current :: visited
              · exact Or.inl hnv
              · exact Or.inr (hs1 ▸ dfsPush_stack_pushes _ _ _ _ _ _ hnb hnv)
            · rcases hclose c hT nb hnb with h | h
              · exact Or.inl (List.mem_cons_of_mem _ h)
              · rcases List.mem_cons.mp h with hEq2 | hT2
                · exact Or.inl (hEq2 ▸ List.mem_cons_self _ _)
                · exact Or.inr (hs1 ▸ dfsPush_stack_superset _ _ _ _ _ _ hT2)
          have hstart' : pf.start ∈ current :: visited ∨ pf.start ∈ stack' := by
            rcases hstart with h | h
            · exact Or.inl (List.mem_cons_of_mem _ h)
            · rcases List.mem_cons.mp h with hEq | hT
              · exact Or.inl (hEq ▸ List.mem_cons_self _ _)
              · exact Or.inr (hs1 ▸ dfsPush_stack_superset _ _ _ _ _ _ hT)
          have hcf'' : ∀ n c, alookup cf' n = some c → c ∈ current :: visited ∧
              n ∈ get_neighbors pf c ∧
              (n ∈ current :: visited →
                revIdx (current :: visited) c < revIdx (current :: visited) n) := by
            intro n c h
            rcases dfsPush_cf_bindings _ _ _ _ _ n c (hc1 ▸ h) with h1 | ⟨h1, h2, h3⟩
            · exact hcf' n c h1
            · subst h1
              exact ⟨List.mem_cons_self _ _, h2, fun hn => absurd hn h3⟩
          have hng' : ∀ c ∈ current :: visited, c ≠ pf.goal := by
            intro c hc
            rcases List.mem_cons.mp hc with hEq | hT
            · exact hEq ▸ hgoal
            · exact hng c hT
          have hfuel' : stack'.length + 5 * (pf.rows * pf.cols -
              (current :: visited).length) < k := by
            have hlen : stack'.length ≤ (get_neighbors pf current).length + rest.length :=
              hs1 ▸ dfsPush_length _ _ _ _ _
            have hnb4 : (get_neighbors pf current).length ≤ 4 := neighbors_length pf current
            simp only [List.length_cons] at hfuel hbnd ⊢
            omega
          obtain ⟨r, n, hrun, h1, h2⟩ := ih stack' (current :: visited) cf' (nodes + 1)
            hndv' hvv' hvs' (by simp [hnodes]) hng' hsb' hvb'' hclose' hstart' hcf'' hfuel'
          refine ⟨r, n, ?_, h1, h2⟩
          simp only [dfsAux, if_neg hcv, if_neg hgoal, hsplit]
          exact hrun

/-! ### Heap facts -/

theorem heappush_length (h : List (Nat × Cell)) (e : Nat × Cell) :
    (heappush h e).length = h.length + 1 := by
  induction h with
  | nil => rfl
  | cons x rest ih =>
    by_cases hle : entryLe e x
    · simp [heappush, hle]
    · simp [heappush, hle, ih]

theorem heappush_mem {h : List (Nat × Cell)} {e x : Nat × Cell} :
    x ∈ heappush h e ↔ x ∈ h ∨ x = e := by
  induction h with
  | nil => simp [heappush]
  | cons y rest ih =>
    by_cases hle : entryLe e y
    · simp only [heappush, if_pos hle, List.mem_cons]
      tauto
    · simp only [heappush, if_neg hle, List.mem_cons, ih]
      tauto

/-! ### Facts about the greedy neighbour loop -/

theorem greedyPush_length (pf : PF) (current : Cell) (visited : List Cell) :
    ∀ (ns : List Cell) (heap : List (Nat × Cell)) (cf : List (Cell × Cell)),
    (greedyPush pf current visited ns heap cf).1.length ≤ ns.length + heap.length := by
  intro ns
  induction ns with
  | nil => intro heap cf; simp [greedyPush]
  | cons n rest ih =>
    intro heap cf
    by_cases hn : n ∈ visited
    · simp only [greedyPush, if_pos hn, List.length_cons]
      have := ih heap cf
      omega
    · simp only [greedyPush, if_neg hn, List.length_cons]
      have := ih (heappush heap (manhattan_dist n pf.goal, n)) ((n, current) :: cf)
      rw [heappush_length] at this
      omega

theorem greedyPush_heap_mem (pf : PF) (current : Cell) (visited : List Cell) :
    ∀ (ns : List Cell) (heap : List (Nat × Cell)) (cf : List (Cell × Cell))
      (e : Nat × Cell),
    e ∈ (greedyPush pf current visited ns heap cf).1 →
    e ∈ heap ∨ (e.2 ∈ ns ∧ e.2 ∉ visited) := by
  intro ns
  induction ns with
  | nil => intro heap cf e he; exact Or.inl he
  | cons n rest ih =>
    intro heap cf e he
    by_cases hn : n ∈ visited
    · simp only [greedyPush, if_pos hn] at he
      rcases ih heap cf e he with h | ⟨h1, h2⟩
      · exact Or.inl h
      · exact Or.inr ⟨List.mem_cons_of_mem n h1, h2⟩
    · simp only [greedyPush, if_neg hn] at he
      rcases ih _ _ e he with h | ⟨h1, h2⟩
      · rcases heappush_mem.mp h with h' | h'
        · exact Or.inl h'
        · subst h'
          exact Or.inr ⟨List.mem_cons_self n rest, hn⟩
      · exact Or.inr ⟨List.mem_cons_of_mem n h1, h2⟩

theorem greedyPush_heap_superset (pf : PF) (current : Cell) (visited : List Cell) :
    ∀ (ns : List Cell) (heap : List (Nat × Cell)) (cf : List (Cell × Cell))
      (e : Nat × Cell),
    e ∈ heap → e ∈ (greedyPush pf current visited ns heap cf).1 := by
  intro ns
  induction ns with
  | nil => intro heap cf e he; exact he
  | cons n rest ih =>
    intro heap cf e he
    by_cases hn : n ∈ visited
    · simp only [greedyPush, if_pos hn]; exact ih heap cf e he
    · simp only [greedyPush, if_neg hn]
      exact ih _ _ e (heappush_mem.mpr (Or.inl he))

theorem greedyPush_heap_pushes (pf : PF) (current : Cell) (visited : List Cell) :
    ∀ (ns : List Cell) (heap : List (Nat × Cell)) (cf : List (Cell × Cell))
      (n : Cell),
    n ∈ ns → n ∉ visited →
    ∃ k, (k, n) ∈ (greedyPush pf current visited ns heap cf).1 := by
  intro ns
  induction ns with
  | nil => intro heap cf n hn; cases hn
  | cons m rest ih =>
    intro heap cf n hn hnv
    rcases List.mem_cons.mp hn with hEq | hTail
    · subst hEq
      simp only [greedyPush, if_neg hnv]
      exact ⟨manhattan_dist n pf.goal,
        greedyPush_heap_superset _ _ _ _ _ _ _ (heappush_mem.mpr (Or.inr rfl))⟩
    · by_cases hm : m ∈ visited
      · simp only [greedyPush, if_pos hm]; exact ih heap cf n hTail hnv
      · simp only [greedyPush, if_neg hm]; exact ih _ _ n hTail hnv

theorem greedyPush_cf_isSome_mono (pf : PF) (current : Cell) (visited : List Cell) :
    ∀ (ns : List Cell) (heap : List (Nat × Cell)) (cf : List (Cell × Cell))
      (x : Cell),
    (alookup cf x).isSome →
    (alookup (greedyPush pf current visited ns heap cf).2 x).isSome := by
  intro ns
  induction ns with
  | nil => intro heap cf x h; exact h
  | cons m rest ih =>
    intro heap cf x h
    by_cases hm : m ∈ visited
    · simp only [greedyPush, if_pos hm]; exact ih heap cf x h
    · simp only [greedyPush, if_neg hm]
      refine ih _ _ x ?_
      by_cases hmx : m = x
      · subst hmx; rw [alookup_cons_self]; rfl
      · rw [alookup_cons_ne _ _ _ _ hmx]; exact h

theorem greedyPush_cf_pushes_bound (pf : PF) (current : Cell) (visited : List Cell) :
    ∀ (ns : List Cell) (heap : List (Nat × Cell)) (cf : List (Cell × Cell))
      (n : Cell),
    n ∈ ns → n ∉ visited →
    (alookup (greedyPush pf current visited ns heap cf).2 n).isSome := by
  intro ns
  induction ns with
  | nil => intro heap cf n hn; cases hn
  | cons m rest ih =>
    intro heap cf n hn hnv
    rcases List.mem_cons.mp hn with hEq | hTail
    · subst hEq
      simp only [greedyPush, if_neg hnv]
      exact greedyPush_cf_isSome_mono _ _ _ _ _ _ _
        (by rw [alookup_cons_self]; rfl)
    · by_cases hm : m ∈ visited
      · simp only [greedyPush, if_pos hm]; exact ih heap cf n hTail hnv
      · simp only [greedyPush, if_neg hm]; exact ih _ _ n hTail hnv

theorem greedyPush_cf_bindings (pf : PF) (current : Cell) (visited : List Cell) :
    ∀ (ns : List Cell) (heap : List (Nat × Cell)) (cf : List (Cell × Cell))
      (n c : Cell),
    alookup (greedyPush pf current visited ns heap cf).2 n = some c →
    alookup cf n = some c ∨ (c = current ∧ n ∈ ns ∧ n ∉ visited) := by
  intro ns
  induction ns with
  | nil => intro heap cf n c h; exact Or.inl h
  | cons m rest ih =>
    intro heap cf n c h
    by_cases hm : m ∈ visited
    · simp only [greedyPush, if_pos hm] at h
      rcases ih heap cf n c h with h1 | ⟨h1, h2, h3⟩
      · exact Or.inl h1
      · exact Or.inr ⟨h1, List.mem_cons_of_mem m h2, h3⟩
    · simp only [greedyPush, if_neg hm] at h
      rcases ih _ _ n c h with h1 | ⟨h1, h2, h3⟩
      · by_cases hmn : m = n
        · subst hmn
          rw [alookup_cons_self] at h1
          injection h1 with h1'
          exact Or.inr ⟨h1'.symm, List.mem_cons_self m rest, hm⟩
        · rw [alookup_cons_ne _ _ _ _ hmn] at h1
          exact Or.inl h1
      · exact Or.inr ⟨h1, List.mem_cons_of_mem m h2, h3⟩

/-- The master run lemma for `greedy`: same conclusions as for `dfs`. -/
theorem greedyAux_master (pf : PF) :
    ∀ (fuel : Nat) (heap : List (Nat × Cell)) (visited : List Cell)
      (cf : List (Cell × Cell)) (nodes : Nat),
    visited.Nodup →
    (∀ c ∈ visited, is_valid pf c.1 c.2 = true) →
    (∀ e ∈ heap, is_valid pf e.2.1 e.2.2 = true) →
    nodes = visited.length →
    (∀ c ∈ visited, c ≠ pf.goal) →
    (∀ e ∈ heap, e.2 = pf.start ∨ (alookup cf e.2).isSome) →
    (∀ c ∈ visited, c = pf.start ∨ (alookup cf c).isSome) →
    (∀ c ∈ visited, ∀ nb ∈ get_neighbors pf c, nb ∈ visited ∨ ∃ k, (k, nb) ∈ heap) →
    (pf.start ∈ visited ∨ ∃ k, (k, pf.start) ∈ heap) →
    (∀ n c, alookup cf n = some c → c ∈ visited ∧ n ∈ get_neighbors pf c ∧
      (n ∈ visited → revIdx visited c < revIdx visited n)) →
    heap.length + 5 * (pf.rows * pf.cols - visited.length) < fuel →
    ∃ r n, greedyAux pf fuel heap visited cf nodes = some (r, n) ∧
      (r = none → ¬ Reachable pf pf.goal) ∧
      (∀ p, r = some p → ValidPath pf p ∧ p.length ≤ n) := by
  intro fuel
  induction fuel with
  | zero => intro heap visited cf nodes _ _ _ _ _ _ _ _ _ _ hfuel; omega
  | succ k ih =>
    intro heap visited cf nodes hndv hvv hvs hnodes hng hsb hvb hclose hstart hcf hfuel
    cases heap with
    | nil =>
      refine ⟨none, nodes, ?_, ?_, ?_⟩
      · simp [greedyAux, heappop]
      · intro _ hreach
        obtain ⟨n, hr⟩ := hreach
        have hsv : pf.start ∈ visited := by
          rcases hstart with h | ⟨k', h⟩
          · exact h
          · cases h
        have hcl : ∀ c ∈ visited, ∀ nb ∈ get_neighbors pf c, nb ∈ visited := by
          intro c hc nb hnb
          rcases hclose c hc nb hnb with h | ⟨k', h⟩
          · exact h
          · cases h
        exact hng pf.goal (reach_subset_of_closed hsv hcl hr) rfl
      · intro p hp; cases hp
    | cons e rest =>
      obtain ⟨kk, current⟩ := e
      by_cases hcv : current ∈ visited
      · obtain ⟨r, n, hrun, h1, h2⟩ := ih rest visited cf nodes hndv hvv
          (fun e he => hvs e (List.mem_cons_of_mem _ he)) hnodes hng
          (fun e he => hsb e (List.mem_cons_of_mem _ he)) hvb
          (fun c hc nb hnb => by
            rcases hclose c hc nb hnb with h | ⟨k', h⟩
            · exact Or.inl h
            · rcases List.mem_cons.mp h with hEq | hT
              · injection hEq with _ hEq2
                exact Or.inl (hEq2 ▸ hcv)
              · exact Or.inr ⟨k', hT⟩)
          (by
            rcases hstart with h | ⟨k', h⟩
            · exact Or.inl h
            · rcases List.mem_cons.mp h with hEq | hT
              · injection hEq with _ hEq2
                exact Or.inl (hEq2 ▸ hcv)
              · exact Or.inr ⟨k', hT⟩)
          hcf (by simp only [List.length_cons] at hfuel; omega)
        exact ⟨r, n, by simp only [greedyAux, heappop, if_pos hcv]; exact hrun, h1, h2⟩
      · have hcurv : is_valid pf current.1 current.2 = true :=
          hvs (kk, current) (List.mem_cons_self _ _)
        have hndv' : (current :: visited).Nodup := List.nodup_cons.mpr ⟨hcv, hndv⟩
        have hvv' : ∀ c ∈ current :: visited, is_valid pf c.1 c.2 = true := by
          intro c hc
          rcases List.mem_cons.mp hc with hEq | hT
          · exact hEq ▸ hcurv
          · exact hvv c hT
        have hbnd : (current :: visited).length ≤ pf.rows * pf.cols :=
          valid_cells_bound pf _ hndv' hvv'
        have hvb' : ∀ c ∈ current :: visited, c = pf.start ∨ (alookup cf c).isSome := by
          intro c hc
          rcases List.mem_cons.mp hc with hEq | hT
          · exact hEq ▸ hsb (kk, current) (List.mem_cons_self _ _)
          · exact hvb c hT
        have hcf' : ∀ n c, alookup cf n = some c → c ∈ current :: visited ∧
            n ∈ get_neighbors pf c ∧
            (n ∈ current :: visited →
              revIdx (current :: visited) c < revIdx (current :: visited) n) := by
          intro n c h
          obtain ⟨hcvis, hnb, hrev⟩ := hcf n c h
          refine ⟨List.mem_cons_of_mem _ hcvis, hnb, ?_⟩
          intro hn
          rcases List.mem_cons.mp hn with hEq | hT
          · subst hEq
            rw [revIdx_head, revIdx_cons hcvis hcv]
            exact revIdx_lt hcvis
          · rw [revIdx_cons hcvis hcv, revIdx_cons hT hcv]
            exact hrev hT
        by_cases hgoal : current = pf.goal
        · set visited' := current :: visited with hvis'
          set μ : Cell → Nat := fun x =>
            if x ∈ visited' then revIdx visited' x else visited'.length with hμdef
          have hμ : ∀ n c, alookup cf n = some c → μ c < μ n := by
            intro n c h
            obtain ⟨hcvis, _, hrev⟩ := hcf' n c h
            by_cases hn : n ∈ visited'
            · simp only [hμdef, if_pos hn, if_pos hcvis]
              exact hrev hn
            · simp only [hμdef, if_neg hn, if_pos hcvis]
              exact revIdx_lt hcvis
          have hbp : (build_path cf (bpFuel pf) current []).isSome := by
            refine build_path_isSome cf μ hμ (bpFuel pf) current [] ?_
            have : μ current ≤ visited'.length := by
              by_cases hn : current ∈ visited'
              · exact Nat.le_of_lt (by simpa [hμdef, hn] using revIdx_lt hn)
              · simp [hμdef, hn]
            simp only [bpFuel]
            omega
          obtain ⟨p, hp⟩ := Option.isSome_iff_exists.mp hbp
          have hfacts : ValidPath pf p ∧ p.length ≤ visited'.length := by
            refine built_path_facts μ hμ visited' hndv' ?_ ?_ ?_ ?_ (hgoal ▸ hp)
            · intro n c h
              exact (hcf' n c h).1
            · exact hgoal ▸ List.mem_cons_self _ _
            · intro x hx hbl
              rcases hvb' x hx with h | h
              · exact h
              · rw [hbl] at h; cases h
            · intro n c h
              exact (hcf' n c h).2.1
          refine ⟨some p, nodes + 1, ?_, ?_, ?_⟩
          · simp only [greedyAux, heappop, if_neg hcv, if_pos hgoal, hp]
          · intro h; cases h
          · intro p' hp'
            injection hp' with hpp
            subst hpp
            refine ⟨hfacts.1, ?_⟩
            have := hfacts.2
            simp only [hvis', List.length_cons] at this
            omega
        · rcases hsplit : greedyPush pf current (current :: visited)
            (get_neighbors pf current) rest cf with ⟨heap', cf'⟩
          have hs1 : heap' = (greedyPush pf current (current :: visited)
              (get_neighbors pf current) rest cf).1 := by rw [hsplit]
          have hc1 : cf' = (greedyPush pf current (current :: visited)
              (get_neighbors pf current) rest cf).2 := by rw [hsplit]
          have hvs' : ∀ e ∈ heap', is_valid pf e.2.1 e.2.2 = true := by
            intro e he
            rcases greedyPush_heap_mem _ _ _ _ _ _ e (hs1 ▸ he) with h | ⟨h, _⟩
            · exact hvs e (List.mem_cons_of_mem _ h)
            · exact mem_neighbors_valid h
          have hsb' : ∀ e ∈ heap', e.2 = pf.start ∨ (alookup cf' e.2).isSome := by
            intro e he
            rcases greedyPush_heap_mem _ _ _ _ _ _ e (hs1 ▸ he) with h | ⟨h1, h2⟩
            · rcases hsb e (List.mem_cons_of_mem _ h) with hS | hB
              · exact Or.inl hS
              · exact Or.inr (hc1 ▸ greedyPush_cf_isSome_mono _ _ _ _ _ _ _ hB)
            · exact Or.inr (hc1 ▸ greedyPush_cf_pushes_bound _ _ _ _ _ _ _ h1 h2)
          have hvb'' : ∀ c ∈ current :: visited, c = pf.start ∨ (alookup cf' c).isSome := by
            intro c hc
            rcases hvb' c hc with hS | hB
            · exact Or.inl hS
            · exact Or.inr (hc1 ▸ greedyPush_cf_isSome_mono _ _ _ _ _ _ _ hB)
          have hclose' : ∀ c ∈ current :: visited, ∀ nb ∈ get_neighbors pf c,
              nb ∈ current :: visited ∨ ∃ k', (k', nb) ∈ heap' := by
            intro c hc nb hnb
            rcases List.mem_cons.mp hc with hEq | hT
            · rw [hEq] at hnb
              by_cases hnv : nb ∈ current :: visited
              · exact Or.inl hnv
              · obtain ⟨k', hk'⟩ := greedyPush_heap_pushes pf current (current :: visited)
                  (get_neighbors pf current) rest cf nb hnb hnv
                exact Or.inr ⟨k', hs1 ▸ hk'⟩
            · rcases hclose c hT nb hnb with h | ⟨k', h⟩
              · exact Or.inl (List.mem_cons_of_mem _ h)
              · rcases List.mem_cons.mp h with hEq2 | hT2
                · injection hEq2 with _ hEq3
                  exact Or.inl (hEq3 ▸ List.mem_cons_self _ _)
                · exact Or.inr ⟨k', hs1 ▸ greedyPush_heap_superset _ _ _ _ _ _ _ hT2⟩
          have hstart' : pf.start ∈ current :: visited ∨ ∃ k', (k', pf.start) ∈ heap' := by
            rcases hstart with h | ⟨k', h⟩
            · exact Or.inl (List.mem_cons_of_mem _ h)
            · rcases List.mem_cons.mp h with hEq | hT
              · injection hEq with _ hEq2
                exact Or.inl (hEq2 ▸ List.mem_cons_self _ _)
              · exact Or.inr ⟨k', hs1 ▸ greedyPush_heap_superset _ _ _ _ _ _ _ hT⟩
          have hcf'' : ∀ n c, alookup cf' n = some c → c ∈ current :: visited ∧
              n ∈ get_neighbors pf c ∧
              (n ∈ current :: visited →
                revIdx (current :: visited) c < revIdx (current :: visited) n) := by
            intro n c h
            rcases greedyPush_cf_bindings _ _ _ _ _ _ n c (hc1 ▸ h) with h1 | ⟨h1, h2, h3⟩
            · exact hcf' n c h1
            · subst h1
              exact ⟨List.mem_cons_self _ _, h2, fun hn => absurd hn h3⟩
          have hng' : ∀ c ∈ current :: visited, c ≠ pf.goal := by
            intro c hc
            rcases List.mem_cons.mp hc with hEq | hT
            · exact hEq ▸ hgoal
            · exact hng c hT
          have hfuel' : heap'.length + 5 * (pf.rows * pf.cols -
              (current :: visited).length) < k := by
            have hlen : heap'.length ≤ (get_neighbors pf current).length + rest.length :=
              hs1 ▸ greedyPush_length _ _ _ _ _ _
            have hnb4 : (get_neighbors pf current).length ≤ 4 := neighbors_length pf current
            simp only [List.length_cons] at hfuel hbnd ⊢
            omega
          obtain ⟨r, n, hrun, h1, h2⟩ := ih heap' (current :: visited) cf' (nodes + 1)
            hndv' hvv' hvs' (by simp [hnodes]) hng' hsb' hvb'' hclose' hstart' hcf'' hfuel'
          refine ⟨r, n, ?_, h1, h2⟩
          simp only [greedyAux, heappop, if_neg hcv, if_neg hgoal, hsplit]
          exact hrun

/-! ### Facts about the ucs neighbour loop -/

theorem ucsRelax_heap_superset (current : Cell) (kk : Nat) :
    ∀ (ns : List Cell) (heap : List (Nat × Cell)) (cf : List (Cell × Cell))
      (cost : List (Cell × Nat)) (e : Nat × Cell),
    e ∈ heap → e ∈ (ucsRelax current kk ns heap cf cost).1 := by
  intro ns
  induction ns with
  | nil => intro heap cf cost e he; exact he
  | cons n rest ih =>
    intro heap cf cost e he
    cases hn : alookup cost n with
    | none =>
      simp only [ucsRelax, hn, if_pos]
      exact ih _ _ _ e (heappush_mem.mpr (Or.inl he))
    | some cn =>
      by_cases hlt : kk + 1 < cn
      · simp only [ucsRelax, hn, decide_eq_true_eq, if_pos hlt]
        exact ih _ _ _ e (heappush_mem.mpr (Or.inl he))
      · simp only [ucsRelax, hn, decide_eq_true_eq, if_neg hlt]
        exact ih _ _ _ e he

theorem ucsRelax_heap_mem (current : Cell) (kk : Nat) :
    ∀ (ns : List Cell) (heap : List (Nat × Cell)) (cf : List (Cell × Cell))
      (cost : List (Cell × Nat)) (e : Nat × Cell),
    e ∈ (ucsRelax current kk ns heap cf cost).1 →
    e ∈ heap ∨ (e.2 ∈ ns ∧ e.1 = kk + 1) := by
  intro ns
  induction ns with
  | nil => intro heap cf cost e he; exact Or.inl he
  | cons n rest ih =>
    intro heap cf cost e he
    have step : ∀ (heap' : List (Nat × Cell)) (cf' : List (Cell × Cell))
        (cost' : List (Cell × Nat)),
        e ∈ (ucsRelax current kk rest heap' cf' cost').1 →
        e ∈ heap' ∨ (e.2 ∈ n :: rest ∧ e.1 = kk + 1) := by
      intro heap' cf' cost' h
      rcases ih heap' cf' cost' e h with h1 | ⟨h1, h2⟩
      · exact Or.inl h1
      · exact Or.inr ⟨List.mem_cons_of_mem n h1, h2⟩
    cases hn : alookup cost n with
    | none =>
      simp only [ucsRelax, hn, if_pos] at he
      rcases step _ _ _ he with h1 | h1
      · rcases heappush_mem.mp h1 with h2 | h2
        · exact Or.inl h2
        · subst h2
          exact Or.inr ⟨List.mem_cons_self n rest, rfl⟩
      · exact Or.inr h1
    | some cn =>
      by_cases hlt : kk + 1 < cn
      · simp only [ucsRelax, hn, decide_eq_true_eq, if_pos hlt] at he
        rcases step _ _ _ he with h1 | h1
        · rcases heappush_mem.mp h1 with h2 | h2
          · exact Or.inl h2
          · subst h2
            exact Or.inr ⟨List.mem_cons_self n rest, rfl⟩
        · exact Or.inr h1
      · simp only [ucsRelax, hn, decide_eq_true_eq, if_neg hlt] at he
        exact step _ _ _ he

theorem ucsRelax_length (current : Cell) (kk : Nat) :
    ∀ (ns : List Cell) (heap : List (Nat × Cell)) (cf : List (Cell × Cell))
      (cost : List (Cell × Nat)),
    (ucsRelax current kk ns heap cf cost).1.length ≤ ns.length + heap.length := by
  intro ns
  induction ns with
  | nil => intro heap cf cost; simp [ucsRelax]
  | cons n rest ih =>
    intro heap cf cost
    cases hn : alookup cost n with
    | none =>
      simp only [ucsRelax, hn, if_pos, List.length_cons]
      have := ih (heappush heap (kk + 1, n)) ((n, current) :: cf) ((n, kk + 1) :: cost)
      rw [heappush_length] at this
      omega
    | some cn =>
      by_cases hlt : kk + 1 < cn
      · simp only [ucsRelax, hn, decide_eq_true_eq, if_pos hlt, List.length_cons]
        have := ih (heappush heap (kk + 1, n)) ((n, current) :: cf) ((n, kk + 1) :: cost)
        rw [heappush_length] at this
        omega
      · simp only [ucsRelax, hn, decide_eq_true_eq, if_neg hlt, List.length_cons]
        have := ih heap cf cost
        omega

theorem ucsRelax_cf_bindings (current : Cell) (kk : Nat) :
    ∀ (ns : List Cell) (heap : List (Nat × Cell)) (cf : List (Cell × Cell))
      (cost : List (Cell × Nat)) (n c : Cell),
    alookup (ucsRelax current kk ns heap cf cost).2.1 n = some c →
    alookup cf n = some c ∨ (c = current ∧ n ∈ ns) := by
  intro ns
  induction ns with
  | nil => intro heap cf cost n c h; exact Or.inl h
  | cons m rest ih =>
    intro heap cf cost n c h
    have step : ∀ (heap' : List (Nat × Cell)) (cf' : List (Cell × Cell))
        (cost' : List (Cell × Nat)),
        alookup (ucsRelax current kk rest heap' cf' cost').2.1 n = some c →
        alookup cf' n = some c ∨ (c = current ∧ n ∈ m :: rest) := by
      intro heap' cf' cost' hh
      rcases ih heap' cf' cost' n c hh with h1 | ⟨h1, h2⟩
      · exact Or.inl h1
      · exact Or.inr ⟨h1, List.mem_cons_of_mem m h2⟩
    have newbind : alookup ((m, current) :: cf) n = some c →
        alookup cf n = some c ∨ (c = current ∧ n ∈ m :: rest) := by
      intro h1
      by_cases hmn : m = n
      · subst hmn
        rw [alookup_cons_self] at h1
        injection h1 with h1'
        exact Or.inr ⟨h1'.symm, List.mem_cons_self m rest⟩
      · rw [alookup_cons_ne _ _ _ _ hmn] at h1
        exact Or.inl h1
    cases hn : alookup cost m with
    | none =>
      simp only [ucsRelax, hn, if_pos] at h
      rcases step _ _ _ h with h1 | h1
      · exact newbind h1
      · exact Or.inr h1
    | some cn =>
      by_cases hlt : kk + 1 < cn
      · simp only [ucsRelax, hn, decide_eq_true_eq, if_pos hlt] at h
        rcases step _ _ _ h with h1 | h1
        · exact newbind h1
        · exact Or.inr h1
      · simp only [ucsRelax, hn, decide_eq_true_eq, if_neg hlt] at h
        exact step _ _ _ h

theorem ucsRelax_cf_isSome_mono (current : Cell) (kk : Nat) :
    ∀ (ns : List Cell) (heap : List (Nat × Cell)) (cf : List (Cell × Cell))
      (cost : List (Cell × Nat)) (x : Cell),
    (alookup cf x).isSome →
    (alookup (ucsRelax current kk ns heap cf cost).2.1 x).isSome := by
  intro ns
  induction ns with
  | nil => intro heap cf cost x h; exact h
  | cons m rest ih =>
    intro heap cf cost x h
    have hcons : (alookup ((m, current) :: cf) x).isSome := by
      by_cases hmx : m = x
      · subst hmx; rw [alookup_cons_self]; rfl
      · rw [alookup_cons_ne _ _ _ _ hmx]; exact h
    cases hn : alookup cost m with
    | none =>
      simp only [ucsRelax, hn, if_pos]
      exact ih _ _ _ x hcons
    | some cn =>
      by_cases hlt : kk + 1 < cn
      · simp only [ucsRelax, hn, decide_eq_true_eq, if_pos hlt]
        exact ih _ _ _ x hcons
      · simp only [ucsRelax, hn, decide_eq_true_eq, if_neg hlt]
        exact ih _ _ _ x h

/-- Invariant preservation through the `ucs` neighbour loop: the
heap-entry/cost bound (lazy-deletion discipline), the cost bound, the
finalized cost of the expanded cell, the strict cost drop along
predecessor links, the pending-entry guarantee for costed unvisited
cells, the costing of every processed neighbour, and monotone
(non-increasing) evolution of recorded costs. -/
theorem ucsRelax_inv (current : Cell) (kk B : Nat) (V : List Cell)
    (hkkB : kk + 1 ≤ B) :
    ∀ (ns : List Cell) (heap : List (Nat × Cell)) (cf : List (Cell × Cell))
      (cost : List (Cell × Nat)),
    (∀ e ∈ heap, ∃ v, alookup cost e.2 = some v ∧ v ≤ e.1) →
    (∀ x v, alookup cost x = some v → v ≤ B) →
    (∃ vc, alookup cost current = some vc ∧ vc ≤ kk) →
    (∀ n c, alookup cf n = some c → ∃ vn vc, alookup cost n = some vn ∧
      alookup cost c = some vc ∧ vc < vn) →
    (∀ x v, alookup cost x = some v → x ∈ V ∨ ∃ k', (k', x) ∈ heap) →
    (∀ e ∈ (ucsRelax current kk ns heap cf cost).1, ∃ v,
      alookup (ucsRelax current kk ns heap cf cost).2.2 e.2 = some v ∧ v ≤ e.1) ∧
    (∀ x v, alookup (ucsRelax current kk ns heap cf cost).2.2 x = some v → v ≤ B) ∧
    (∃ vc, alookup (ucsRelax current kk ns heap cf cost).2.2 current = some vc ∧ vc ≤ kk) ∧
    (∀ n c, alookup (ucsRelax current kk ns heap cf cost).2.1 n = some c →
      ∃ vn vc, alookup (ucsRelax current kk ns heap cf cost).2.2 n = some vn ∧
        alookup (ucsRelax current kk ns heap cf cost).2.2 c = some vc ∧ vc < vn) ∧
    (∀ x v, alookup (ucsRelax current kk ns heap cf cost).2.2 x = some v →
      x ∈ V ∨ ∃ k', (k', x) ∈ (ucsRelax current kk ns heap cf cost).1) ∧
    (∀ n ∈ ns, (alookup (ucsRelax current kk ns heap cf cost).2.2 n).isSome) ∧
    (∀ x v, alookup cost x = some v →
      ∃ v', alookup (ucsRelax current kk ns heap cf cost).2.2 x = some v' ∧ v' ≤ v) := by
  intro ns
  induction ns with
  | nil =>
    intro heap cf cost hHC hCB hcur hCF hD5
    refine ⟨hHC, hCB, hcur, hCF, hD5, ?_, ?_⟩
    · intro n hn; cases hn
    · intro x v hv; exact ⟨v, hv, le_refl v⟩
  | cons m rest ih =>
    intro heap cf cost hHC hCB hcur hCF hD5
    obtain ⟨vc0, hvc0, hvc0le⟩ := hcur
    have hmcur : ∀ cn, alookup cost m = some cn → kk + 1 < cn → m ≠ current := by
      intro cn hcn hlt hEq
      rw [hEq, hvc0] at hcn
      injection hcn with hcn'
      omega
    -- the updated-state hypotheses, shared by the two `better` branches
    have hupd : ∀ (hbind : alookup cost m = none ∨
        ∃ cn, alookup cost m = some cn ∧ kk + 1 < cn),
        (∀ e ∈ heappush heap (kk + 1, m), ∃ v,
          alookup ((m, kk + 1) :: cost) e.2 = some v ∧ v ≤ e.1) ∧
        (∀ x v, alookup ((m, kk + 1) :: cost) x = some v → v ≤ B) ∧
        (∃ vc, alookup ((m, kk + 1) :: cost) current = some vc ∧ vc ≤ kk) ∧
        (∀ n c, alookup ((m, current) :: cf) n = some c →
          ∃ vn vc, alookup ((m, kk + 1) :: cost) n = some vn ∧
            alookup ((m, kk + 1) :: cost) c = some vc ∧ vc < vn) ∧
        (∀ x v, alookup ((m, kk + 1) :: cost) x = some v →
          x ∈ V ∨ ∃ k', (k', x) ∈ heappush heap (kk + 1, m)) := by
      intro hbind
      have hmc : m ≠ current := by
        rcases hbind with hb | ⟨cn, hcn, hlt⟩
        · intro hEq; rw [hEq, hvc0] at hb; cases hb
        · exact hmcur cn hcn hlt
      have hlookup : ∀ x, x ≠ m →
          alookup ((m, kk + 1) :: cost) x = alookup cost x := by
        intro x hx
        exact alookup_cons_ne _ _ _ _ (fun h => hx h.symm)
      have hcostm : ∀ v, alookup cost m = some v → kk + 1 < v := by
        intro v hv
        rcases hbind with hb | ⟨cn, hcn, hlt⟩
        · rw [hb] at hv; cases hv
        · rw [hcn] at hv; injection hv with hv'; omega
      refine ⟨?_, ?_, ?_, ?_, ?_⟩
      · intro e he
        rcases heappush_mem.mp he with h1 | h1
        · obtain ⟨v, hv, hvle⟩ := hHC e h1
          by_cases hem : e.2 = m
          · rw [hem] at hv ⊢
            rw [alookup_cons_self]
            exact ⟨kk + 1, rfl, le_trans (le_of_lt (hcostm v hv)) hvle⟩
          · rw [hlookup _ hem]
            exact ⟨v, hv, hvle⟩
        · subst h1
          rw [alookup_cons_self]
          exact ⟨kk + 1, rfl, le_refl _⟩
      · intro x v hv
        by_cases hxm : x = m
        · subst hxm
          rw [alookup_cons_self] at hv
          injection hv with hv'
          omega
        · rw [hlookup _ hxm] at hv
          exact hCB x v hv
      · rw [hlookup _ hmc.symm]
        exact ⟨vc0, hvc0, hvc0le⟩
      · intro n c h
        by_cases hnm : n = m
        · subst hnm
          rw [alookup_cons_self] at h
          injection h with h'
          subst h'
          rw [alookup_cons_self, hlookup _ hmc.symm]
          exact ⟨kk + 1, vc0, rfl, hvc0, by omega⟩
        · rw [alookup_cons_ne _ _ _ _ (fun h' => hnm h'.symm)] at h
          obtain ⟨vn, vc, hvn, hvcc, hlt⟩ := hCF n c h
          rw [hlookup _ hnm]
          by_cases hcm : c = m
          · subst hcm
            rw [alookup_cons_self]
            exact ⟨vn, kk + 1, hvn, rfl, by have := hcostm vc hvcc; omega⟩
          · rw [hlookup _ hcm]
            exact ⟨vn, vc, hvn, hvcc, hlt⟩
      · intro x v hv
        by_cases hxm : x = m
        · subst hxm
          exact Or.inr ⟨kk + 1, heappush_mem.mpr (Or.inr rfl)⟩
        · rw [hlookup _ hxm] at hv
          rcases hD5 x v hv with h1 | ⟨k', h1⟩
          · exact Or.inl h1
          · exact Or.inr ⟨k', heappush_mem.mpr (Or.inl h1)⟩
    cases hn : alookup cost m with
    | none =>
      obtain ⟨u1, u2, u3, u4, u5⟩ := hupd (Or.inl hn)
      obtain ⟨c1, c2, c3, c4, c5, c6, c7⟩ := ih _ _ _ u1 u2 u3 u4 u5
      simp only [ucsRelax, hn, if_pos]
      refine ⟨c1, c2, c3, c4, c5, ?_, ?_⟩
      · intro n' hn'
        rcases List.mem_cons.mp hn' with hEq | hT
        · subst hEq
          obtain ⟨v', hv', _⟩ := c7 n' (kk + 1) (alookup_cons_self _ _ _)
          rw [hv']; rfl
        · exact c6 n' hT
      · intro x v hv
        have hxm : x ≠ m := by
          intro hEq; rw [hEq, hn] at hv; cases hv
        have : alookup ((m, kk + 1) :: cost) x = some v := by
          rw [alookup_cons_ne _ _ _ _ (fun h => hxm h.symm)]; exact hv
        exact c7 x v this
    | some cn =>
      by_cases hlt : kk + 1 < cn
      · obtain ⟨u1, u2, u3, u4, u5⟩ := hupd (Or.inr ⟨cn, hn, hlt⟩)
        obtain ⟨c1, c2, c3, c4, c5, c6, c7⟩ := ih _ _ _ u1 u2 u3 u4 u5
        simp only [ucsRelax, hn, decide_eq_true_eq, if_pos hlt]
        refine ⟨c1, c2, c3, c4, c5, ?_, ?_⟩
        · intro n' hn'
          rcases List.mem_cons.mp hn' with hEq | hT
          · subst hEq
            obtain ⟨v', hv', _⟩ := c7 n' (kk + 1) (alookup_cons_self _ _ _)
            rw [hv']; rfl
          · exact c6 n' hT
        · intro x v hv
          by_cases hxm : x = m
          · subst hxm
            rw [hn] at hv
            injection hv with hv'
            subst hv'
            obtain ⟨v', hv', hle'⟩ := c7 x (kk + 1) (alookup_cons_self _ _ _)
            exact ⟨v', hv', by omega⟩
          · have : alookup ((m, kk + 1) :: cost) x = some v := by
              rw [alookup_cons_ne _ _ _ _ (fun h => hxm h.symm)]; exact hv
            exact c7 x v this
      · obtain ⟨c1, c2, c3, c4, c5, c6, c7⟩ := ih heap cf cost hHC hCB
          ⟨vc0, hvc0, hvc0le⟩ hCF hD5
        simp only [ucsRelax, hn, decide_eq_true_eq, if_neg hlt]
        refine ⟨c1, c2, c3, c4, c5, ?_, c7⟩
        intro n' hn'
        rcases List.mem_cons.mp hn' with hEq | hT
        · subst hEq
          obtain ⟨v', hv', _⟩ := c7 n' cn hn
          rw [hv']; rfl
        · exact c6 n' hT

theorem ucsRelax_pushed_bound (current : Cell) (kk : Nat) :
    ∀ (ns : List Cell) (heap : List (Nat × Cell)) (cf : List (Cell × Cell))
      (cost : List (Cell × Nat)) (e : Nat × Cell),
    e ∈ (ucsRelax current kk ns heap cf cost).1 →
    e ∈ heap ∨ (alookup (ucsRelax current kk ns heap cf cost).2.1 e.2).isSome := by
  intro ns
  induction ns with
  | nil => intro heap cf cost e he; exact Or.inl he
  | cons m rest ih =>
    intro heap cf cost e he
    have hbound : (alookup ((m, current) :: cf) m).isSome := by
      rw [alookup_cons_self]; rfl
    cases hn : alookup cost m with
    | none =>
      simp only [ucsRelax, hn, if_pos] at he ⊢
      rcases ih _ _ _ e he with h1 | h1
      · rcases heappush_mem.mp h1 with h2 | h2
        · exact Or.inl h2
        · subst h2
          exact Or.inr (ucsRelax_cf_isSome_mono _ _ _ _ _ _ _ hbound)
      · exact Or.inr h1
    | some cn =>
      by_cases hlt : kk + 1 < cn
      · simp only [ucsRelax, hn, decide_eq_true_eq, if_pos hlt] at he ⊢
        rcases ih _ _ _ e he with h1 | h1
        · rcases heappush_mem.mp h1 with h2 | h2
          · exact Or.inl h2
          · subst h2
            exact Or.inr (ucsRelax_cf_isSome_mono _ _ _ _ _ _ _ hbound)
        · exact Or.inr h1
      · simp only [ucsRelax, hn, decide_eq_true_eq, if_neg hlt] at he ⊢
        exact ih _ _ _ e he

/-- The master run lemma for `ucs`: same conclusions as for `dfs`. -/
theorem ucsAux_master (pf : PF) :
    ∀ (fuel : Nat) (heap : List (Nat × Cell)) (visited : List Cell)
      (cf : List (Cell × Cell)) (cost : List (Cell × Nat)) (nodes : Nat),
    visited.Nodup →
    (∀ c ∈ visited, is_valid pf c.1 c.2 = true) →
    (∀ e ∈ heap, is_valid pf e.2.1 e.2.2 = true) →
    nodes = visited.length →
    (∀ c ∈ visited, c ≠ pf.goal) →
    (∀ e ∈ heap, e.2 = pf.start ∨ (alookup cf e.2).isSome) →
    (∀ c ∈ visited, c = pf.start ∨ (alookup cf c).isSome) →
    (∀ c ∈ visited, ∀ nb ∈ get_neighbors pf c, (alookup cost nb).isSome) →
    (alookup cost pf.start).isSome →
    (∀ e ∈ heap, ∃ v, alookup cost e.2 = some v ∧ v ≤ e.1) →
    (∀ e ∈ heap, e.1 ≤ visited.length) →
    (∀ x v, alookup cost x = some v → v ≤ visited.length) →
    (∀ n c, alookup cf n = some c → c ∈ visited ∧ n ∈ get_neighbors pf c) →
    (∀ n c, alookup cf n = some c → ∃ vn vc, alookup cost n = some vn ∧
      alookup cost c = some vc ∧ vc < vn) →
    (∀ x v, alookup cost x = some v → x ∈ visited ∨ ∃ k', (k', x) ∈ heap) →
    heap.length + 5 * (pf.rows * pf.cols - visited.length) < fuel →
    ∃ r n, ucsAux pf fuel heap visited cf cost nodes = some (r, n) ∧
      (r = none → ¬ Reachable pf pf.goal) ∧
      (∀ p, r = some p → ValidPath pf p ∧ p.length ≤ n) := by
  intro fuel
  induction fuel with
  | zero => intro heap visited cf cost nodes _ _ _ _ _ _ _ _ _ _ _ _ _ _ _ hfuel; omega
  | succ k ih =>
    intro heap visited cf cost nodes hndv hvv hvs hnodes hng hsb hvb hclose hstart
      hHC hKB hCB hcfv hcfc hD5 hfuel
    cases heap with
    | nil =>
      refine ⟨none, nodes, ?_, ?_, ?_⟩
      · simp [ucsAux, heappop]
      · intro _ hreach
        obtain ⟨n, hr⟩ := hreach
        have hin : ∀ x v, alookup cost x = some v → x ∈ visited := by
          intro x v hv
          rcases hD5 x v hv with h | ⟨k', h⟩
          · exact h
          · cases h
        have hsv : pf.start ∈ visited := by
          obtain ⟨v, hv⟩ := Option.isSome_iff_exists.mp hstart
          exact hin pf.start v hv
        have hcl : ∀ c ∈ visited, ∀ nb ∈ get_neighbors pf c, nb ∈ visited := by
          intro c hc nb hnb
          obtain ⟨v, hv⟩ := Option.isSome_iff_exists.mp (hclose c hc nb hnb)
          exact hin nb v hv
        exact hng pf.goal (reach_subset_of_closed hsv hcl hr) rfl
      · intro p hp; cases hp
    | cons e rest =>
      obtain ⟨kk, current⟩ := e
      by_cases hcv : current ∈ visited
      · obtain ⟨r, n, hrun, h1, h2⟩ := ih rest visited cf cost nodes hndv hvv
          (fun e he => hvs e (List.mem_cons_of_mem _ he)) hnodes hng
          (fun e he => hsb e (List.mem_cons_of_mem _ he)) hvb hclose hstart
          (fun e he => hHC e (List.mem_cons_of_mem _ he))
          (fun e he => hKB e (List.mem_cons_of_mem _ he)) hCB hcfv hcfc
          (fun x v hv => by
            rcases hD5 x v hv with h | ⟨k', h⟩
            · exact Or.inl h
            · rcases List.mem_cons.mp h with hEq | hT
              · injection hEq with _ hEq2
                exact Or.inl (hEq2 ▸ hcv)
              · exact Or.inr ⟨k', hT⟩)
          (by simp only [List.length_cons] at hfuel; omega)
        exact ⟨r, n, by simp only [ucsAux, heappop, if_pos hcv]; exact hrun, h1, h2⟩
      · have hcurv : is_valid pf current.1 current.2 = true :=
          hvs (kk, current) (List.mem_cons_self _ _)
        have hndv' : (current :: visited).Nodup := List.nodup_cons.mpr ⟨hcv, hndv⟩
        have hvv' : ∀ c ∈ current :: visited, is_valid pf c.1 c.2 = true := by
          intro c hc
          rcases List.mem_cons.mp hc with hEq | hT
          · exact hEq ▸ hcurv
          · exact hvv c hT
        have hbnd : (current :: visited).length ≤ pf.rows * pf.cols :=
          valid_cells_bound pf _ hndv' hvv'
        have hvb' : ∀ c ∈ current :: visited, c = pf.start ∨ (alookup cf c).isSome := by
          intro c hc
          rcases List.mem_cons.mp hc with hEq | hT
          · exact hEq ▸ hsb (kk, current) (List.mem_cons_self _ _)
          · exact hvb c hT
        have hcurc : ∃ vc, alookup cost current = some vc ∧ vc ≤ kk :=
          hHC (kk, current) (List.mem_cons_self _ _)
        by_cases hgoal : current = pf.goal
        · set μ : Cell → Nat := fun x => (alookup cost x).getD 0 with hμdef
          have hμ : ∀ n c, alookup cf n = some c → μ c < μ n := by
            intro n c h
            obtain ⟨vn, vc, hvn, hvc, hlt⟩ := hcfc n c h
            simp only [hμdef, hvn, hvc, Option.getD_some]
            exact hlt
          have hbp : (build_path cf (bpFuel pf) current []).isSome := by
            refine build_path_isSome cf μ hμ (bpFuel pf) current [] ?_
            obtain ⟨vc, hvc, hvcle⟩ := hcurc
            have hkk : kk ≤ visited.length := hKB (kk, current) (List.mem_cons_self _ _)
            simp only [hμdef, hvc, Option.getD_some, bpFuel]
            simp only [List.length_cons] at hbnd
            omega
          obtain ⟨p, hp⟩ := Option.isSome_iff_exists.mp hbp
          have hfacts : ValidPath pf p ∧ p.length ≤ (current :: visited).length := by
            refine built_path_facts μ hμ (current :: visited) hndv' ?_ ?_ ?_ ?_ (hgoal ▸ hp)
            · intro n c h
              exact List.mem_cons_of_mem _ (hcfv n c h).1
            · exact hgoal ▸ List.mem_cons_self _ _
            · intro x hx hbl
              rcases hvb' x hx with h | h
              · exact h
              · rw [hbl] at h; cases h
            · intro n c h
              exact (hcfv n c h).2
          refine ⟨some p, nodes + 1, ?_, ?_, ?_⟩
          · simp only [ucsAux, heappop, if_neg hcv, if_pos hgoal, hp]
          · intro h; cases h
          · intro p' hp'
            injection hp' with hpp
            subst hpp
            refine ⟨hfacts.1, ?_⟩
            have := hfacts.2
            simp only [List.length_cons] at this
            omega
        · have hkk : kk ≤ visited.length := hKB (kk, current) (List.mem_cons_self _ _)
          obtain ⟨j1, j2, j3, j4, j5, j6, j7⟩ := ucsRelax_inv current kk
            (visited.length + 1) (current :: visited)
            (by omega) (get_neighbors pf current) rest cf cost
            (fun e he => hHC e (List.mem_cons_of_mem _ he))
            (fun x v hv => by have := hCB x v hv; omega)
            hcurc hcfc
            (fun x v hv => by
              rcases hD5 x v hv with h | ⟨k', h⟩
              · exact Or.inl (List.mem_cons_of_mem _ h)
              · rcases List.mem_cons.mp h with hEq | hT
                · injection hEq with _ hEq2
                  exact Or.inl (hEq2 ▸ List.mem_cons_self _ _)
                · exact Or.inr ⟨k', hT⟩)
          rcases hsplit : ucsRelax current kk (get_neighbors pf current) rest cf cost
            with ⟨heap', cf', cost'⟩
          have hs1 : heap' = (ucsRelax current kk (get_neighbors pf current) rest cf cost).1 := by
            rw [hsplit]
          have hc1 : cf' = (ucsRelax current kk (get_neighbors pf current) rest cf cost).2.1 := by
            rw [hsplit]
          have ho1 : cost' = (ucsRelax current kk (get_neighbors pf current) rest cf cost).2.2 := by
            rw [hsplit]
          have hvs' : ∀ e ∈ heap', is_valid pf e.2.1 e.2.2 = true := by
            intro e he
            rcases ucsRelax_heap_mem _ _ _ _ _ _ e (hs1 ▸ he) with h | ⟨h, _⟩
            · exact hvs e (List.mem_cons_of_mem _ h)
            · exact mem_neighbors_valid h
          have hsb' : ∀ e ∈ heap', e.2 = pf.start ∨ (alookup cf' e.2).isSome := by
            intro e he
            rcases ucsRelax_pushed_bound _ _ _ _ _ _ e (hs1 ▸ he) with h | h
            · rcases hsb e (List.mem_cons_of_mem _ h) with hS | hB
              · exact Or.inl hS
              · exact Or.inr (hc1 ▸ ucsRelax_cf_isSome_mono _ _ _ _ _ _ _ hB)
            · exact Or.inr (hc1 ▸ h)
          have hvb'' : ∀ c ∈ current :: visited, c = pf.start ∨ (alookup cf' c).isSome := by
            intro c hc
            rcases hvb' c hc with hS | hB
            · exact Or.inl hS
            · exact Or.inr (hc1 ▸ ucsRelax_cf_isSome_mono _ _ _ _ _ _ _ hB)
          have hclose' : ∀ c ∈ current :: visited, ∀ nb ∈ get_neighbors pf c,
              (alookup cost' nb).isSome := by
            intro c hc nb hnb
            rcases List.mem_cons.mp hc with hEq | hT
            · rw [hEq] at hnb
              exact ho1 ▸ j6 nb hnb
            · obtain ⟨v, hv⟩ := Option.isSome_iff_exists.mp (hclose c hT nb hnb)
              obtain ⟨v', hv', _⟩ := j7 nb v hv
              rw [ho1, hv']
              rfl
          have hstart' : (alookup cost' pf.start).isSome := by
            obtain ⟨v, hv⟩ := Option.isSome_iff_exists.mp hstart
            obtain ⟨v', hv', _⟩ := j7 pf.start v hv
            rw [ho1, hv']
            rfl
          have hKB' : ∀ e ∈ heap', e.1 ≤ (current :: visited).length := by
            intro e he
            rcases ucsRelax_heap_mem _ _ _ _ _ _ e (hs1 ▸ he) with h | ⟨_, h⟩
            · have := hKB e (List.mem_cons_of_mem _ h)
              simp only [List.length_cons]
              omega
            · simp only [List.length_cons]
              omega
          have hcfv' : ∀ n c, alookup cf' n = some c →
              c ∈ current :: visited ∧ n ∈ get_neighbors pf c := by
            intro n c h
            rcases ucsRelax_cf_bindings _ _ _ _ _ _ n c (hc1 ▸ h) with h1 | ⟨h1, h2⟩
            · obtain ⟨hc2, hc3⟩ := hcfv n c h1
              exact ⟨List.mem_cons_of_mem _ hc2, hc3⟩
            · subst h1
              exact ⟨List.mem_cons_self _ _, h2⟩
          have hng' : ∀ c ∈ current :: visited, c ≠ pf.goal := by
            intro c hc
            rcases List.mem_cons.mp hc with hEq | hT
            · exact hEq ▸ hgoal
            · exact hng c hT
          have hfuel' : heap'.length + 5 * (pf.rows * pf.cols -
              (current :: visited).length) < k := by
            have hlen : heap'.length ≤ (get_neighbors pf current).length + rest.length :=
              hs1 ▸ ucsRelax_length _ _ _ _ _ _
            have hnb4 : (get_neighbors pf current).length ≤ 4 := neighbors_length pf current
            simp only [List.length_cons] at hfuel hbnd ⊢
            omega
          obtain ⟨r, n, hrun, h1, h2⟩ := ih heap' (current :: visited) cf' cost' (nodes + 1)
            hndv' hvv' hvs' (by simp [hnodes]) hng' hsb' hvb'' hclose' hstart'
            (hs1 ▸ ho1 ▸ j1)
            hKB'
            (by
              intro x v hv
              have := j2 x v (ho1 ▸ hv)
              simp only [List.length_cons]
              omega)
            hcfv'
            (fun n c h => j4 n c (hc1 ▸ h) |>.imp
              (fun vn h' => h'.imp (fun vc h'' =>
                ⟨ho1 ▸ h''.1, ho1 ▸ h''.2.1, h''.2.2⟩)))
            (fun x v hv => (j5 x v (ho1 ▸ hv)).imp id (fun ⟨k', hk'⟩ => ⟨k', hs1 ▸ hk'⟩))
            hfuel'
          refine ⟨r, n, ?_, h1, h2⟩
          simp only [ucsAux, heappop, if_neg hcv, if_neg hgoal, hsplit]
          exact hrun

/-! ### Facts about the a_star neighbour loop -/

theorem aStarRelax_heap_superset (pf : PF) (current : Cell) (gc : Nat) :
    ∀ (ns : List Cell) (heap : List (Nat × Cell)) (cf : List (Cell × Cell))
      (gs : List (Cell × Nat)) (e : Nat × Cell),
    e ∈ heap → e ∈ (aStarRelax pf current gc ns heap cf gs).1 := by
  intro ns
  induction ns with
  | nil => intro heap cf gs e he; exact he
  | cons n rest ih =>
    intro heap cf gs e he
    cases hn : alookup gs n with
    | none =>
      simp only [aStarRelax, hn, if_pos]
      exact ih _ _ _ e (heappush_mem.mpr (Or.inl he))
    | some gn =>
      by_cases hlt : gc + 1 < gn
      · simp only [aStarRelax, hn, decide_eq_true_eq, if_pos hlt]
        exact ih _ _ _ e (heappush_mem.mpr (Or.inl he))
      · simp only [aStarRelax, hn, decide_eq_true_eq, if_neg hlt]
        exact ih _ _ _ e he

theorem aStarRelax_heap_mem (pf : PF) (current : Cell) (gc : Nat) :
    ∀ (ns : List Cell) (heap : List (Nat × Cell)) (cf : List (Cell × Cell))
      (gs : List (Cell × Nat)) (e : Nat × Cell),
    e ∈ (aStarRelax pf current gc ns heap cf gs).1 →
    e ∈ heap ∨ e.2 ∈ ns := by
  intro ns
  induction ns with
  | nil => intro heap cf gs e he; exact Or.inl he
  | cons n rest ih =>
    intro heap cf gs e he
    have step : ∀ (heap' : List (Nat × Cell)) (cf' : List (Cell × Cell))
        (gs' : List (Cell × Nat)),
        e ∈ (aStarRelax pf current gc rest heap' cf' gs').1 →
        e ∈ heap' ∨ e.2 ∈ n :: rest := by
      intro heap' cf' gs' h
      rcases ih heap' cf' gs' e h with h1 | h1
      · exact Or.inl h1
      · exact Or.inr (List.mem_cons_of_mem n h1)
    cases hn : alookup gs n with
    | none =>
      simp only [aStarRelax, hn, if_pos] at he
      rcases step _ _ _ he with h1 | h1
      · rcases heappush_mem.mp h1 with h2 | h2
        · exact Or.inl h2
        · subst h2
          exact Or.inr (List.mem_cons_self n rest)
      · exact Or.inr h1
    | some gn =>
      by_cases hlt : gc + 1 < gn
      · simp only [aStarRelax, hn, decide_eq_true_eq, if_pos hlt] at he
        rcases step _ _ _ he with h1 | h1
        · rcases heappush_mem.mp h1 with h2 | h2
          · exact Or.inl h2
          · subst h2
            exact Or.inr (List.mem_cons_self n rest)
        · exact Or.inr h1
      · simp only [aStarRelax, hn, decide_eq_true_eq, if_neg hlt] at he
        exact step _ _ _ he

theorem aStarRelax_length (pf : PF) (current : Cell) (gc : Nat) :
    ∀ (ns : List Cell) (heap : List (Nat × Cell)) (cf : List (Cell × Cell))
      (gs : List (Cell × Nat)),
    (aStarRelax pf current gc ns heap cf gs).1.length ≤ ns.length + heap.length := by
  intro ns
  induction ns with
  | nil => intro heap cf gs; simp [aStarRelax]
  | cons n rest ih =>
    intro heap cf gs
    cases hn : alookup gs n with
    | none =>
      simp only [aStarRelax, hn, if_pos, List.length_cons]
      have := ih (heappush heap (gc + 1 + manhattan_dist n pf.goal, n))
        ((n, current) :: cf) ((n, gc + 1) :: gs)
      rw [heappush_length] at this
      omega
    | some gn =>
      by_cases hlt : gc + 1 < gn
      · simp only [aStarRelax, hn, decide_eq_true_eq, if_pos hlt, List.length_cons]
        have := ih (heappush heap (gc + 1 + manhattan_dist n pf.goal, n))
          ((n, current) :: cf) ((n, gc + 1) :: gs)
        rw [heappush_length] at this
        omega
      · simp only [aStarRelax, hn, decide_eq_true_eq, if_neg hlt, List.length_cons]
        have := ih heap cf gs
        omega

theorem aStarRelax_cf_bindings (pf : PF) (current : Cell) (gc : Nat) :
    ∀ (ns : List Cell) (heap : List (Nat × Cell)) (cf : List (Cell × Cell))
      (gs : List (Cell × Nat)) (n c : Cell),
    alookup (aStarRelax pf current gc ns heap cf gs).2.1 n = some c →
    alookup cf n = some c ∨ (c = current ∧ n ∈ ns) := by
  intro ns
  induction ns with
  | nil => intro heap cf gs n c h; exact Or.inl h
  | cons m rest ih =>
    intro heap cf gs n c h
    have step : ∀ (heap' : List (Nat × Cell)) (cf' : List (Cell × Cell))
        (gs' : List (Cell × Nat)),
        alookup (aStarRelax pf current gc rest heap' cf' gs').2.1 n = some c →
        alookup cf' n = some c ∨ (c = current ∧ n ∈ m :: rest) := by
      intro heap' cf' gs' hh
      rcases ih heap' cf' gs' n c hh with h1 | ⟨h1, h2⟩
      · exact Or.inl h1
      · exact Or.inr ⟨h1, List.mem_cons_of_mem m h2⟩
    have newbind : alookup ((m, current) :: cf) n = some c →
        alookup cf n = some c ∨ (c = current ∧ n ∈ m :: rest) := by
      intro h1
      by_cases hmn : m = n
      · subst hmn
        rw [alookup_cons_self] at h1
        injection h1 with h1'
        exact Or.inr ⟨h1'.symm, List.mem_cons_self m rest⟩
      · rw [alookup_cons_ne _ _ _ _ hmn] at h1
        exact Or.inl h1
    cases hn : alookup gs m with
    | none =>
      simp only [aStarRelax, hn, if_pos] at h
      rcases step _ _ _ h with h1 | h1
      · exact newbind h1
      · exact Or.inr h1
    | some gn =>
      by_cases hlt : gc + 1 < gn
      · simp only [aStarRelax, hn, decide_eq_true_eq, if_pos hlt] at h
        rcases step _ _ _ h with h1 | h1
        · exact newbind h1
        · exact Or.inr h1
      · simp only [aStarRelax, hn, decide_eq_true_eq, if_neg hlt] at h
        exact step _ _ _ h

theorem aStarRelax_cf_isSome_mono (pf : PF) (current : Cell) (gc : Nat) :
    ∀ (ns : List Cell) (heap : List (Nat × Cell)) (cf : List (Cell × Cell))
      (gs : List (Cell × Nat)) (x : Cell),
    (alookup cf x).isSome →
    (alookup (aStarRelax pf current gc ns heap cf gs).2.1 x).isSome := by
  intro ns
  induction ns with
  | nil => intro heap cf gs x h; exact h
  | cons m rest ih =>
    intro heap cf gs x h
    have hcons : (alookup ((m, current) :: cf) x).isSome := by
      by_cases hmx : m = x
      · subst hmx; rw [alookup_cons_self]; rfl
      · rw [alookup_cons_ne _ _ _ _ hmx]; exact h
    cases hn : alookup gs m with
    | none =>
      simp only [aStarRelax, hn, if_pos]
      exact ih _ _ _ x hcons
    | some gn =>
      by_cases hlt : gc + 1 < gn
      · simp only [aStarRelax, hn, decide_eq_true_eq, if_pos hlt]
        exact ih _ _ _ x hcons
      · simp only [aStarRelax, hn, decide_eq_true_eq, if_neg hlt]
        exact ih _ _ _ x h

theorem aStarRelax_pushed_bound (pf : PF) (current : Cell) (gc : Nat) :
    ∀ (ns : List Cell) (heap : List (Nat × Cell)) (cf : List (Cell × Cell))
      (gs : List (Cell × Nat)) (e : Nat × Cell),
    e ∈ (aStarRelax pf current gc ns heap cf gs).1 →
    e ∈ heap ∨ (alookup (aStarRelax pf current gc ns heap cf gs).2.1 e.2).isSome := by
  intro ns
  induction ns with
  | nil => intro heap cf gs e he; exact Or.inl he
  | cons m rest ih =>
    intro heap cf gs e he
    have hbound : (alookup ((m, current) :: cf) m).isSome := by
      rw [alookup_cons_self]; rfl
    cases hn : alookup gs m with
    | none =>
      simp only [aStarRelax, hn, if_pos] at he ⊢
      rcases ih _ _ _ e he with h1 | h1
      · rcases heappush_mem.mp h1 with h2 | h2
        · exact Or.inl h2
        · subst h2
          exact Or.inr (aStarRelax_cf_isSome_mono _ _ _ _ _ _ _ _ hbound)
      · exact Or.inr h1
    | some gn =>
      by_cases hlt : gc + 1 < gn
      · simp only [aStarRelax, hn, decide_eq_true_eq, if_pos hlt] at he ⊢
        rcases ih _ _ _ e he with h1 | h1
        · rcases heappush_mem.mp h1 with h2 | h2
          · exact Or.inl h2
          · subst h2
            exact Or.inr (aStarRelax_cf_isSome_mono _ _ _ _ _ _ _ _ hbound)
        · exact Or.inr h1
      · simp only [aStarRelax, hn, decide_eq_true_eq, if_neg hlt] at he ⊢
        exact ih _ _ _ e he

/-- Invariant preservation through the `a_star` neighbour loop,
analogous to `ucsRelax_inv` but with the `g`-score map driving the
updates (the pushed key adds the heuristic on top of `g`). -/
theorem aStarRelax_inv (pf : PF) (current : Cell) (gc B : Nat) (V : List Cell)
    (hgcB : gc + 1 ≤ B) :
    ∀ (ns : List Cell) (heap : List (Nat × Cell)) (cf : List (Cell × Cell))
      (gs : List (Cell × Nat)),
    (∀ x v, alookup gs x = some v → v ≤ B) →
    alookup gs current = some gc →
    (∀ n c, alookup cf n = some c → ∃ vn vc, alookup gs n = some vn ∧
      alookup gs c = some vc ∧ vc < vn) →
    (∀ x v, alookup gs x = some v → x ∈ V ∨ ∃ k', (k', x) ∈ heap) →
    (∀ x v, alookup (aStarRelax pf current gc ns heap cf gs).2.2 x = some v → v ≤ B) ∧
    alookup (aStarRelax pf current gc ns heap cf gs).2.2 current = some gc ∧
    (∀ n c, alookup (aStarRelax pf current gc ns heap cf gs).2.1 n = some c →
      ∃ vn vc, alookup (aStarRelax pf current gc ns heap cf gs).2.2 n = some vn ∧
        alookup (aStarRelax pf current gc ns heap cf gs).2.2 c = some vc ∧ vc < vn) ∧
    (∀ x v, alookup (aStarRelax pf current gc ns heap cf gs).2.2 x = some v →
      x ∈ V ∨ ∃ k', (k', x) ∈ (aStarRelax pf current gc ns heap cf gs).1) ∧
    (∀ n ∈ ns, (alookup (aStarRelax pf current gc ns heap cf gs).2.2 n).isSome) ∧
    (∀ x v, alookup gs x = some v →
      ∃ v', alookup (aStarRelax pf current gc ns heap cf gs).2.2 x = some v' ∧ v' ≤ v) := by
  intro ns
  induction ns with
  | nil =>
    intro heap cf gs hCB hcur hCF hD5
    refine ⟨hCB, hcur, hCF, hD5, ?_, ?_⟩
    · intro n hn; cases hn
    · intro x v hv; exact ⟨v, hv, le_refl v⟩
  | cons m rest ih =>
    intro heap cf gs hCB hcur hCF hD5
    have hupd : ∀ (hbind : alookup gs m = none ∨
        ∃ gn, alookup gs m = some gn ∧ gc + 1 < gn),
        (∀ x v, alookup ((m, gc + 1) :: gs) x = some v → v ≤ B) ∧
        alookup ((m, gc + 1) :: gs) current = some gc ∧
        (∀ n c, alookup ((m, current) :: cf) n = some c →
          ∃ vn vc, alookup ((m, gc + 1) :: gs) n = some vn ∧
            alookup ((m, gc + 1) :: gs) c = some vc ∧ vc < vn) ∧
        (∀ x v, alookup ((m, gc + 1) :: gs) x = some v →
          x ∈ V ∨ ∃ k', (k', x) ∈
            heappush heap (gc + 1 + manhattan_dist m pf.goal, m)) := by
      intro hbind
      have hmc : m ≠ current := by
        rcases hbind with hb | ⟨gn, hgn, hlt⟩
        · intro hEq; rw [hEq, hcur] at hb; cases hb
        · intro hEq
          rw [hEq, hcur] at hgn
          injection hgn with hgn'
          omega
      have hlookup : ∀ x, x ≠ m →
          alookup ((m, gc + 1) :: gs) x = alookup gs x := by
        intro x hx
        exact alookup_cons_ne _ _ _ _ (fun h => hx h.symm)
      have hgsm : ∀ v, alookup gs m = some v → gc + 1 < v := by
        intro v hv
        rcases hbind with hb | ⟨gn, hgn, hlt⟩
        · rw [hb] at hv; cases hv
        · rw [hgn] at hv; injection hv with hv'; omega
      refine ⟨?_, ?_, ?_, ?_⟩
      · intro x v hv
        by_cases hxm : x = m
        · subst hxm
          rw [alookup_cons_self] at hv
          injection hv with hv'
          omega
        · rw [hlookup _ hxm] at hv
          exact hCB x v hv
      · rw [hlookup _ hmc.symm]
        exact hcur
      · intro n c h
        by_cases hnm : n = m
        · subst hnm
          rw [alookup_cons_self] at h
          injection h with h'
          subst h'
          rw [alookup_cons_self, hlookup _ hmc.symm]
          exact ⟨gc + 1, gc, rfl, hcur, by omega⟩
        · rw [alookup_cons_ne _ _ _ _ (fun h' => hnm h'.symm)] at h
          obtain ⟨vn, vc, hvn, hvcc, hlt⟩ := hCF n c h
          rw [hlookup _ hnm]
          by_cases hcm : c = m
          · subst hcm
            rw [alookup_cons_self]
            exact ⟨vn, gc + 1, hvn, rfl, by have := hgsm vc hvcc; omega⟩
          · rw [hlookup _ hcm]
            exact ⟨vn, vc, hvn, hvcc, hlt⟩
      · intro x v hv
        by_cases hxm : x = m
        · subst hxm
          exact Or.inr ⟨gc + 1 + manhattan_dist x pf.goal,
            heappush_mem.mpr (Or.inr rfl)⟩
        · rw [hlookup _ hxm] at hv
          rcases hD5 x v hv with h1 | ⟨k', h1⟩
          · exact Or.inl h1
          · exact Or.inr ⟨k', heappush_mem.mpr (Or.inl h1)⟩
    cases hn : alookup gs m with
    | none =>
      obtain ⟨u1, u2, u3, u4⟩ := hupd (Or.inl hn)
      obtain ⟨c1, c2, c3, c4, c5, c6⟩ := ih _ _ _ u1 u2 u3 u4
      simp only [aStarRelax, hn, if_pos]
      refine ⟨c1, c2, c3, c4, ?_, ?_⟩
      · intro n' hn'
        rcases List.mem_cons.mp hn' with hEq | hT
        · subst hEq
          obtain ⟨v', hv', _⟩ := c6 n' (gc + 1) (alookup_cons_self _ _ _)
          rw [hv']; rfl
        · exact c5 n' hT
      · intro x v hv
        have hxm : x ≠ m := by
          intro hEq; rw [hEq, hn] at hv; cases hv
        have : alookup ((m, gc + 1) :: gs) x = some v := by
          rw [alookup_cons_ne _ _ _ _ (fun h => hxm h.symm)]; exact hv
        exact c6 x v this
    | some gn =>
      by_cases hlt : gc + 1 < gn
      · obtain ⟨u1, u2, u3, u4⟩ := hupd (Or.inr ⟨gn, hn, hlt⟩)
        obtain ⟨c1, c2, c3, c4, c5, c6⟩ := ih _ _ _ u1 u2 u3 u4
        simp only [aStarRelax, hn, decide_eq_true_eq, if_pos hlt]
        refine ⟨c1, c2, c3, c4, ?_, ?_⟩
        · intro n' hn'
          rcases List.mem_cons.mp hn' with hEq | hT
          · subst hEq
            obtain ⟨v', hv', _⟩ := c6 n' (gc + 1) (alookup_cons_self _ _ _)
            rw [hv']; rfl
          · exact c5 n' hT
        · intro x v hv
          by_cases hxm : x = m
          · subst hxm
            rw [hn] at hv
            injection hv with hv'
            subst hv'
            obtain ⟨v', hv', hle'⟩ := c6 x (gc + 1) (alookup_cons_self _ _ _)
            exact ⟨v', hv', by omega⟩
          · have : alookup ((m, gc + 1) :: gs) x = some v := by
              rw [alookup_cons_ne _ _ _ _ (fun h => hxm h.symm)]; exact hv
            exact c6 x v this
      · obtain ⟨c1, c2, c3, c4, c5, c6⟩ := ih heap cf gs hCB hcur hCF hD5
        simp only [aStarRelax, hn, decide_eq_true_eq, if_neg hlt]
        refine ⟨c1, c2, c3, c4, ?_, c6⟩
        intro n' hn'
        rcases List.mem_cons.mp hn' with hEq | hT
        · subst hEq
          obtain ⟨v', hv', _⟩ := c6 n' gn hn
          rw [hv']; rfl
        · exact c5 n' hT

/-- The master run lemma for `a_star`: same conclusions as for `dfs`;
in particular the `g_score[current]` lookup never fails. -/
theorem aStarAux_master (pf : PF) :
    ∀ (fuel : Nat) (heap : List (Nat × Cell)) (visited : List Cell)
      (cf : List (Cell × Cell)) (gs : List (Cell × Nat)) (nodes : Nat),
    visited.Nodup →
    (∀ c ∈ visited, is_valid pf c.1 c.2 = true) →
    (∀ e ∈ heap, is_valid pf e.2.1 e.2.2 = true) →
    nodes = visited.length →
    (∀ c ∈ visited, c ≠ pf.goal) →
    (∀ e ∈ heap, e.2 = pf.start ∨ (alookup cf e.2).isSome) →
    (∀ c ∈ visited, c = pf.start ∨ (alookup cf c).isSome) →
    (∀ c ∈ visited, ∀ nb ∈ get_neighbors pf c, (alookup gs nb).isSome) →
    (alookup gs pf.start).isSome →
    (∀ e ∈ heap, (alookup gs e.2).isSome) →
    (∀ x v, alookup gs x = some v → v ≤ visited.length) →
    (∀ n c, alookup cf n = some c → c ∈ visited ∧ n ∈ get_neighbors pf c) →
    (∀ n c, alookup cf n = some c → ∃ vn vc, alookup gs n = some vn ∧
      alookup gs c = some vc ∧ vc < vn) →
    (∀ x v, alookup gs x = some v → x ∈ visited ∨ ∃ k', (k', x) ∈ heap) →
    heap.length + 5 * (pf.rows * pf.cols - visited.length) < fuel →
    ∃ r n, aStarAux pf fuel heap visited cf gs nodes = some (r, n) ∧
      (r = none → ¬ Reachable pf pf.goal) ∧
      (∀ p, r = some p → ValidPath pf p ∧ p.length ≤ n) := by
  intro fuel
  induction fuel with
  | zero => intro heap visited cf gs nodes _ _ _ _ _ _ _ _ _ _ _ _ _ _ hfuel; omega
  | succ k ih =>
    intro heap visited cf gs nodes hndv hvv hvs hnodes hng hsb hvb hclose hstart
      hpres hCB hcfv hcfc hD5 hfuel
    cases heap with
    | nil =>
      refine ⟨none, nodes, ?_, ?_, ?_⟩
      · simp [aStarAux, heappop]
      · intro _ hreach
        obtain ⟨n, hr⟩ := hreach
        have hin : ∀ x v, alookup gs x = some v → x ∈ visited := by
          intro x v hv
          rcases hD5 x v hv with h | ⟨k', h⟩
          · exact h
          · cases h
        have hsv : pf.start ∈ visited := by
          obtain ⟨v, hv⟩ := Option.isSome_iff_exists.mp hstart
          exact hin pf.start v hv
        have hcl : ∀ c ∈ visited, ∀ nb ∈ get_neighbors pf c, nb ∈ visited := by
          intro c hc nb hnb
          obtain ⟨v, hv⟩ := Option.isSome_iff_exists.mp (hclose c hc nb hnb)
          exact hin nb v hv
        exact hng pf.goal (reach_subset_of_closed hsv hcl hr) rfl
      · intro p hp; cases hp
    | cons e rest =>
      obtain ⟨kk, current⟩ := e
      by_cases hcv : current ∈ visited
      · obtain ⟨r, n, hrun, h1, h2⟩ := ih rest visited cf gs nodes hndv hvv
          (fun e he => hvs e (List.mem_cons_of_mem _ he)) hnodes hng
          (fun e he => hsb e (List.mem_cons_of_mem _ he)) hvb hclose hstart
          (fun e he => hpres e (List.mem_cons_of_mem _ he)) hCB hcfv hcfc
          (fun x v hv => by
            rcases hD5 x v hv with h | ⟨k', h⟩
            · exact Or.inl h
            · rcases List.mem_cons.mp h with hEq | hT
              · injection hEq with _ hEq2
                exact Or.inl (hEq2 ▸ hcv)
              · exact Or.inr ⟨k', hT⟩)
          (by simp only [List.length_cons] at hfuel; omega)
        exact ⟨r, n, by simp only [aStarAux, heappop, if_pos hcv]; exact hrun, h1, h2⟩
      · have hcurv : is_valid pf current.1 current.2 = true :=
          hvs (kk, current) (List.mem_cons_self _ _)
        have hndv' : (current :: visited).Nodup := List.nodup_cons.mpr ⟨hcv, hndv⟩
        have hvv' : ∀ c ∈ current :: visited, is_valid pf c.1 c.2 = true := by
          intro c hc
          rcases List.mem_cons.mp hc with hEq | hT
          · exact hEq ▸ hcurv
          · exact hvv c hT
        have hbnd : (current :: visited).length ≤ pf.rows * pf.cols :=
          valid_cells_bound pf _ hndv' hvv'
        have hvb' : ∀ c ∈ current :: visited, c = pf.start ∨ (alookup cf c).isSome := by
          intro c hc
          rcases List.mem_cons.mp hc with hEq | hT
          · exact hEq ▸ hsb (kk, current) (List.mem_cons_self _ _)
          · exact hvb c hT
        obtain ⟨gc, hgc⟩ := Option.isSome_iff_exists.mp
          (hpres (kk, current) (List.mem_cons_self _ _))
        by_cases hgoal : current = pf.goal
        · set μ : Cell → Nat := fun x => (alookup gs x).getD 0 with hμdef
          have hμ : ∀ n c, alookup cf n = some c → μ c < μ n := by
            intro n c h
            obtain ⟨vn, vc, hvn, hvc, hlt⟩ := hcfc n c h
            simp only [hμdef, hvn, hvc, Option.getD_some]
            exact hlt
          have hbp : (build_path cf (bpFuel pf) current []).isSome := by
            refine build_path_isSome cf μ hμ (bpFuel pf) current [] ?_
            have hgcB := hCB current gc hgc
            simp only [hμdef, hgc, Option.getD_some, bpFuel]
            simp only [List.length_cons] at hbnd
            omega
          obtain ⟨p, hp⟩ := Option.isSome_iff_exists.mp hbp
          have hfacts : ValidPath pf p ∧ p.length ≤ (current :: visited).length := by
            refine built_path_facts μ hμ (current :: visited) hndv' ?_ ?_ ?_ ?_ (hgoal ▸ hp)
            · intro n c h
              exact List.mem_cons_of_mem _ (hcfv n c h).1
            · exact hgoal ▸ List.mem_cons_self _ _
            · intro x hx hbl
              rcases hvb' x hx with h | h
              · exact h
              · rw [hbl] at h; cases h
            · intro n c h
              exact (hcfv n c h).2
          refine ⟨some p, nodes + 1, ?_, ?_, ?_⟩
          · simp only [aStarAux, heappop, if_neg hcv, if_pos hgoal, hp]
          · intro h; cases h
          · intro p' hp'
            injection hp' with hpp
            subst hpp
            refine ⟨hfacts.1, ?_⟩
            have := hfacts.2
            simp only [List.length_cons] at this
            omega
        · have hgcle : gc ≤ visited.length := hCB current gc hgc
          obtain ⟨j1, j2, j3, j4, j5, j6⟩ := aStarRelax_inv pf current gc
            (visited.length + 1) (current :: visited)
            (by omega) (get_neighbors pf current) rest cf gs
            (fun x v hv => by have := hCB x v hv; omega)
            hgc hcfc
            (fun x v hv => by
              rcases hD5 x v hv with h | ⟨k', h⟩
              · exact Or.inl (List.mem_cons_of_mem _ h)
              · rcases List.mem_cons.mp h with hEq | hT
                · injection hEq with _ hEq2
                  exact Or.inl (hEq2 ▸ List.mem_cons_self _ _)
                · exact Or.inr ⟨k', hT⟩)
          rcases hsplit : aStarRelax pf current gc (get_neighbors pf current) rest cf gs
            with ⟨heap', cf', gs'⟩
          have hs1 : heap' = (aStarRelax pf current gc
              (get_neighbors pf current) rest cf gs).1 := by rw [hsplit]
          have hc1 : cf' = (aStarRelax pf current gc
              (get_neighbors pf current) rest cf gs).2.1 := by rw [hsplit]
          have ho1 : gs' = (aStarRelax pf current gc
              (get_neighbors pf current) rest cf gs).2.2 := by rw [hsplit]
          have hvs' : ∀ e ∈ heap', is_valid pf e.2.1 e.2.2 = true := by
            intro e he
            rcases aStarRelax_heap_mem _ _ _ _ _ _ _ e (hs1 ▸ he) with h | h
            · exact hvs e (List.mem_cons_of_mem _ h)
            · exact mem_neighbors_valid h
          have hsb' : ∀ e ∈ heap', e.2 = pf.start ∨ (alookup cf' e.2).isSome := by
            intro e he
            rcases aStarRelax_pushed_bound _ _ _ _ _ _ _ e (hs1 ▸ he) with h | h
            · rcases hsb e (List.mem_cons_of_mem _ h) with hS | hB
              · exact Or.inl hS
              · exact Or.inr (hc1 ▸ aStarRelax_cf_isSome_mono _ _ _ _ _ _ _ _ hB)
            · exact Or.inr (hc1 ▸ h)
          have hvb'' : ∀ c ∈ current :: visited, c = pf.start ∨ (alookup cf' c).isSome := by
            intro c hc
            rcases hvb' c hc with hS | hB
            · exact Or.inl hS
            · exact Or.inr (hc1 ▸ aStarRelax_cf_isSome_mono _ _ _ _ _ _ _ _ hB)
          have hclose' : ∀ c ∈ current :: visited, ∀ nb ∈ get_neighbors pf c,
              (alookup gs' nb).isSome := by
            intro c hc nb hnb
            rcases List.mem_cons.mp hc with hEq | hT
            · rw [hEq] at hnb
              exact ho1 ▸ j5 nb hnb
            · obtain ⟨v, hv⟩ := Option.isSome_iff_exists.mp (hclose c hT nb hnb)
              obtain ⟨v', hv', _⟩ := j6 nb v hv
              rw [ho1, hv']
              rfl
          have hstart' : (alookup gs' pf.start).isSome := by
            obtain ⟨v, hv⟩ := Option.isSome_iff_exists.mp hstart
            obtain ⟨v', hv', _⟩ := j6 pf.start v hv
            rw [ho1, hv']
            rfl
          have hpres' : ∀ e ∈ heap', (alookup gs' e.2).isSome := by
            intro e he
            rcases aStarRelax_heap_mem _ _ _ _ _ _ _ e (hs1 ▸ he) with h | h
            · obtain ⟨v, hv⟩ := Option.isSome_iff_exists.mp
                (hpres e (List.mem_cons_of_mem _ h))
              obtain ⟨v', hv', _⟩ := j6 e.2 v hv
              rw [ho1, hv']
              rfl
            · exact ho1 ▸ j5 e.2 h
          have hcfv' : ∀ n c, alookup cf' n = some c →
              c ∈ current :: visited ∧ n ∈ get_neighbors pf c := by
            intro n c h
            rcases aStarRelax_cf_bindings _ _ _ _ _ _ _ n c (hc1 ▸ h) with h1 | ⟨h1, h2⟩
            · obtain ⟨hc2, hc3⟩ := hcfv n c h1
              exact ⟨List.mem_cons_of_mem _ hc2, hc3⟩
            · subst h1
              exact ⟨List.mem_cons_self _ _, h2⟩
          have hng' : ∀ c ∈ current :: visited, c ≠ pf.goal := by
            intro c hc
            rcases List.mem_cons.mp hc with hEq | hT
            · exact hEq ▸ hgoal
            · exact hng c hT
          have hfuel' : heap'.length + 5 * (pf.rows * pf.cols -
              (current :: visited).length) < k := by
            have hlen : heap'.length ≤ (get_neighbors pf current).length + rest.length :=
              hs1 ▸ aStarRelax_length _ _ _ _ _ _ _
            have hnb4 : (get_neighbors pf current).length ≤ 4 := neighbors_length pf current
            simp only [List.length_cons] at hfuel hbnd ⊢
            omega
          obtain ⟨r, n, hrun, h1, h2⟩ := ih heap' (current :: visited) cf' gs' (nodes + 1)
            hndv' hvv' hvs' (by simp [hnodes]) hng' hsb' hvb'' hclose' hstart' hpres'
            (by
              intro x v hv
              have := j1 x v (ho1 ▸ hv)
              simp only [List.length_cons]
              omega)
            hcfv'
            (fun n c h => j3 n c (hc1 ▸ h) |>.imp
              (fun vn h' => h'.imp (fun vc h'' =>
                ⟨ho1 ▸ h''.1, ho1 ▸ h''.2.1, h''.2.2⟩)))
            (fun x v hv => (j4 x v (ho1 ▸ hv)).imp id (fun ⟨k', hk'⟩ => ⟨k', hs1 ▸ hk'⟩))
            hfuel'
          refine ⟨r, n, ?_, h1, h2⟩
          simp only [aStarAux, heappop, if_neg hcv, if_neg hgoal, hgc, hsplit]
          exact hrun

/-! ### Facts about the bfs neighbour loop -/

/-- Invariant preservation through the `bfs` neighbour loop: every
unvisited neighbour is simultaneously marked visited, given its
predecessor, and enqueued, preserving the queue ⊆ visited discipline,
the matched growth of queue and visited, and the predecessor-map
invariants (values are dequeued cells, keys are enqueued cells, ages
strictly increase from value to key). -/
theorem bfsPush_inv (pf : PF) (current : Cell) :
    ∀ (ns visited : List Cell) (cf : List (Cell × Cell)) (queue : List Cell),
    visited.Nodup →
    (∀ x ∈ queue, x ∈ visited) →
    queue.Nodup →
    current ∈ visited →
    current ∉ queue →
    (∀ n c, alookup cf n = some c → c ∈ visited ∧ c ∉ queue ∧
      n ∈ get_neighbors pf c ∧ n ∈ visited ∧ revIdx visited c < revIdx visited n) →
    (∀ c ∈ visited, c = pf.start ∨ (alookup cf c).isSome) →
    (∀ n ∈ ns, n ∈ get_neighbors pf current) →
    (bfsPush current ns visited cf queue).1.Nodup ∧
    (∀ x ∈ (bfsPush current ns visited cf queue).1, x ∈ visited ∨ x ∈ ns) ∧
    (∀ x ∈ visited, x ∈ (bfsPush current ns visited cf queue).1) ∧
    (bfsPush current ns visited cf queue).2.2.Nodup ∧
    (∀ x ∈ (bfsPush current ns visited cf queue).2.2,
      x ∈ (bfsPush current ns visited cf queue).1) ∧
    (∀ x ∈ queue, x ∈ (bfsPush current ns visited cf queue).2.2) ∧
    (∀ x ∈ (bfsPush current ns visited cf queue).1,
      x ∈ visited ∨ x ∈ (bfsPush current ns visited cf queue).2.2) ∧
    (∀ n c, alookup (bfsPush current ns visited cf queue).2.1 n = some c →
      c ∈ (bfsPush current ns visited cf queue).1 ∧
      c ∉ (bfsPush current ns visited cf queue).2.2 ∧
      n ∈ get_neighbors pf c ∧ n ∈ (bfsPush current ns visited cf queue).1 ∧
      revIdx (bfsPush current ns visited cf queue).1 c <
        revIdx (bfsPush current ns visited cf queue).1 n) ∧
    (∀ c ∈ (bfsPush current ns visited cf queue).1, c = pf.start ∨
      (alookup (bfsPush current ns visited cf queue).2.1 c).isSome) ∧
    (∀ n ∈ ns, n ∈ (bfsPush current ns visited cf queue).1) ∧
    (∃ k, (bfsPush current ns visited cf queue).1.length = visited.length + k ∧
      (bfsPush current ns visited cf queue).2.2.length = queue.length + k ∧
      k ≤ ns.length) ∧
    (∀ x ∈ (bfsPush current ns visited cf queue).2.2, x ∈ queue ∨ x ∉ visited) := by
  intro ns
  induction ns with
  | nil =>
    intro visited cf queue hnd hqv hqnd hcv hcq hcf hvb _
    simp only [bfsPush]
    refine ⟨hnd, fun x hx => Or.inl hx, fun x hx => hx, hqnd, ?_, fun x hx => hx,
      fun x hx => Or.inl hx, hcf, hvb, ?_, ⟨0, by omega, by omega, by omega⟩,
      fun x hx => Or.inl hx⟩
    · intro x hx; exact hqv x hx
    · intro n hn; cases hn
  | cons n rest ih =>
    intro visited cf queue hnd hqv hqnd hcv hcq hcf hvb hns
    by_cases hn : n ∈ visited
    · simp only [bfsPush, if_pos hn]
      obtain ⟨c1, c2, c3, c4, c5, c6, c7, c8, c9, c10, c11, c12⟩ :=
        ih visited cf queue hnd hqv hqnd hcv hcq hcf hvb
          (fun m hm => hns m (List.mem_cons_of_mem n hm))
      refine ⟨c1, ?_, c3, c4, c5, c6, c7, c8, c9, ?_, ?_, c12⟩
      · intro x hx
        rcases c2 x hx with h | h
        · exact Or.inl h
        · exact Or.inr (List.mem_cons_of_mem n h)
      · intro m hm
        rcases List.mem_cons.mp hm with hEq | hT
        · exact hEq ▸ c3 n hn
        · exact c10 m hT
      · obtain ⟨k, hk1, hk2, hk3⟩ := c11
        exact ⟨k, hk1, hk2, by simp only [List.length_cons]; omega⟩
    · simp only [bfsPush, if_neg hn]
      have hnq : n ∉ queue := fun h => hn (hqv n h)
      have hnd1 : (n :: visited).Nodup := List.nodup_cons.mpr ⟨hn, hnd⟩
      have hqv1 : ∀ x ∈ queue ++ [n], x ∈ n :: visited := by
        intro x hx
        rcases List.mem_append.mp hx with h | h
        · exact List.mem_cons_of_mem n (hqv x h)
        · simp only [List.mem_singleton] at h
          exact h ▸ List.mem_cons_self n visited
      have hqnd1 : (queue ++ [n]).Nodup := by
        rw [List.nodup_append]
        exact ⟨hqnd, List.nodup_singleton n,
          fun x hx hx2 => by
            simp only [List.mem_singleton] at hx2
            exact hnq (hx2 ▸ hx)⟩
      have hcv1 : current ∈ n :: visited := List.mem_cons_of_mem n hcv
      have hcq1 : current ∉ queue ++ [n] := by
        intro h
        rcases List.mem_append.mp h with h1 | h1
        · exact hcq h1
        · simp only [List.mem_singleton] at h1
          exact hn (h1 ▸ hcv)
      have hcf1 : ∀ m c, alookup ((n, current) :: cf) m = some c →
          c ∈ n :: visited ∧ c ∉ queue ++ [n] ∧ m ∈ get_neighbors pf c ∧
          m ∈ n :: visited ∧ revIdx (n :: visited) c < revIdx (n :: visited) m := by
        intro m c h
        by_cases hmn : n = m
        · subst hmn
          rw [alookup_cons_self] at h
          injection h with h'
          subst h'
          refine ⟨List.mem_cons_of_mem n hcv, ?_, hns n (List.mem_cons_self n rest),
            List.mem_cons_self n visited, ?_⟩
          · intro hq
            rcases List.mem_append.mp hq with h1 | h1
            · exact hcq h1
            · simp only [List.mem_singleton] at h1
              exact hn (h1 ▸ hcv)
          · rw [revIdx_head, revIdx_cons hcv hn]
            exact revIdx_lt hcv
        · rw [alookup_cons_ne _ _ _ _ hmn] at h
          obtain ⟨d1, d2, d3, d4, d5⟩ := hcf m c h
          refine ⟨List.mem_cons_of_mem n d1, ?_, d3, List.mem_cons_of_mem n d4, ?_⟩
          · intro hq
            rcases List.mem_append.mp hq with h1 | h1
            · exact d2 h1
            · simp only [List.mem_singleton] at h1
              exact hn (h1 ▸ d1)
          · rw [revIdx_cons d1 hn, revIdx_cons d4 hn]
            exact d5
      have hvb1 : ∀ c ∈ n :: visited, c = pf.start ∨
          (alookup ((n, current) :: cf) c).isSome := by
        intro c hc
        rcases List.mem_cons.mp hc with hEq | hT
        · subst hEq
          exact Or.inr (by rw [alookup_cons_self]; rfl)
        · rcases hvb c hT with hS | hB
          · exact Or.inl hS
          · refine Or.inr ?_
            by_cases hnc : n = c
            · rw [hnc, alookup_cons_self]; rfl
            · rw [alookup_cons_ne _ _ _ _ hnc]; exact hB
      obtain ⟨c1, c2, c3, c4, c5, c6, c7, c8, c9, c10, c11, c12⟩ :=
        ih (n :: visited) ((n, current) :: cf) (queue ++ [n]) hnd1 hqv1 hqnd1 hcv1 hcq1
          hcf1 hvb1 (fun m hm => hns m (List.mem_cons_of_mem n hm))
      refine ⟨c1, ?_, ?_, c4, c5, ?_, ?_, c8, c9, ?_, ?_, ?_⟩
      · intro x hx
        rcases c2 x hx with h | h
        · rcases List.mem_cons.mp h with hEq | hT
          · exact Or.inr (hEq ▸ List.mem_cons_self n rest)
          · exact Or.inl hT
        · exact Or.inr (List.mem_cons_of_mem n h)
      · intro x hx
        exact c3 x (List.mem_cons_of_mem n hx)
      · intro x hx
        exact c6 x (List.mem_append.mpr (Or.inl hx))
      · intro x hx
        rcases c7 x hx with h | h
        · rcases List.mem_cons.mp h with hEq | hT
          · exact Or.inr (hEq ▸ c6 n (List.mem_append.mpr (Or.inr (List.mem_singleton.mpr rfl))))
          · exact Or.inl hT
        · exact Or.inr h
      · intro m hm
        rcases List.mem_cons.mp hm with hEq | hT
        · exact hEq ▸ c3 n (List.mem_cons_self n visited)
        · exact c10 m hT
      · obtain ⟨k, hk1, hk2, hk3⟩ := c11
        refine ⟨k + 1, ?_, ?_, ?_⟩
        · rw [hk1]; simp only [List.length_cons]; omega
        · rw [hk2]; simp only [List.length_append, List.length_cons,
            List.length_nil]; omega
        · simp only [List.length_cons]; omega
      · intro x hx
        rcases c12 x hx with h | h
        · rcases List.mem_append.mp h with h1 | h1
          · exact Or.inl h1
          · simp only [List.mem_singleton] at h1
            exact Or.inr (h1 ▸ hn)
        · exact Or.inr (fun h2 => h (List.mem_cons_of_mem n h2))

/-- Removing a duplicate-free sublist from a duplicate-free list leaves
exactly the difference of the lengths. -/
theorem filter_notmem_length (l sub : List Cell)
    (hl : l.Nodup) (hsub : sub.Nodup) (hss : ∀ x ∈ sub, x ∈ l) :
    (l.filter (fun c => !decide (c ∈ sub))).length = l.length - sub.length := by
  have h1 : (l.filter (fun c => decide (c ∈ sub))).length = sub.length := by
    apply Nat.le_antisymm
    · refine nodup_subset_length (hl.filter _) hsub ?_
      intro x hx
      have := List.of_mem_filter hx
      simpa using this
    · refine nodup_subset_length hsub (hl.filter _) ?_
      intro x hx
      exact List.mem_filter.mpr ⟨hss x hx, by simpa using hx⟩
  have h2 := List.length_eq_length_filter_add (l := l) (fun c => decide (c ∈ sub))
  rw [h1] at h2
  omega

/-- The master run lemma for `bfs`: under the bfs loop invariants
(members of the queue are exactly the visited-but-not-yet-dequeued
cells) the same three conclusions hold. -/
theorem bfsAux_master (pf : PF) :
    ∀ (fuel : Nat) (queue visited : List Cell) (cf : List (Cell × Cell)) (nodes : Nat),
    visited.Nodup →
    (∀ c ∈ visited, is_valid pf c.1 c.2 = true) →
    queue.Nodup →
    (∀ c ∈ queue, c ∈ visited) →
    nodes + queue.length = visited.length →
    pf.start ∈ visited →
    (pf.goal ∈ visited → pf.goal ∈ queue) →
    (∀ c ∈ visited, c ∈ queue ∨ ∀ nb ∈ get_neighbors pf c, nb ∈ visited) →
    (∀ c ∈ visited, c = pf.start ∨ (alookup cf c).isSome) →
    (∀ n c, alookup cf n = some c → c ∈ visited ∧ c ∉ queue ∧
      n ∈ get_neighbors pf c ∧ n ∈ visited ∧ revIdx visited c < revIdx visited n) →
    queue.length + 5 * (pf.rows * pf.cols - visited.length) < fuel →
    ∃ r n, bfsAux pf fuel queue visited cf nodes = some (r, n) ∧
      (r = none → ¬ Reachable pf pf.goal) ∧
      (∀ p, r = some p → ValidPath pf p ∧ p.length ≤ n) := by
  intro fuel
  induction fuel with
  | zero => intro queue visited cf nodes _ _ _ _ _ _ _ _ _ _ hfuel; omega
  | succ k ih =>
    intro queue visited cf nodes hndv hvv hqnd hqv hnodes hstart hgq hclose hvb hcf hfuel
    cases queue with
    | nil =>
      refine ⟨none, nodes, ?_, ?_, ?_⟩
      · simp [bfsAux]
      · intro _ hreach
        obtain ⟨n, hr⟩ := hreach
        have hcl : ∀ c ∈ visited, ∀ nb ∈ get_neighbors pf c, nb ∈ visited := by
          intro c hc nb hnb
          rcases hclose c hc with h | h
          · cases h
          · exact h nb hnb
        have hgv : pf.goal ∈ visited := reach_subset_of_closed hstart hcl hr
        cases hgq hgv
      · intro p hp; cases hp
    | cons current rest =>
      have hcvis : current ∈ visited := hqv current (List.mem_cons_self _ _)
      have hcrest : current ∉ rest := (List.nodup_cons.mp hqnd).1
      have hrestnd : rest.Nodup := (List.nodup_cons.mp hqnd).2
      have hbnd : visited.length ≤ pf.rows * pf.cols :=
        valid_cells_bound pf _ hndv hvv
      by_cases hgoal : current = pf.goal
      · set μ : Cell → Nat := fun x =>
          if x ∈ visited then revIdx visited x else visited.length with hμdef
        have hμ : ∀ n c, alookup cf n = some c → μ c < μ n := by
          intro n c h
          obtain ⟨d1, _, _, d4, d5⟩ := hcf n c h
          simp only [hμdef, if_pos d1, if_pos d4]
          exact d5
        have hbp : (build_path cf (bpFuel pf) current []).isSome := by
          refine build_path_isSome cf μ hμ (bpFuel pf) current [] ?_
          have : μ current ≤ visited.length := by
            by_cases hm : current ∈ visited
            · exact Nat.le_of_lt (by simpa [hμdef, hm] using revIdx_lt hm)
            · simp [hμdef, hm]
          simp only [bpFuel]
          omega
        obtain ⟨p, hp⟩ := Option.isSome_iff_exists.mp hbp
        set D : List Cell := visited.filter (fun c => !decide (c ∈ rest)) with hDdef
        have hDnd : D.Nodup := hndv.filter _
        have hDlen : D.length = visited.length - rest.length := by
          rw [hDdef]
          exact filter_notmem_length visited rest hndv hrestnd
            (fun x hx => hqv x (List.mem_cons_of_mem _ hx))
        have hfacts : ValidPath pf p ∧ p.length ≤ D.length := by
          refine built_path_facts μ hμ D hDnd ?_ ?_ ?_ ?_ (hgoal ▸ hp)
          · intro n c h
            obtain ⟨d1, d2, _, _, _⟩ := hcf n c h
            refine List.mem_filter.mpr ⟨d1, ?_⟩
            simp only [Bool.not_eq_true', decide_eq_false_iff_not]
            exact fun hc => d2 (List.mem_cons_of_mem _ hc)
          · refine List.mem_filter.mpr ⟨hgoal ▸ hcvis, ?_⟩
            simp only [Bool.not_eq_true', decide_eq_false_iff_not]
            exact hgoal ▸ hcrest
          · intro x hx hbl
            rcases hvb x (List.mem_filter.mp hx).1 with h | h
            · exact h
            · rw [hbl] at h; cases h
          · intro n c h
            exact (hcf n c h).2.2.1
        refine ⟨some p, nodes + 1, ?_, ?_, ?_⟩
        · simp only [bfsAux, if_pos hgoal, hp]
        · intro h; cases h
        · intro p' hp'
          injection hp' with hpp
          subst hpp
          refine ⟨hfacts.1, ?_⟩
          have h1 := hfacts.2
          rw [hDlen] at h1
          simp only [List.length_cons] at hnodes
          omega
      · obtain ⟨c1, c2, c3, c4, c5, c6, c7, c8, c9, c10, c11, c12⟩ :=
          bfsPush_inv pf current (get_neighbors pf current) visited cf rest hndv
            (fun x hx => hqv x (List.mem_cons_of_mem _ hx)) hrestnd hcvis hcrest
            (fun n c h => by
              obtain ⟨d1, d2, d3, d4, d5⟩ := hcf n c h
              exact ⟨d1, fun hq => d2 (List.mem_cons_of_mem _ hq), d3, d4, d5⟩)
            hvb (fun n hn => hn)
        rcases hsplit : bfsPush current (get_neighbors pf current) visited cf rest
          with ⟨visited', cf', queue'⟩
        have e1 : visited' = (bfsPush current (get_neighbors pf current) visited cf rest).1 := by
          rw [hsplit]
        have e2 : cf' = (bfsPush current (get_neighbors pf current) visited cf rest).2.1 := by
          rw [hsplit]
        have e3 : queue' = (bfsPush current (get_neighbors pf current) visited cf rest).2.2 := by
          rw [hsplit]
        have hvv' : ∀ c ∈ visited', is_valid pf c.1 c.2 = true := by
          intro c hc
          rcases c2 c (e1 ▸ hc) with h | h
          · exact hvv c h
          · exact mem_neighbors_valid h
        have hgq' : pf.goal ∈ visited' → pf.goal ∈ queue' := by
          intro hgv
          rcases c7 pf.goal (e1 ▸ hgv) with h | h
          · have := hgq h
            rcases List.mem_cons.mp this with hEq | hT
            · exact absurd hEq.symm hgoal
            · exact e3 ▸ c6 pf.goal hT
          · exact e3 ▸ h
        have hclose' : ∀ c ∈ visited', c ∈ queue' ∨
            ∀ nb ∈ get_neighbors pf c, nb ∈ visited' := by
          intro c hc
          rcases c7 c (e1 ▸ hc) with h | h
          · rcases hclose c h with h1 | h1
            · rcases List.mem_cons.mp h1 with hEq | hT
              · refine Or.inr ?_
                intro nb hnb
                rw [hEq] at hnb
                exact e1 ▸ c10 nb hnb
              · exact Or.inl (e3 ▸ c6 c hT)
            · exact Or.inr (fun nb hnb => e1 ▸ c3 nb (h1 nb hnb))
          · exact Or.inl (e3 ▸ h)
        have hfuel' : queue'.length + 5 * (pf.rows * pf.cols - visited'.length) < k := by
          obtain ⟨kk, hk1, hk2, hk3⟩ := c11
          have hnb4 : (get_neighbors pf current).length ≤ 4 := neighbors_length pf current
          have hbnd' : visited'.length ≤ pf.rows * pf.cols :=
            valid_cells_bound pf _ (e1 ▸ c1) hvv'
          rw [e1, e3] at *
          simp only [List.length_cons] at hfuel
          omega
        obtain ⟨r, n, hrun, h1, h2⟩ := ih queue' visited' cf' (nodes + 1)
          (e1 ▸ c1) hvv' (e3 ▸ c4) (fun c hc => e1 ▸ c5 c (e3 ▸ hc))
          (by
            obtain ⟨kk, hk1, hk2, hk3⟩ := c11
            simp only [List.length_cons] at hnodes
            rw [e1, e3]
            omega)
          (e1 ▸ c3 pf.start hstart) hgq' hclose'
          (by
            intro c hc
            rw [e2]
            rw [e1] at hc
            exact c9 c hc)
          (fun n c h => by
            obtain ⟨d1, d2, d3, d4, d5⟩ := c8 n c (e2 ▸ h)
            exact ⟨e1 ▸ d1, fun hq => d2 (e3 ▸ hq), d3, e1 ▸ d4, by rw [e1]; exact d5⟩)
          hfuel'
        refine ⟨r, n, ?_, h1, h2⟩
        simp only [bfsAux, if_neg hgoal, hsplit]
        exact hrun

/-! ### Validation and construction facts -/

theorem countRow_not_S {row : List Char} {s g s' g' : Nat}
    (hmem : 'S' ∉ row) (h : countRow row s g = Sum.inr (s', g')) : s' = s := by
  induction row generalizing s g with
  | nil => simp [countRow] at h; exact h.1.symm
  | cons c rest ih =>
    have hc : c ≠ 'S' := fun hc => hmem (hc ▸ List.mem_cons_self c rest)
    have hrest : 'S' ∉ rest := fun hr => hmem (List.mem_cons_of_mem c hr)
    by_cases ha : c = 'X' ∨ c = '.' ∨ c = 'S' ∨ c = 'G'
    · simp only [countRow, if_pos ha, if_neg hc] at h
      exact ih hrest h
    · simp [countRow, if_neg ha] at h

theorem countRow_not_G {row : List Char} {s g s' g' : Nat}
    (hmem : 'G' ∉ row) (h : countRow row s g = Sum.inr (s', g')) : g' = g := by
  induction row generalizing s g with
  | nil => simp [countRow] at h; exact h.2.symm
  | cons c rest ih =>
    have hc : c ≠ 'G' := fun hc => hmem (hc ▸ List.mem_cons_self c rest)
    have hrest : 'G' ∉ rest := fun hr => hmem (List.mem_cons_of_mem c hr)
    by_cases ha : c = 'X' ∨ c = '.' ∨ c = 'S' ∨ c = 'G'
    · simp only [countRow, if_pos ha, if_neg hc] at h
      exact ih hrest h
    · simp [countRow, if_neg ha] at h

theorem countRows_not_S {cols : Nat} {rows : List (List Char)} {s g S G : Nat}
    (hmem : ∀ row ∈ rows, 'S' ∉ row)
    (h : countRows cols rows s g = Sum.inr (S, G)) : S = s := by
  induction rows generalizing s g with
  | nil => simp [countRows] at h; exact h.1.symm
  | cons row rest ih =>
    by_cases hl : row.length ≠ cols
    · simp [countRows, hl] at h
    · simp only [countRows, if_neg hl] at h
      cases hcr : countRow row s g with
      | inl e => rw [hcr] at h; cases h
      | inr sg =>
        rw [hcr] at h
        obtain ⟨s1, g1⟩ := sg
        have hs1 : s1 = s :=
          countRow_not_S (hmem row (List.mem_cons_self row rest)) hcr
        have := ih (fun r hr => hmem r (List.mem_cons_of_mem row hr)) h
        omega

theorem countRows_not_G {cols : Nat} {rows : List (List Char)} {s g S G : Nat}
    (hmem : ∀ row ∈ rows, 'G' ∉ row)
    (h : countRows cols rows s g = Sum.inr (S, G)) : G = g := by
  induction rows generalizing s g with
  | nil => simp [countRows] at h; exact h.2.symm
  | cons row rest ih =>
    by_cases hl : row.length ≠ cols
    · simp [countRows, hl] at h
    · simp only [countRows, if_neg hl] at h
      cases hcr : countRow row s g with
      | inl e => rw [hcr] at h; cases h
      | inr sg =>
        rw [hcr] at h
        obtain ⟨s1, g1⟩ := sg
        have hg1 : g1 = g :=
          countRow_not_G (hmem row (List.mem_cons_self row rest)) hcr
        have := ih (fun r hr => hmem r (List.mem_cons_of_mem row hr)) h
        omega

theorem countRows_exists_S {cols : Nat} {rows : List (List Char)} {S G : Nat}
    (h : countRows cols rows 0 0 = Sum.inr (S, G)) (hS : S ≠ 0) :
    ∃ row ∈ rows, 'S' ∈ row := by
  by_contra hcon
  push_neg at hcon
  exact hS (countRows_not_S hcon h)

theorem countRows_exists_G {cols : Nat} {rows : List (List Char)} {S G : Nat}
    (h : countRows cols rows 0 0 = Sum.inr (S, G)) (hG : G ≠ 0) :
    ∃ row ∈ rows, 'G' ∈ row := by
  by_contra hcon
  push_neg at hcon
  exact hG (countRows_not_G hcon h)

theorem countRows_len {cols : Nat} {rows : List (List Char)} {s g : Nat} {X : Nat × Nat}
    (h : countRows cols rows s g = Sum.inr X) :
    ∀ row ∈ rows, row.length = cols := by
  induction rows generalizing s g with
  | nil => intro row hr; cases hr
  | cons row rest ih =>
    intro r hr
    by_cases hl : row.length ≠ cols
    · simp [countRows, hl] at h
    · simp only [countRows, if_neg hl] at h
      cases hcr : countRow row s g with
      | inl e => rw [hcr] at h; cases h
      | inr sg =>
        rw [hcr] at h
        rcases List.mem_cons.mp hr with hEq | hTail
        · subst hEq; exact not_ne_iff.mp hl
        · exact ih h r hTail

/-- Elimination of a successful validation: the grid is a non-empty list
of rows of the positive length `cols := len(row0)`, all symbols pass,
and exactly one `S` and one `G` were counted. -/
theorem validate_true_elim {g : Grid} (h : (validate_grid g).1 = true) :
    ∃ r0 rest, g = r0 :: rest ∧ r0.length ≠ 0 ∧
      countRows r0.length (r0 :: rest) 0 0 = Sum.inr (1, 1) := by
  cases g with
  | nil => simp [validate_grid] at h
  | cons r0 rest =>
    refine ⟨r0, rest, rfl, ?_, ?_⟩
    · intro hl; simp [validate_grid, hl] at h
    · by_cases hl : r0.length = 0
      · simp [validate_grid, hl] at h
      · cases hcr : countRows r0.length (r0 :: rest) 0 0 with
        | inl e => simp [validate_grid, hl, hcr] at h
        | inr st =>
          obtain ⟨s, t⟩ := st
          by_cases hs : s = 1
          · by_cases ht : t = 1
            · simp [hs, ht]
            · simp [validate_grid, hl, hcr, hs, ht] at h
          · simp [validate_grid, hl, hcr, hs] at h

theorem findInRange_isSome {sym : Char} {row : List Char} :
    ∀ (fuel j : Nat), j + fuel ≤ row.length →
    (findInRange sym row j fuel).isSome := by
  intro fuel
  induction fuel with
  | zero =>
    intro j _
    simp [findInRange]
  | succ k ih =>
    intro j hle
    have hj : j < row.length := by omega
    have hget : row[j]? = some row[j] := List.getElem?_eq_getElem hj
    simp only [findInRange, hget]
    by_cases hc : row[j] = sym
    · simp [hc]
    · simp only [if_neg hc]
      exact ih (j + 1) (by omega)

theorem findInRange_finds {sym : Char} {row : List Char} :
    ∀ (fuel j : Nat), j + fuel = row.length → sym ∈ row.drop j →
    ∃ k, findInRange sym row j fuel = some (some k) := by
  intro fuel
  induction fuel with
  | zero =>
    intro j hj hmem
    rw [List.drop_eq_nil_of_le (by omega)] at hmem
    cases hmem
  | succ k ih =>
    intro j hj hmem
    have hjlt : j < row.length := by omega
    have hget : row[j]? = some row[j] := List.getElem?_eq_getElem hjlt
    simp only [findInRange, hget]
    by_cases hc : row[j] = sym
    · exact ⟨j, by simp [hc]⟩
    · simp only [if_neg hc]
      refine ih (j + 1) (by omega) ?_
      rw [List.drop_eq_getElem_cons hjlt] at hmem
      rcases List.mem_cons.mp hmem with hEq | hT
      · exact absurd hEq.symm hc
      · exact hT

theorem findInRange_sound {sym : Char} {row : List Char} :
    ∀ (fuel j k : Nat), findInRange sym row j fuel = some (some k) →
    row[k]? = some sym ∧ k < j + fuel ∧ j ≤ k := by
  intro fuel
  induction fuel with
  | zero =>
    intro j k h
    simp [findInRange] at h
  | succ fu ih =>
    intro j k h
    cases hget : row[j]? with
    | none =>
      simp only [findInRange, hget] at h
      cases h
    | some c =>
      simp only [findInRange, hget] at h
      by_cases hc : c = sym
      · rw [if_pos hc] at h
        injection h with h'
        injection h' with h''
        subst h''
        rw [hget, hc]
        exact ⟨rfl, by omega, le_refl j⟩
      · rw [if_neg hc] at h
        obtain ⟨h1, h2, h3⟩ := ih (j + 1) k h
        exact ⟨h1, by omega, by omega⟩

theorem find_pos_go_complete {cols : Nat} {sym : Char} :
    ∀ (rows : List (List Char)) (i : Nat),
    (∀ row ∈ rows, cols ≤ row.length) →
    (find_pos.go cols sym rows i).isSome := by
  intro rows
  induction rows with
  | nil =>
    intro i _
    simp [find_pos.go]
  | cons row rest ih =>
    intro i hlen
    have h1 : (findInRange sym row 0 cols).isSome :=
      @findInRange_isSome sym row cols 0
        (by have := hlen row (List.mem_cons_self _ _); omega)
    obtain ⟨r, hr⟩ := Option.isSome_iff_exists.mp h1
    cases r with
    | none =>
      simp only [find_pos.go, findPosRow, hr]
      exact ih (i + 1) (fun r hrr => hlen r (List.mem_cons_of_mem _ hrr))
    | some j =>
      simp [find_pos.go, findPosRow, hr]

theorem find_pos_go_finds {cols : Nat} {sym : Char} :
    ∀ (rows : List (List Char)) (i : Nat),
    (∀ row ∈ rows, row.length = cols) →
    (∃ row ∈ rows, sym ∈ row) →
    ∃ p, find_pos.go cols sym rows i = some (some p) := by
  intro rows
  induction rows with
  | nil =>
    rintro i _ ⟨row, hr, _⟩
    cases hr
  | cons row rest ih =>
    intro i hlen hex
    have hrowlen : row.length = cols := hlen row (List.mem_cons_self _ _)
    by_cases hmem : sym ∈ row
    · obtain ⟨k, hk⟩ :=
        @findInRange_finds sym row cols 0 (by omega) (by simpa using hmem)
      exact ⟨((i : Int), (k : Int)), by simp [find_pos.go, findPosRow, hk]⟩
    · have h1 : (findInRange sym row 0 cols).isSome :=
        @findInRange_isSome sym row cols 0 (by omega)
      obtain ⟨r, hr⟩ := Option.isSome_iff_exists.mp h1
      cases r with
      | some k =>
        obtain ⟨hget, _, _⟩ := findInRange_sound cols 0 k hr
        obtain ⟨hklt, hkeq⟩ := List.getElem?_eq_some.mp hget
        exact absurd (hkeq ▸ List.getElem_mem hklt) hmem
      | none =>
        simp only [find_pos.go, findPosRow, hr]
        refine ih (i + 1) (fun r hrr => hlen r (List.mem_cons_of_mem _ hrr)) ?_
        obtain ⟨row', hr', hm'⟩ := hex
        rcases List.mem_cons.mp hr' with hEq | hT
        · exact absurd (hEq ▸ hm') hmem
        · exact ⟨row', hT, hm'⟩

theorem find_pos_go_sound {cols : Nat} {sym : Char} {rows : List (List Char)}
    {i : Nat} {r c : Int} (h : find_pos.go cols sym rows i = some (some (r, c))) :
    ∃ (m ci : Nat) (row : List Char), rows[m]? = some row ∧ r = ((i + m : Nat) : Int) ∧
      c = (ci : Int) ∧ findPosRow cols row sym = some (some ci) := by
  induction rows generalizing i with
  | nil =>
    simp [find_pos.go] at h
  | cons row rest ih =>
    cases hf : findPosRow cols row sym with
    | none =>
      simp only [find_pos.go, hf] at h
      cases h
    | some o =>
      cases o with
      | some j =>
        simp only [find_pos.go, hf] at h
        injection h with h'
        injection h' with h''
        injection h'' with ha hb
        refine ⟨0, j, row, by simp, ?_, hb.symm, hf⟩
        rw [← ha]
        simp
      | none =>
        simp only [find_pos.go, hf] at h
        obtain ⟨m, ci, row', hget, hr, hc, hfp⟩ := ih h
        refine ⟨m + 1, ci, row', by simpa using hget, ?_, hc, hfp⟩
        rw [hr]
        congr 1
        omega

theorem find_pos_sound {g : Grid} {cols : Nat} {sym : Char} {r c : Int}
    (h : find_pos g cols sym = some (some (r, c))) :
    ∃ ri ci : Nat, r = (ri : Int) ∧ c = (ci : Int) ∧ ci < cols ∧
      ∃ row, g[ri]? = some row ∧ row[ci]? = some sym := by
  obtain ⟨m, ci, row, hget, hr, hc, hfp⟩ := find_pos_go_sound h
  obtain ⟨hgetc, hlt, _⟩ := findInRange_sound cols 0 ci hfp
  exact ⟨m, ci, by simpa using hr, hc, by omega, row, hget, hgetc⟩

theorem cellAt_of_getElem {g : Grid} {ri ci : Nat} {row : List Char} {c : Char}
    (h1 : g[ri]? = some row) (h2 : row[ci]? = some c) :
    cellAt g (ri : Int) (ci : Int) = c := by
  simp [cellAt, h1, h2]

/-- Unpacking a successful construction. -/
theorem mk_eq {g : Grid} {pf : PF} (hm : mkPF g = some pf) :
    ∃ r0 rest, g = r0 :: rest ∧ pf.grid = g ∧ pf.rows = g.length ∧
      pf.cols = r0.length ∧
      find_pos g r0.length 'S' = some (some pf.start) ∧
      find_pos g r0.length 'G' = some (some pf.goal) := by
  cases g with
  | nil => simp [mkPF, initRaw] at hm
  | cons r0 rest =>
    simp only [mkPF, initRaw] at hm
    cases hs : find_pos (r0 :: rest) r0.length 'S' with
    | none => rw [hs] at hm; cases hm
    | some s =>
      cases hgl : find_pos (r0 :: rest) r0.length 'G' with
      | none => rw [hs, hgl] at hm; cases hm
      | some gl =>
        rw [hs, hgl] at hm
        cases s with
        | none => cases hm
        | some s' =>
          cases gl with
          | none => cases hm
          | some gl' =>
            injection hm with hm'
            exact ⟨r0, rest, rfl, by rw [← hm'], by rw [← hm'], by rw [← hm'],
              by rw [← hm']; exact hs, by rw [← hm']; exact hgl⟩

/-- The symbol a `find_pos` result carries, as an `is_valid` +
`cellAt` fact about the engine (`bnd` carries the grid/shape facts). -/
theorem find_pos_cell {pf : PF} {sym : Char} {p : Cell}
    (hg : pf.grid.length = pf.rows)
    (hfp : find_pos pf.grid pf.cols sym = some (some p)) (hsym : sym ≠ 'X') :
    is_valid pf p.1 p.2 = true ∧ cellAt pf.grid p.1 p.2 = sym := by
  obtain ⟨ri, ci, hr, hc, hci, row, hrow, hcell⟩ := find_pos_sound hfp
  obtain ⟨p1, p2⟩ := p
  simp only at hr hc
  subst hr; subst hc
  have hri : ri < pf.grid.length := by
    rcases List.getElem?_eq_some.mp hrow with ⟨hlt, _⟩
    exact hlt
  have hcellAt : cellAt pf.grid (ri : Int) (ci : Int) = sym :=
    cellAt_of_getElem hrow hcell
  refine ⟨?_, hcellAt⟩
  simp only [is_valid, Bool.and_eq_true, decide_eq_true_eq, bne_iff_ne]
  refine ⟨⟨⟨⟨Int.natCast_nonneg ri, ?_⟩, Int.natCast_nonneg ci⟩, ?_⟩, ?_⟩
  · rw [← hg]; exact_mod_cast hri
  · exact_mod_cast hci
  · rw [hcellAt]; exact hsym

/-- A successfully validated and constructed engine is well-formed. -/
theorem validate_mk_WF {g : Grid} {pf : PF}
    (hv : (validate_grid g).1 = true) (hm : mkPF g = some pf) : WF pf := by
  obtain ⟨r0, rest, hgeq, hgrid, hrows, hcols, hfs, hfg⟩ := mk_eq hm
  obtain ⟨r0', rest', hgeq', hlen0, hcnt⟩ := validate_true_elim hv
  rw [hgeq] at hgeq'
  injection hgeq' with h0 h1
  subst h0; subst h1
  have hfs' : find_pos pf.grid pf.cols 'S' = some (some pf.start) := by
    rw [hgrid, hcols]; exact hfs
  have hfg' : find_pos pf.grid pf.cols 'G' = some (some pf.goal) := by
    rw [hgrid, hcols]; exact hfg
  have hg : pf.grid.length = pf.rows := by rw [hgrid, hrows]
  obtain ⟨hsv, hsc⟩ := find_pos_cell hg hfs' (by decide)
  obtain ⟨hgv, hgc⟩ := find_pos_cell hg hfg' (by decide)
  refine ⟨hg, ?_, ?_, ?_, hsv, hgv, hsc, hgc⟩
  · intro row hrow
    rw [hcols]
    exact countRows_len hcnt row (by rw [hgrid, hgeq] at hrow; exact hrow)
  · rw [hrows, hgeq]; simp
  · rw [hcols]; omega

/-- A successfully validated grid constructs. -/
theorem validate_mk_isSome {g : Grid} (hv : (validate_grid g).1 = true) :
    (mkPF g).isSome := by
  obtain ⟨r0, rest, hgeq, hlen0, hcnt⟩ := validate_true_elim hv
  have hlen : ∀ row ∈ g, row.length = r0.length := by
    subst hgeq; exact countRows_len hcnt
  have hS : ∃ row ∈ g, 'S' ∈ row := by
    subst hgeq; exact countRows_exists_S hcnt one_ne_zero
  have hG : ∃ row ∈ g, 'G' ∈ row := by
    subst hgeq; exact countRows_exists_G hcnt one_ne_zero
  obtain ⟨s, hs⟩ := find_pos_go_finds g 0 hlen hS
  obtain ⟨gl, hgl⟩ := find_pos_go_finds g 0 hlen hG
  have hs' : find_pos g r0.length 'S' = some (some s) := hs
  have hgl' : find_pos g r0.length 'G' = some (some gl) := hgl
  subst hgeq
  simp [mkPF, initRaw, hs', hgl']

/-- C2, counterexample.  The claim says construction "fails with
StructuralError" exactly when the Start or Goal symbol is missing or
duplicated.  The constructor has no such guard: on the grid `[['.']]`
(no `S`, no `G`) and on `[['S', 'S']]` (duplicated `S`, no `G`)
`__init__` completes normally, storing what `_find_pos` returned —
`None` for a missing symbol, the first occurrence for a duplicated one —
and the only failure `__init__` can produce is an `IndexError`, as on
the ragged grid `[['.', '.'], ['G']]` where `_find_pos('S')` evaluates
`grid[1][1]` past the end of the second row. -/
theorem C2_counterexample :
    initRaw [['.']] =
      some { grid := [['.']], rows := 1, cols := 1, startPos := none, goalPos := none } ∧
    initRaw [['S', 'S']] =
      some { grid := [['S', 'S']], rows := 1, cols := 2,
             startPos := some (0, 0), goalPos := none } ∧
    initRaw [['.', '.'], ['G']] = none := by
  exact ⟨rfl, rfl, rfl⟩

/-- C2, amended.  `__init__` performs no structural check: on any
non-empty grid each of whose rows is at least as long as the first — in
particular on any validated grid — construction completes normally even
with zero or duplicated `S`/`G`, storing the unchecked `_find_pos`
results; and on every grid passing `validate_grid` it succeeds, storing
cells that carry the `S` and `G` symbols. -/
theorem C2_theorem (g : Grid) :
    (∀ r0 rest, g = r0 :: rest → (∀ row ∈ g, r0.length ≤ row.length) →
      (initRaw g).isSome) ∧
    ((validate_grid g).1 = true →
      ∃ pf, mkPF g = some pf ∧
        cellAt pf.grid pf.start.1 pf.start.2 = 'S' ∧
        cellAt pf.grid pf.goal.1 pf.goal.2 = 'G') := by
  constructor
  · intro r0 rest hgeq hlen
    subst hgeq
    have hS : (find_pos.go r0.length 'S' (r0 :: rest) 0).isSome :=
      find_pos_go_complete (r0 :: rest) 0 hlen
    have hG : (find_pos.go r0.length 'G' (r0 :: rest) 0).isSome :=
      find_pos_go_complete (r0 :: rest) 0 hlen
    obtain ⟨s, hs⟩ := Option.isSome_iff_exists.mp hS
    obtain ⟨gl, hgl⟩ := Option.isSome_iff_exists.mp hG
    have hs' : find_pos (r0 :: rest) r0.length 'S' = some s := hs
    have hgl' : find_pos (r0 :: rest) r0.length 'G' = some gl := hgl
    simp [initRaw, hs', hgl']
  · intro hv
    obtain ⟨pf, hm⟩ := Option.isSome_iff_exists.mp (validate_mk_isSome hv)
    have hwf := validate_mk_WF hv hm
    exact ⟨pf, hm, hwf.start_cell, hwf.goal_cell⟩

/-- C2 witness: Scenario 4's single-row grid both constructs raw (its
single row trivially bounds the column range) and, being valid,
constructs an engine whose start/goal carry `S`/`G`. -/
theorem C2_witness :
    (initRaw gridRow).isSome ∧
    (∃ pf, mkPF gridRow = some pf ∧
      cellAt pf.grid pf.start.1 pf.start.2 = 'S' ∧
      cellAt pf.grid pf.goal.1 pf.goal.2 = 'G') :=
  ⟨(C2_theorem gridRow).1 ['S', '.', 'G'] [] rfl (by decide),
    (C2_theorem gridRow).2 (by decide)⟩

/-- C5, counterexample.  On `gridC5` the cell `(1,1)` is pushed first
from the start `(1,0)` and later — still on the frontier and unvisited —
from `(0,1)`; the second push overwrites its predecessor, and the path
`greedy` returns routes through `(1,1)` with predecessor `(0,1)`.  Under
the claim's first-push-wins policy (`PF.greedyOnce`) the returned path
keeps `(1,0)` as the predecessor of `(1,1)` instead, so the two runs
differ: predecessors are reassigned by later pushes. -/
theorem C5_counterexample :
    mkPF gridC5 = some pfC5 ∧
    pfC5.greedy =
      some (some [(1, 0), (0, 0), (0, 1), (1, 1), (1, 2), (1, 3), (0, 3)], 7) ∧
    pfC5.greedyOnce = some (some [(1, 0), (1, 1), (1, 2), (1, 3), (0, 3)], 7) ∧
    pfC5.greedy ≠ pfC5.greedyOnce := by
  refine ⟨rfl, rfl, rfl, by decide⟩

/-- `greedy`'s neighbour loop leaves the predecessor binding of a cell
not among the processed neighbours unchanged. -/
theorem greedyPush_lookup_notmem (pf : PF) (current : Cell) (visited : List Cell)
    (ms : List Cell) (heap : List (Nat × Cell)) (cf : List (Cell × Cell))
    (n : Cell) (hn : n ∉ ms) :
    alookup (greedyPush pf current visited ms heap cf).2 n = alookup cf n := by
  induction ms generalizing heap cf with
  | nil => rfl
  | cons q qs ih =>
    have hqn : q ≠ n := fun h => hn (h ▸ List.mem_cons_self q qs)
    have hqs : n ∉ qs := fun h => hn (List.mem_cons_of_mem q h)
    by_cases hq : q ∈ visited
    · simp only [greedyPush, if_pos hq]; exact ih _ _ hqs
    · simp only [greedyPush, if_neg hq]
      rw [ih _ _ hqs, alookup_cons_ne _ _ _ _ hqn]

/-- C5, amended.  In `greedy`'s neighbour loop the predecessor of every
unvisited neighbour `n` is (re)assigned to the cell `current` being
expanded, regardless of any earlier binding: the map records the LAST
push of the cell before it is finalized, not the first. -/
theorem C5_theorem (pf : PF) (current : Cell) (visited : List Cell)
    (ns : List Cell) (heap : List (Nat × Cell)) (cf : List (Cell × Cell))
    (n : Cell) (hmem : n ∈ ns) (hnv : n ∉ visited) :
    alookup (greedyPush pf current visited ns heap cf).2 n = some current := by
  induction ns generalizing heap cf with
  | nil => cases hmem
  | cons m ms ih =>
    rcases List.mem_cons.mp hmem with hEq | hTail
    · subst hEq
      by_cases hn : n ∈ ms
      · simp only [greedyPush, if_neg hnv]
        exact ih _ _ hn
      · simp only [greedyPush, if_neg hnv]
        rw [greedyPush_lookup_notmem _ _ _ _ _ _ _ hn, alookup_cons_self]
    · by_cases hm : m ∈ visited
      · simp only [greedyPush, if_pos hm]; exact ih _ _ hTail
      · simp only [greedyPush, if_neg hm]; exact ih _ _ hTail

/-- C5 witness: the concrete reassignment that happens on `gridC5` when
`(0,1)` is expanded with `(1,1)` already bound to `(1,0)`. -/
theorem C5_witness :
    (1, 1) ∈ ([(1, 1)] : List Cell) ∧ ((1, 1) : Cell) ∉ ([(0, 1), (0, 0), (1, 0)] : List Cell) ∧
    alookup (greedyPush pfC5 (0, 1) [(0, 1), (0, 0), (1, 0)] [(1, 1)] []
        [((1, 1), (1, 0))]).2 (1, 1) = some (0, 1) := by
  refine ⟨by decide, by decide, C5_theorem pfC5 (0, 1) _ _ _ _ (1, 1) (by decide) (by decide)⟩

/-- C6, counterexample.  On Scenario 1's grid, `bfs` does not return a
7-cell path: the cell `(0,3)` is enclosed by the obstacles `(0,2)`,
`(1,3)` and the goal, so the shortest route runs through the bottom row
and has 9 cells (8 edges).  `bfs` returns exactly that 9-cell path, with
11 nodes visited. -/
theorem C6_counterexample :
    mkPF gridC6 = some pfC6 ∧
    pfC6.bfs = some (some pathC6, 11) ∧
    pathC6.length ≠ 7 := by
  exact ⟨rfl, rfl, by decide⟩

/-- C6, amended.  On Scenario 1's grid, `bfs` returns a path of exactly
9 cells (start through goal, inclusive), with `nodesVisited = 11`, which
is at most 15. -/
theorem C6_theorem :
    mkPF gridC6 = some pfC6 ∧
    pfC6.bfs = some (some pathC6, 11) ∧
    pathC6.length = 9 ∧ 11 ≤ 15 := by
  exact ⟨rfl, rfl, by decide, by decide⟩

/-- C7, counterexample.  `validate_grid` interleaves the row-length and
symbol checks row by row, so a grid whose only violations are an invalid
symbol in row 0 and a wrong length of row 1 reports the invalid symbol,
not "Unequal row lengths" as the claim's check order would require.  The
grid `[['Z','S'],['G']]` has exactly one `S` and one `G`; its only
violations are the invalid symbol `Z` and row 1's length. -/
theorem C7_counterexample :
    validate_grid [['Z', 'S'], ['G']] = (false, "Invalid symbol: Z") ∧
    "Invalid symbol: Z" ≠ "Unequal row lengths" := by
  exact ⟨rfl, by decide⟩

/-- C7, amended.  `validate_grid` checks, in order: grid non-empty with
at least one column; then, PER ROW in order, first that row's length and
then that row's symbols; after all rows pass, exactly one `S`; then
exactly one `G` — returning the first violation in that interleaved
order.  Stated here: (1) a symbol violation in row 0 is reported even
when a later row has the wrong length; (2) with all rows well-formed,
an `S`-count violation is reported; (3) then a `G`-count violation. -/
theorem C7_theorem :
    (∀ (r0 : List Char) (rest : List (List Char)) (e : String),
      r0.length ≠ 0 → countRow r0 0 0 = .inl e →
      validate_grid (r0 :: rest) = (false, e)) ∧
    (∀ (r0 : List Char) (rest : List (List Char)) (s t : Nat),
      r0.length ≠ 0 → countRows r0.length (r0 :: rest) 0 0 = .inr (s, t) →
      s ≠ 1 → validate_grid (r0 :: rest) = (false, "Need exactly one S")) ∧
    (∀ (r0 : List Char) (rest : List (List Char)) (t : Nat),
      r0.length ≠ 0 → countRows r0.length (r0 :: rest) 0 0 = .inr (1, t) →
      t ≠ 1 → validate_grid (r0 :: rest) = (false, "Need exactly one G")) := by
  refine ⟨?_, ?_, ?_⟩
  · intro r0 rest e hlen hrow
    simp [validate_grid, hlen, countRows, hrow]
  · intro r0 rest s t hlen hrows hs
    simp [validate_grid, hlen, hrows, hs]
  · intro r0 rest t hlen hrows ht
    simp [validate_grid, hlen, hrows, ht]

/-- C7 witness: the three branches at concrete grids — the invalid
symbol in row 0 beating the short row 1, the two-`S` grid of Scenario 3,
and a two-`G` grid. -/
theorem C7_witness :
    validate_grid [['Z', 'S'], ['G']] = (false, "Invalid symbol: Z") ∧
    validate_grid [['S', 'S'], ['G', '.']] = (false, "Need exactly one S") ∧
    validate_grid [['S', 'G'], ['G', '.']] = (false, "Need exactly one G") := by
  refine ⟨C7_theorem.1 ['Z', 'S'] [['G']] "Invalid symbol: Z" (by decide) (by decide),
    C7_theorem.2.1 ['S', 'S'] [['G', '.']] 2 1 (by decide) (by decide) (by decide),
    C7_theorem.2.2 ['S', 'G'] [['G', '.']] 2 (by decide) (by decide) (by decide)⟩

/-- C10, counterexample.  The frontier of `a_star` is `heapq` on
`(f, cell)` tuples, here `heappush`/`heappop`.  Two entries with equal
`f` are ordered by Python's tuple comparison, i.e. by the cell's
coordinates, not by insertion order: pushing `(5, (1,0))` first and
`(5, (0,1))` second, the pop returns the later-pushed `(5, (0,1))`. -/
theorem C10_counterexample :
    heappop (heappush (heappush [] (5, ((1 : Int), (0 : Int)))) (5, (0, 1))) =
      some ((5, (0, 1)), [(5, (1, 0))]) := by
  decide

/-- C10, amended.  Ties on equal priority `f` are resolved by the
lexicographic order on the cell coordinates (smaller row first, then
smaller column), whichever insertion order the two entries arrive in:
popping after the two pushes returns the entry that `entryLe`-precedes
the other, in both push orders. -/
theorem C10_theorem (f : Nat) (c₁ c₂ : Cell) (hne : c₁ ≠ c₂)
    (hle : entryLe (f, c₁) (f, c₂) = true) :
    heappop (heappush (heappush [] (f, c₂)) (f, c₁)) = some ((f, c₁), [(f, c₂)]) ∧
    heappop (heappush (heappush [] (f, c₁)) (f, c₂)) = some ((f, c₁), [(f, c₂)]) := by
  have hnle : entryLe (f, c₂) (f, c₁) = false := by
    rcases c₁ with ⟨a, b⟩; rcases c₂ with ⟨c, d⟩
    have hne' : ¬(a = c ∧ b = d) := by
      rintro ⟨h1, h2⟩; exact hne (by simp [h1, h2])
    cases hB : entryLe (f, (c, d)) (f, (a, b)) with
    | false => rfl
    | true =>
      exfalso
      simp only [entryLe, Bool.or_eq_true, Bool.and_eq_true, decide_eq_true_eq] at hle hB
      omega
  constructor
  · simp [heappush, hle, heappop]
  · simp [heappush, hnle, heappop]

/-- C10 witness: equal `f = 5`, cells `(0,1)` and `(1,0)`: both push
orders pop `(5, (0,1))` first. -/
theorem C10_witness :
    heappop (heappush (heappush [] (5, ((1 : Int), (0 : Int)))) (5, (0, 1))) =
      some ((5, (0, 1)), [(5, (1, 0))]) ∧
    heappop (heappush (heappush [] (5, ((0 : Int), (1 : Int)))) (5, (1, 0))) =
      some ((5, (0, 1)), [(5, (1, 0))]) :=
  C10_theorem 5 (0, 1) (1, 0) (by decide) (by decide)

/-! ### Running the five searches from their initial states -/

theorem RC_pos {pf : PF} (hwf : WF pf) : 1 ≤ pf.rows * pf.cols := by
  have := Nat.mul_le_mul hwf.rows_pos hwf.cols_pos
  simpa using this

theorem dfs_run {g : Grid} {pf : PF} (hv : (validate_grid g).1 = true)
    (hm : mkPF g = some pf) :
    ∃ r n, pf.dfs = some (r, n) ∧
      (r = none → ¬ Reachable pf pf.goal) ∧
      (∀ p, r = some p → ValidPath pf p ∧ p.length ≤ n) := by
  have hwf := validate_mk_WF hv hm
  refine dfsAux_master pf (loopFuel pf) [pf.start] [] [] 0 (by simp) (by simp)
    ?_ rfl (by simp) ?_ (by simp) (by simp) (Or.inr (List.mem_cons_self _ _))
    ?_ ?_
  · intro c hc
    rcases List.mem_cons.mp hc with hEq | hT
    · exact hEq ▸ hwf.start_valid
    · cases hT
  · intro c hc
    rcases List.mem_cons.mp hc with hEq | hT
    · exact Or.inl hEq
    · cases hT
  · intro n c h; cases h
  · simp only [loopFuel, List.length_cons, List.length_nil]
    omega

theorem bfs_run {g : Grid} {pf : PF} (hv : (validate_grid g).1 = true)
    (hm : mkPF g = some pf) :
    ∃ r n, pf.bfs = some (r, n) ∧
      (r = none → ¬ Reachable pf pf.goal) ∧
      (∀ p, r = some p → ValidPath pf p ∧ p.length ≤ n) := by
  have hwf := validate_mk_WF hv hm
  have hRC := RC_pos hwf
  refine bfsAux_master pf (loopFuel pf) [pf.start] [pf.start] [] 0 (by simp)
    ?_ (by simp) (fun c hc => hc) (by simp) (List.mem_cons_self _ _)
    (fun h => h) (fun c _ => Or.inl (List.mem_cons.mpr (Or.inl ?_))) ?_ ?_ ?_
  · intro c hc
    rcases List.mem_cons.mp hc with hEq | hT
    · exact hEq ▸ hwf.start_valid
    · cases hT
  · rcases List.mem_cons.mp ‹c ∈ [pf.start]› with hEq | hT
    · exact hEq
    · cases hT
  · intro c hc
    rcases List.mem_cons.mp hc with hEq | hT
    · exact Or.inl hEq
    · cases hT
  · intro n c h; cases h
  · simp only [loopFuel, List.length_cons, List.length_nil]
    omega

theorem greedy_run {g : Grid} {pf : PF} (hv : (validate_grid g).1 = true)
    (hm : mkPF g = some pf) :
    ∃ r n, pf.greedy = some (r, n) ∧
      (r = none → ¬ Reachable pf pf.goal) ∧
      (∀ p, r = some p → ValidPath pf p ∧ p.length ≤ n) := by
  have hwf := validate_mk_WF hv hm
  refine greedyAux_master pf (loopFuel pf)
    [(manhattan_dist pf.start pf.goal, pf.start)] [] [] 0 (by simp) (by simp)
    ?_ rfl (by simp) ?_ (by simp) (by simp)
    (Or.inr ⟨manhattan_dist pf.start pf.goal, List.mem_cons_self _ _⟩)
    ?_ ?_
  · intro e he
    rcases List.mem_cons.mp he with hEq | hT
    · rw [hEq]; exact hwf.start_valid
    · cases hT
  · intro e he
    rcases List.mem_cons.mp he with hEq | hT
    · exact Or.inl (by rw [hEq])
    · cases hT
  · intro n c h; cases h
  · simp only [loopFuel, List.length_cons, List.length_nil]
    omega

theorem ucs_run {g : Grid} {pf : PF} (hv : (validate_grid g).1 = true)
    (hm : mkPF g = some pf) :
    ∃ r n, pf.ucs = some (r, n) ∧
      (r = none → ¬ Reachable pf pf.goal) ∧
      (∀ p, r = some p → ValidPath pf p ∧ p.length ≤ n) := by
  have hwf := validate_mk_WF hv hm
  refine ucsAux_master pf (loopFuel pf) [(0, pf.start)] [] [] [(pf.start, 0)] 0
    (by simp) (by simp) ?_ rfl (by simp) ?_ (by simp) (by simp)
    (by rw [alookup_cons_self]; rfl) ?_ ?_ ?_ ?_ ?_ ?_ ?_
  · intro e he
    rcases List.mem_cons.mp he with hEq | hT
    · rw [hEq]; exact hwf.start_valid
    · cases hT
  · intro e he
    rcases List.mem_cons.mp he with hEq | hT
    · exact Or.inl (by rw [hEq])
    · cases hT
  · intro e he
    rcases List.mem_cons.mp he with hEq | hT
    · exact ⟨0, by rw [hEq, alookup_cons_self], by rw [hEq]⟩
    · cases hT
  · intro e he
    rcases List.mem_cons.mp he with hEq | hT
    · rw [hEq]; simp
    · cases hT
  · intro x v hv'
    by_cases hx : pf.start = x
    · rw [← hx, alookup_cons_self] at hv'
      injection hv' with hv''
      omega
    · rw [alookup_cons_ne _ _ _ _ hx] at hv'
      cases hv'
  · intro n c h; cases h
  · intro n c h; cases h
  · intro x v hv'
    by_cases hx : pf.start = x
    · exact Or.inr ⟨0, by rw [← hx]; exact List.mem_cons_self _ _⟩
    · rw [alookup_cons_ne _ _ _ _ hx] at hv'
      cases hv'
  · simp only [loopFuel, List.length_cons, List.length_nil]
    omega

theorem a_star_run {g : Grid} {pf : PF} (hv : (validate_grid g).1 = true)
    (hm : mkPF g = some pf) :
    ∃ r n, pf.a_star = some (r, n) ∧
      (r = none → ¬ Reachable pf pf.goal) ∧
      (∀ p, r = some p → ValidPath pf p ∧ p.length ≤ n) := by
  have hwf := validate_mk_WF hv hm
  refine aStarAux_master pf (loopFuel pf) [(0, pf.start)] [] [] [(pf.start, 0)] 0
    (by simp) (by simp) ?_ rfl (by simp) ?_ (by simp) (by simp)
    (by rw [alookup_cons_self]; rfl) ?_ ?_ ?_ ?_ ?_ ?_
  · intro e he
    rcases List.mem_cons.mp he with hEq | hT
    · rw [hEq]; exact hwf.start_valid
    · cases hT
  · intro e he
    rcases List.mem_cons.mp he with hEq | hT
    · exact Or.inl (by rw [hEq])
    · cases hT
  · intro e he
    rcases List.mem_cons.mp he with hEq | hT
    · rw [hEq]
      rw [alookup_cons_self]
      rfl
    · cases hT
  · intro x v hv'
    by_cases hx : pf.start = x
    · rw [← hx, alookup_cons_self] at hv'
      injection hv' with hv''
      omega
    · rw [alookup_cons_ne _ _ _ _ hx] at hv'
      cases hv'
  · intro n c h; cases h
  · intro n c h; cases h
  · intro x v hv'
    by_cases hx : pf.start = x
    · exact Or.inr ⟨0, by rw [← hx]; exact List.mem_cons_self _ _⟩
    · rw [alookup_cons_ne _ _ _ _ hx] at hv'
      cases hv'
  · simp only [loopFuel, List.length_cons, List.length_nil]
    omega

/-! ### Order facts for the heap -/

theorem entryLe_key_le {a b : Nat × Cell} (h : entryLe a b = true) : a.1 ≤ b.1 := by
  rcases a with ⟨k1, c1⟩
  rcases b with ⟨k2, c2⟩
  simp only [entryLe, Bool.or_eq_true, Bool.and_eq_true, decide_eq_true_eq] at h
  rcases h with h | ⟨h, _⟩
  · exact Nat.le_of_lt h
  · exact Nat.le_of_eq h

theorem entryLe_total (a b : Nat × Cell) : entryLe a b = true ∨ entryLe b a = true := by
  rcases a with ⟨k1, a1, a2⟩
  rcases b with ⟨k2, b1, b2⟩
  simp only [entryLe, Bool.or_eq_true, Bool.and_eq_true, decide_eq_true_eq]
  omega

theorem entryLe_trans {a b c : Nat × Cell} (h1 : entryLe a b = true)
    (h2 : entryLe b c = true) : entryLe a c = true := by
  rcases a with ⟨k1, a1, a2⟩
  rcases b with ⟨k2, b1, b2⟩
  rcases c with ⟨k3, c1, c2⟩
  simp only [entryLe, Bool.or_eq_true, Bool.and_eq_true, decide_eq_true_eq] at h1 h2 ⊢
  omega

/-- `heappush` keeps the heap list sorted. -/
theorem heappush_sorted {h : List (Nat × Cell)} {e : Nat × Cell}
    (hs : List.Pairwise (fun a b => entryLe a b = true) h) :
    List.Pairwise (fun a b => entryLe a b = true) (heappush h e) := by
  induction h with
  | nil => simp [heappush]
  | cons x rest ih =>
    rcases List.pairwise_cons.mp hs with ⟨hx, hrest⟩
    by_cases hle : entryLe e x
    · simp only [heappush, if_pos hle]
      refine List.pairwise_cons.mpr ⟨?_, hs⟩
      intro b hb
      rcases List.mem_cons.mp hb with hEq | hT
      · exact hEq ▸ hle
      · exact entryLe_trans hle (hx b hT)
    · simp only [heappush, if_neg hle]
      refine List.pairwise_cons.mpr ⟨?_, ih hrest⟩
      intro b hb
      rcases heappush_mem.mp hb with h1 | h1
      · exact hx b h1
      · rw [h1]
        rcases entryLe_total e x with h2 | h2
        · exact absurd h2 hle
        · exact h2

/-- In a sorted heap the head is a least entry. -/
theorem sorted_head_min {x : Nat × Cell} {rest : List (Nat × Cell)}
    (hs : List.Pairwise (fun a b => entryLe a b = true) (x :: rest)) :
    ∀ e ∈ rest, entryLe x e = true :=
  (List.pairwise_cons.mp hs).1

/-! ### Distance facts -/

theorem isDist_unique {pf : PF} {c : Cell} {d1 d2 : Nat}
    (h1 : IsDist pf c d1) (h2 : IsDist pf c d2) : d1 = d2 :=
  Nat.le_antisymm (h1.2 d2 h2.1) (h2.2 d1 h1.1)

theorem reachable_isDist {pf : PF} {c : Cell} (h : Reachable pf c) :
    ∃ d, IsDist pf c d := by
  classical
  exact ⟨Nat.find h, Nat.find_spec h, fun m hm => Nat.find_le hm⟩

theorem isDist_start {pf : PF} : IsDist pf pf.start 0 :=
  ⟨.zero, fun m _ => Nat.zero_le m⟩

/-- The distance to a neighbour exceeds the distance to the cell by at
most one. -/
theorem isDist_step {pf : PF} {c n : Cell} {dc : Nat} (hd : IsDist pf c dc)
    (hn : n ∈ get_neighbors pf c) :
    ∀ m, ReachN pf m n → ∃ dn, IsDist pf n dn ∧ dn ≤ dc + 1 := by
  intro m hm
  obtain ⟨dn, hdn⟩ := reachable_isDist ⟨m, hm⟩
  exact ⟨dn, hdn, hdn.2 (dc + 1) (hd.1.succ hn)⟩

/-! ### Manhattan-distance facts -/

theorem manhattan_self (x : Cell) : manhattan_dist x x = 0 := by
  simp [manhattan_dist]

theorem manhattan_pos {x y : Cell} (h : x ≠ y) : 1 ≤ manhattan_dist x y := by
  rcases x with ⟨a, b⟩
  rcases y with ⟨c, d⟩
  have : ¬(a = c ∧ b = d) := by
    intro ⟨h1, h2⟩
    exact h (by rw [h1, h2])
  simp only [manhattan_dist]
  omega

/-- A traversable neighbour lies at Manhattan distance exactly 1. -/
theorem neighbors_delta {pf : PF} {c n : Cell} (h : n ∈ get_neighbors pf c) :
    manhattan_dist c n = 1 := by
  simp only [get_neighbors, List.mem_filter, List.mem_map, directions] at h
  obtain ⟨⟨d, hd, hn⟩, _⟩ := h
  rcases c with ⟨a, b⟩
  fin_cases hd <;> (rw [← hn]; simp [manhattan_dist])

/-- The Manhattan heuristic changes by at most one across a move
(consistency). -/
theorem manhattan_consistent {pf : PF} {c n : Cell} (h : n ∈ get_neighbors pf c)
    (t : Cell) :
    manhattan_dist n t ≤ manhattan_dist c t + 1 ∧
    manhattan_dist c t ≤ manhattan_dist n t + 1 := by
  have h1 := neighbors_delta h
  rcases c with ⟨a, b⟩
  rcases n with ⟨u, v⟩
  rcases t with ⟨s, w⟩
  simp only [manhattan_dist] at h1 ⊢
  omega

/-! ### Chain-length counting -/

theorem chain_mu_ge (μ : Cell → Nat) :
    ∀ (q : List Cell), List.Chain' (fun a b => μ a + 1 ≤ μ b) q →
    ∀ h ∈ q.head?, ∀ x ∈ q.getLast?, μ h + (q.length - 1) ≤ μ x := by
  intro q
  induction q with
  | nil => intro _ h hh; cases hh
  | cons a t ih =>
    intro hchain h hh x hx
    rw [Option.mem_def] at hh
    injection hh with hh'
    subst hh'
    cases t with
    | nil =>
      rw [Option.mem_def] at hx
      injection hx with hx'
      subst hx'
      simp
    | cons b t2 =>
      rw [List.chain'_cons] at hchain
      have hlast : x ∈ (b :: t2).getLast? := by
        rw [Option.mem_def] at hx ⊢
        rw [← hx]
        exact (List.getLast?_cons_cons ..).symm ▸ rfl
      have := ih hchain.2 b (by simp) x hlast
      have hab := hchain.1
      simp only [List.length_cons] at this ⊢
      omega

theorem chain_last_reachN {pf : PF} :
    ∀ (q : List Cell) (a : Cell) (m : Nat), ReachN pf m a →
    List.Chain (fun u v => v ∈ get_neighbors pf u) a q →
    ∀ x ∈ q.getLast?, ReachN pf (m + q.length) x := by
  intro q
  induction q with
  | nil => intro a m _ _ x hx; cases hx
  | cons b t ih =>
    intro a m ha hchain x hx
    rw [List.chain_cons] at hchain
    have hb : ReachN pf (m + 1) b := ha.succ hchain.1
    cases t with
    | nil =>
      rw [Option.mem_def] at hx
      injection hx with hx'
      subst hx'
      simpa using hb
    | cons c t2 =>
      have hlast : x ∈ (c :: t2).getLast? := by
        rw [Option.mem_def] at hx ⊢
        rw [← hx]
        exact (List.getLast?_cons_cons ..).symm ▸ rfl
      have := ih b (m + 1) hb hchain.2 x hlast
      have harith : m + 1 + (c :: t2).length = m + (b :: c :: t2).length := by
        simp only [List.length_cons]
        omega
      rw [harith] at this
      exact this

/-- A valid route of `L` cells witnesses `ReachN (L-1) goal`. -/
theorem validpath_reachN {pf : PF} {p : List Cell} (h : ValidPath pf p) :
    ReachN pf (p.length - 1) pf.goal := by
  obtain ⟨hhead, hlast, hchain⟩ := h
  cases p with
  | nil => cases hhead
  | cons a t =>
    injection hhead with hhead'
    subst hhead'
    cases t with
    | nil =>
      simp only [List.getLast?_singleton] at hlast
      injection hlast with hlast'
      rw [← hlast']
      simpa using @ReachN.zero pf
    | cons b t2 =>
      have hlast2 : pf.goal ∈ (b :: t2).getLast? := by
        rw [Option.mem_def]
        rw [← hlast]
        exact (List.getLast?_cons_cons ..).symm ▸ rfl
      have := chain_last_reachN (b :: t2) pf.start 0 (.zero) hchain pf.goal hlast2
      simpa using this

/-- Any valid route has at least `dist(goal) + 1` cells. -/
theorem validpath_min {pf : PF} {q : List Cell} {dg : Nat}
    (hdg : IsDist pf pf.goal dg) (h : ValidPath pf q) : dg + 1 ≤ q.length := by
  have h1 := hdg.2 _ (validpath_reachN h)
  have h2 : q ≠ [] := by
    intro hq
    rw [hq] at h
    cases h.1
  have h3 : 1 ≤ q.length := List.length_pos.mpr h2
  omega

/-! ### UCS optimality -/

/-- Frontier lemma for `ucs` (Dijkstra with unit edges): for every cell
reachable in `n` moves and not yet finalized, the heap holds a pending
entry whose key is the recorded cost of an unfinalized cell and at most
`n`. -/
theorem ucs_frontier {pf : PF} {heap : List (Nat × Cell)} {visited : List Cell}
    {cost : List (Cell × Nat)}
    (hstart0 : alookup cost pf.start = some 0)
    (hpend : ∀ x v, alookup cost x = some v → x ∉ visited → (v, x) ∈ heap)
    (hvisited : ∀ z ∈ visited, ∃ dz, IsDist pf z dz ∧ alookup cost z = some dz)
    (hnbr : ∀ z ∈ visited, ∀ dz, IsDist pf z dz → ∀ nb ∈ get_neighbors pf z,
      ∃ v, alookup cost nb = some v ∧ v ≤ dz + 1) :
    ∀ {n : Nat} {x : Cell}, ReachN pf n x → x ∉ visited →
    ∃ y vy, alookup cost y = some vy ∧ y ∉ visited ∧ (vy, y) ∈ heap ∧ vy ≤ n := by
  intro n x h
  induction h with
  | zero =>
    intro hx
    exact ⟨pf.start, 0, hstart0, hx, hpend _ _ hstart0 hx, le_refl 0⟩
  | @succ n c m hr hnb ih =>
    intro hm
    by_cases hc : c ∈ visited
    · obtain ⟨dz, hdz, hcost⟩ := hvisited c hc
      obtain ⟨v, hv, hvle⟩ := hnbr c hc dz hdz m hnb
      have hdzn : dz ≤ n := hdz.2 n hr
      exact ⟨m, v, hv, hm, hpend _ _ hv hm, by omega⟩
    · obtain ⟨y, vy, h1, h2, h3, h4⟩ := ih hc
      exact ⟨y, vy, h1, h2, h3, by omega⟩

/-- Invariant preservation through the `ucs` neighbour loop when the
expanded cell has just been finalized at its exact distance `kk`. -/
theorem ucsRelax_optimal (pf : PF) (current : Cell) (kk : Nat) (V : List Cell)
    (hcd : IsDist pf current kk) :
    ∀ (ns : List Cell) (heap : List (Nat × Cell)) (cf : List (Cell × Cell))
      (cost : List (Cell × Nat)),
    (∀ n ∈ ns, n ∈ get_neighbors pf current) →
    (∀ x v, alookup cost x = some v → ReachN pf v x) →
    (∀ e ∈ heap, ∃ v, alookup cost e.2 = some v ∧ v ≤ e.1) →
    (∀ x v, alookup cost x = some v → x ∉ V → (v, x) ∈ heap) →
    (∀ z ∈ V, ∃ dz, IsDist pf z dz ∧ alookup cost z = some dz) →
    (∀ n c, alookup cf n = some c → ∃ vn vc, alookup cost n = some vn ∧
      alookup cost c = some vc ∧ vc < vn) →
    List.Pairwise (fun a b => entryLe a b = true) heap →
    current ∈ V →
    (∀ x v, alookup (ucsRelax current kk ns heap cf cost).2.2 x = some v →
      ReachN pf v x) ∧
    (∀ e ∈ (ucsRelax current kk ns heap cf cost).1, ∃ v,
      alookup (ucsRelax current kk ns heap cf cost).2.2 e.2 = some v ∧ v ≤ e.1) ∧
    (∀ x v, alookup (ucsRelax current kk ns heap cf cost).2.2 x = some v →
      x ∉ V → (v, x) ∈ (ucsRelax current kk ns heap cf cost).1) ∧
    (∀ z ∈ V, ∃ dz, IsDist pf z dz ∧
      alookup (ucsRelax current kk ns heap cf cost).2.2 z = some dz) ∧
    (∀ n c, alookup (ucsRelax current kk ns heap cf cost).2.1 n = some c →
      ∃ vn vc, alookup (ucsRelax current kk ns heap cf cost).2.2 n = some vn ∧
        alookup (ucsRelax current kk ns heap cf cost).2.2 c = some vc ∧ vc < vn) ∧
    List.Pairwise (fun a b => entryLe a b = true)
      (ucsRelax current kk ns heap cf cost).1 ∧
    (∀ n ∈ ns, ∃ v, alookup (ucsRelax current kk ns heap cf cost).2.2 n = some v ∧
      v ≤ kk + 1) ∧
    (∀ x v, alookup cost x = some v →
      ∃ v', alookup (ucsRelax current kk ns heap cf cost).2.2 x = some v' ∧ v' ≤ v) := by
  intro ns
  induction ns with
  | nil =>
    intro heap cf cost _ hre hHC hpend hVex hCF hsort hcv
    refine ⟨hre, hHC, hpend, hVex, hCF, hsort, ?_, ?_⟩
    · intro n hn; cases hn
    · intro x v hv; exact ⟨v, hv, le_refl v⟩
  | cons m rest ih =>
    intro heap cf cost hns hre hHC hpend hVex hCF hsort hcv
    have hmnb : m ∈ get_neighbors pf current := hns m (List.mem_cons_self m rest)
    have hdm_le : ∀ dm, IsDist pf m dm → dm ≤ kk + 1 := by
      intro dm hdm
      exact hdm.2 (kk + 1) (hcd.1.succ hmnb)
    have hcurex : alookup cost current = some kk := by
      obtain ⟨dz, hdz, hcost⟩ := hVex current hcv
      rw [isDist_unique hdz hcd] at hcost
      exact hcost
    have hrest_ns : ∀ n ∈ rest, n ∈ get_neighbors pf current :=
      fun n hn => hns n (List.mem_cons_of_mem m hn)
    -- the updated-state hypotheses for the `better` branches
    have hupd : ∀ (hbind : alookup cost m = none ∨
        ∃ cn, alookup cost m = some cn ∧ kk + 1 < cn),
        m ∉ V ∧ m ≠ current ∧
        (∀ x v, alookup ((m, kk + 1) :: cost) x = some v → ReachN pf v x) ∧
        (∀ e ∈ heappush heap (kk + 1, m), ∃ v,
          alookup ((m, kk + 1) :: cost) e.2 = some v ∧ v ≤ e.1) ∧
        (∀ x v, alookup ((m, kk + 1) :: cost) x = some v → x ∉ V →
          (v, x) ∈ heappush heap (kk + 1, m)) ∧
        (∀ z ∈ V, ∃ dz, IsDist pf z dz ∧
          alookup ((m, kk + 1) :: cost) z = some dz) ∧
        (∀ n c, alookup ((m, current) :: cf) n = some c →
          ∃ vn vc, alookup ((m, kk + 1) :: cost) n = some vn ∧
            alookup ((m, kk + 1) :: cost) c = some vc ∧ vc < vn) ∧
        List.Pairwise (fun a b => entryLe a b = true)
          (heappush heap (kk + 1, m)) := by
      intro hbind
      have hcostm : ∀ v, alookup cost m = some v → kk + 1 < v := by
        intro v hv
        rcases hbind with hb | ⟨cn, hcn, hlt⟩
        · rw [hb] at hv; cases hv
        · rw [hcn] at hv; injection hv with hv'; omega
      have hmV : m ∉ V := by
        intro hmem
        obtain ⟨dz, hdz, hcost⟩ := hVex m hmem
        have h1 := hcostm dz hcost
        have h2 := hdm_le dz hdz
        omega
      have hmc : m ≠ current := fun h => hmV (h ▸ hcv)
      have hlookup : ∀ x, x ≠ m →
          alookup ((m, kk + 1) :: cost) x = alookup cost x := by
        intro x hx
        exact alookup_cons_ne _ _ _ _ (fun h => hx h.symm)
      refine ⟨hmV, hmc, ?_, ?_, ?_, ?_, ?_, heappush_sorted hsort⟩
      · intro x v hv
        by_cases hxm : x = m
        · subst hxm
          rw [alookup_cons_self] at hv
          injection hv with hv'
          rw [← hv']
          exact hcd.1.succ hmnb
        · rw [hlookup _ hxm] at hv
          exact hre x v hv
      · intro e he
        rcases heappush_mem.mp he with h1 | h1
        · obtain ⟨v, hv, hvle⟩ := hHC e h1
          by_cases hem : e.2 = m
          · rw [hem] at hv ⊢
            rw [alookup_cons_self]
            exact ⟨kk + 1, rfl, le_trans (le_of_lt (hcostm v hv)) hvle⟩
          · rw [hlookup _ hem]
            exact ⟨v, hv, hvle⟩
        · subst h1
          rw [alookup_cons_self]
          exact ⟨kk + 1, rfl, le_refl _⟩
      · intro x v hv hxV
        by_cases hxm : x = m
        · subst hxm
          rw [alookup_cons_self] at hv
          injection hv with hv'
          rw [← hv']
          exact heappush_mem.mpr (Or.inr rfl)
        · rw [hlookup _ hxm] at hv
          exact heappush_mem.mpr (Or.inl (hpend x v hv hxV))
      · intro z hz
        obtain ⟨dz, hdz, hcost⟩ := hVex z hz
        have hzm : z ≠ m := fun h => hmV (h ▸ hz)
        exact ⟨dz, hdz, by rw [hlookup _ hzm]; exact hcost⟩
      · intro n c h
        by_cases hnm : n = m
        · subst hnm
          rw [alookup_cons_self] at h
          injection h with h'
          subst h'
          rw [alookup_cons_self, hlookup _ hmc.symm]
          exact ⟨kk + 1, kk, rfl, hcurex, by omega⟩
        · rw [alookup_cons_ne _ _ _ _ (fun h' => hnm h'.symm)] at h
          obtain ⟨vn, vc, hvn, hvcc, hlt⟩ := hCF n c h
          rw [hlookup _ hnm]
          by_cases hcm : c = m
          · subst hcm
            rw [alookup_cons_self]
            exact ⟨vn, kk + 1, hvn, rfl, by have := hcostm vc hvcc; omega⟩
          · rw [hlookup _ hcm]
            exact ⟨vn, vc, hvn, hvcc, hlt⟩
    cases hn : alookup cost m with
    | none =>
      obtain ⟨hmV, hmc, u1, u2, u3, u4, u5, u6⟩ := hupd (Or.inl hn)
      obtain ⟨c1, c2, c3, c4, c5, c6, c7, c8⟩ := ih _ _ _ hrest_ns u1 u2 u3 u4 u5 u6 hcv
      simp only [ucsRelax, hn, if_pos]
      refine ⟨c1, c2, c3, c4, c5, c6, ?_, ?_⟩
      · intro n' hn'
        rcases List.mem_cons.mp hn' with hEq | hT
        · subst hEq
          obtain ⟨v', hv', hle'⟩ := c8 n' (kk + 1) (alookup_cons_self _ _ _)
          exact ⟨v', hv', hle'⟩
        · exact c7 n' hT
      · intro x v hv
        have hxm : x ≠ m := by
          intro hEq; rw [hEq, hn] at hv; cases hv
        have : alookup ((m, kk + 1) :: cost) x = some v := by
          rw [alookup_cons_ne _ _ _ _ (fun h => hxm h.symm)]; exact hv
        exact c8 x v this
    | some cn =>
      by_cases hlt : kk + 1 < cn
      · obtain ⟨hmV, hmc, u1, u2, u3, u4, u5, u6⟩ := hupd (Or.inr ⟨cn, hn, hlt⟩)
        obtain ⟨c1, c2, c3, c4, c5, c6, c7, c8⟩ := ih _ _ _ hrest_ns u1 u2 u3 u4 u5 u6 hcv
        simp only [ucsRelax, hn, decide_eq_true_eq, if_pos hlt]
        refine ⟨c1, c2, c3, c4, c5, c6, ?_, ?_⟩
        · intro n' hn'
          rcases List.mem_cons.mp hn' with hEq | hT
          · subst hEq
            obtain ⟨v', hv', hle'⟩ := c8 n' (kk + 1) (alookup_cons_self _ _ _)
            exact ⟨v', hv', hle'⟩
          · exact c7 n' hT
        · intro x v hv
          by_cases hxm : x = m
          · subst hxm
            rw [hn] at hv
            injection hv with hv'
            subst hv'
            obtain ⟨v', hv', hle'⟩ := c8 x (kk + 1) (alookup_cons_self _ _ _)
            exact ⟨v', hv', by omega⟩
          · have : alookup ((m, kk + 1) :: cost) x = some v := by
              rw [alookup_cons_ne _ _ _ _ (fun h => hxm h.symm)]; exact hv
            exact c8 x v this
      · obtain ⟨c1, c2, c3, c4, c5, c6, c7, c8⟩ :=
          ih heap cf cost hrest_ns hre hHC hpend hVex hCF hsort hcv
        simp only [ucsRelax, hn, decide_eq_true_eq, if_neg hlt]
        refine ⟨c1, c2, c3, c4, c5, c6, ?_, c8⟩
        intro n' hn'
        rcases List.mem_cons.mp hn' with hEq | hT
        · subst hEq
          obtain ⟨v', hv', hle'⟩ := c8 n' cn hn
          exact ⟨v', hv', by omega⟩
        · exact c7 n' hT

/-- The optimality run lemma for `ucs`: under the Dijkstra invariants, a
returned path has at most `dist(goal) + 1` cells, and the reported count
is the size of a duplicate-free visited set that contains the goal and
every cell strictly closer to the start than the goal. -/
theorem ucsAux_optimal (pf : PF) (dg : Nat) (hdg : IsDist pf pf.goal dg) :
    ∀ (fuel : Nat) (heap : List (Nat × Cell)) (visited : List Cell)
      (cf : List (Cell × Cell)) (cost : List (Cell × Nat)) (nodes : Nat),
    visited.Nodup →
    nodes = visited.length →
    pf.goal ∉ visited →
    List.Pairwise (fun a b => entryLe a b = true) heap →
    (∀ x v, alookup cost x = some v → ReachN pf v x) →
    (∀ e ∈ heap, ∃ v, alookup cost e.2 = some v ∧ v ≤ e.1) →
    (∀ x v, alookup cost x = some v → x ∉ visited → (v, x) ∈ heap) →
    (∀ z ∈ visited, ∃ dz, IsDist pf z dz ∧ alookup cost z = some dz) →
    (∀ z ∈ visited, ∀ dz, IsDist pf z dz → ∀ nb ∈ get_neighbors pf z,
      ∃ v, alookup cost nb = some v ∧ v ≤ dz + 1) →
    alookup cost pf.start = some 0 →
    (∀ n c, alookup cf n = some c → ∃ vn vc, alookup cost n = some vn ∧
      alookup cost c = some vc ∧ vc < vn) →
    ∀ p n, ucsAux pf fuel heap visited cf cost nodes = some (some p, n) →
    p.length ≤ dg + 1 ∧
    ∃ V : List Cell, n = V.length ∧ V.Nodup ∧ pf.goal ∈ V ∧
      ∀ x dx, IsDist pf x dx → dx < dg → x ∈ V := by
  intro fuel
  induction fuel with
  | zero =>
    intro heap visited cf cost nodes _ _ _ _ _ _ _ _ _ _ _ p n h
    simp [ucsAux] at h
  | succ k ih =>
    intro heap visited cf cost nodes hndv hnodes hgv hsort hre hHC hpend hVex
      hnbr hstart0 hcfc p n h
    cases heap with
    | nil =>
      simp [ucsAux, heappop] at h
    | cons e rest =>
      obtain ⟨kk, current⟩ := e
      by_cases hcv : current ∈ visited
      · simp only [ucsAux, heappop, if_pos hcv] at h
        refine ih rest visited cf cost nodes hndv hnodes hgv
          (List.pairwise_cons.mp hsort).2 hre
          (fun e he => hHC e (List.mem_cons_of_mem _ he)) ?_ hVex hnbr hstart0
          hcfc p n h
        intro x v hv hxV
        rcases List.mem_cons.mp (hpend x v hv hxV) with hEq | hT
        · injection hEq with _ hEq2
          exact absurd (hEq2 ▸ hcv) hxV
        · exact hT
      · -- the popped key equals the exact distance of the popped cell
        obtain ⟨vc, hvc, hvckk⟩ := hHC (kk, current) (List.mem_cons_self _ _)
        have hreach_cur : ReachN pf vc current := hre _ _ hvc
        obtain ⟨dc, hdc⟩ := reachable_isDist ⟨vc, hreach_cur⟩
        have hdcvc : dc ≤ vc := hdc.2 _ hreach_cur
        have hkkdc : kk ≤ dc := by
          obtain ⟨y, vy, hy, hyV, hyheap, hvyle⟩ :=
            ucs_frontier hstart0 hpend hVex hnbr hdc.1 hcv
          rcases List.mem_cons.mp hyheap with hEq | hT
          · injection hEq with hEq1 _
            omega
          · have := entryLe_key_le (sorted_head_min hsort (vy, y) hT)
            omega
        have hdck : dc = kk := by omega
        have hvck : vc = kk := by omega
        rw [hdck] at hdc
        rw [hvck] at hvc
        -- every cell strictly nearer than the popped key is finalized
        have hcloser : ∀ x dx, IsDist pf x dx → dx < kk → x ∈ visited := by
          intro x dx hdx hlt
          by_contra hxV
          obtain ⟨y, vy, hy, hyV, hyheap, hvyle⟩ :=
            ucs_frontier hstart0 hpend hVex hnbr hdx.1 hxV
          rcases List.mem_cons.mp hyheap with hEq | hT
          · injection hEq with hEq1 _
            omega
          · have := entryLe_key_le (sorted_head_min hsort (vy, y) hT)
            omega
        by_cases hgoal : current = pf.goal
        · have hkkdg : kk = dg := isDist_unique (hgoal ▸ hdc) hdg
          cases hbp : build_path cf (bpFuel pf) current [] with
          | none =>
            simp [ucsAux, heappop, if_neg hcv, if_pos hgoal, hbp] at h
          | some p0 =>
            simp only [ucsAux, heappop, if_neg hcv, if_pos hgoal, hbp] at h
            injection h with h'
            injection h' with h1 h2
            injection h1 with h1'
            subst h1'
            subst h2
            constructor
            · -- predecessor-chain counting bounds the path length
              obtain ⟨q, hpq, hqne, hqlast, ⟨h0, hh0, _⟩, hqchain, _⟩ :=
                build_path_spec cf (bpFuel pf) current [] p0 hbp
              rw [List.append_nil] at hpq
              subst hpq
              set μ : Cell → Nat := fun x => (alookup cost x).getD 0 with hμdef
              have hchainμ : List.Chain' (fun a b => μ a + 1 ≤ μ b) p0 := by
                refine hqchain.imp ?_
                intro a b hab
                obtain ⟨vn, vc', hvn, hvc', hlt⟩ := hcfc b a hab
                simp only [hμdef, hvn, hvc', Option.getD_some]
                omega
              have hμcur : μ current = kk := by
                simp only [hμdef, hvc, Option.getD_some]
              have := chain_mu_ge μ p0 hchainμ h0 hh0 current hqlast
              omega
            · refine ⟨current :: visited, by simp [hnodes],
                List.nodup_cons.mpr ⟨hcv, hndv⟩, hgoal ▸ List.mem_cons_self _ _, ?_⟩
              intro x dx hdx hlt
              exact List.mem_cons_of_mem _ (hcloser x dx hdx (by omega))
        · -- expand: the popped cell is finalized at its exact distance
          obtain ⟨c1, c2, c3, c4, c5, c6, c7, c8⟩ :=
            ucsRelax_optimal pf current kk (current :: visited) hdc
              (get_neighbors pf current) rest cf cost (fun n hn => hn) hre
              (fun e he => hHC e (List.mem_cons_of_mem _ he))
              (fun x v hv hxV => by
                rcases List.mem_cons.mp (hpend x v hv
                    (fun hx => hxV (List.mem_cons_of_mem _ hx))) with hEq | hT
                · injection hEq with _ hEq2
                  exact absurd (hEq2 ▸ List.mem_cons_self current visited) hxV
                · exact hT)
              (fun z hz => by
                rcases List.mem_cons.mp hz with hEq | hT
                · exact hEq ▸ ⟨kk, hdc, hvc⟩
                · exact hVex z hT)
              hcfc (List.pairwise_cons.mp hsort).2 (List.mem_cons_self _ _)
          rcases hsplit : ucsRelax current kk (get_neighbors pf current) rest cf cost
            with ⟨heap', cf', cost'⟩
          have hs1 : heap' =
              (ucsRelax current kk (get_neighbors pf current) rest cf cost).1 := by
            rw [hsplit]
          have hc1 : cf' =
              (ucsRelax current kk (get_neighbors pf current) rest cf cost).2.1 := by
            rw [hsplit]
          have ho1 : cost' =
              (ucsRelax current kk (get_neighbors pf current) rest cf cost).2.2 := by
            rw [hsplit]
          simp only [ucsAux, heappop, if_neg hcv, if_neg hgoal, hsplit] at h
          refine ih heap' (current :: visited) cf' cost' (nodes + 1)
            (List.nodup_cons.mpr ⟨hcv, hndv⟩) (by simp [hnodes])
            (fun hx => by
              rcases List.mem_cons.mp hx with hEq | hT
              · exact hgoal hEq.symm
              · exact hgv hT)
            (hs1 ▸ c6) (fun x v hv => c1 x v (ho1 ▸ hv))
            (fun e he => by
              obtain ⟨v, hv, hvle⟩ := c2 e (hs1 ▸ he)
              exact ⟨v, ho1 ▸ hv, hvle⟩)
            (fun x v hv hxV => hs1 ▸ c3 x v (ho1 ▸ hv) hxV)
            (fun z hz => by
              obtain ⟨dz, hdz, hcz⟩ := c4 z hz
              exact ⟨dz, hdz, ho1 ▸ hcz⟩)
            ?_ ?_
            (fun n' c' h' => by
              obtain ⟨vn, vc', hvn, hvc', hlt⟩ := c5 n' c' (hc1 ▸ h')
              exact ⟨vn, vc', ho1 ▸ hvn, ho1 ▸ hvc', hlt⟩)
            p n h
          · intro z hz dz hdz nb hnb
            rcases List.mem_cons.mp hz with hEq | hT
            · rw [hEq] at hdz hnb
              have hdzk : dz = kk := isDist_unique hdz hdc
              obtain ⟨v, hv, hvle⟩ := c7 nb hnb
              exact ⟨v, ho1 ▸ hv, by omega⟩
            · obtain ⟨v, hv, hvle⟩ := hnbr z hT dz hdz nb hnb
              obtain ⟨v', hv', hle'⟩ := c8 nb v hv
              exact ⟨v', ho1 ▸ hv', by omega⟩
          · obtain ⟨v', hv', hle'⟩ := c8 pf.start 0 hstart0
            have : v' = 0 := by omega
            rw [← this]
            exact ho1 ▸ hv'

/-! ### A* optimality -/

/-- Zero-move reachability pins the cell to the start. -/
theorem reachN_zero {pf : PF} {x : Cell} (h : ReachN pf 0 x) : x = pf.start := by
  cases h
  rfl

/-- Frontier lemma for `a_star`: for every cell reachable in `n` moves
and not yet finalized, the heap holds an entry for an unfinalized
recorded cell whose key is at most `n` plus the heuristic at the target
cell (consistency of the Manhattan heuristic). -/
theorem astar_frontier {pf : PF} {heap : List (Nat × Cell)} {visited : List Cell}
    {gs : List (Cell × Nat)}
    (hstart0 : alookup gs pf.start = some 0)
    (hpend : ∀ x v, alookup gs x = some v → x ∉ visited →
      ∃ ky, (ky, x) ∈ heap ∧ ky ≤ v + manhattan_dist x pf.goal)
    (hvisited : ∀ z ∈ visited, ∃ dz, IsDist pf z dz ∧ alookup gs z = some dz)
    (hnbr : ∀ z ∈ visited, ∀ dz, IsDist pf z dz → ∀ nb ∈ get_neighbors pf z,
      ∃ v, alookup gs nb = some v ∧ v ≤ dz + 1) :
    ∀ {n : Nat} {x : Cell}, ReachN pf n x → x ∉ visited →
    ∃ y vy ky, alookup gs y = some vy ∧ y ∉ visited ∧ (ky, y) ∈ heap ∧
      ky ≤ n + manhattan_dist x pf.goal := by
  intro n x h
  induction h with
  | zero =>
    intro hx
    obtain ⟨ky, hky1, hky2⟩ := hpend _ _ hstart0 hx
    exact ⟨pf.start, 0, ky, hstart0, hx, hky1, hky2⟩
  | @succ n c m hr hnb ih =>
    intro hm
    have hcons := (manhattan_consistent hnb pf.goal).2
    by_cases hc : c ∈ visited
    · obtain ⟨dz, hdz, hcost⟩ := hvisited c hc
      obtain ⟨v, hv, hvle⟩ := hnbr c hc dz hdz m hnb
      have hdzn : dz ≤ n := hdz.2 n hr
      obtain ⟨ky, hky1, hky2⟩ := hpend _ _ hv hm
      exact ⟨m, v, ky, hv, hm, hky1, by omega⟩
    · obtain ⟨y, vy, ky, h1, h2, h3, h4⟩ := ih hc
      exact ⟨y, vy, ky, h1, h2, h3, by omega⟩

/-- Invariant preservation through the `a_star` neighbour loop when the
expanded cell has just been finalized with an exact `g`-score `gc`. -/
theorem aStarRelax_optimal (pf : PF) (current : Cell) (gc : Nat) (V : List Cell)
    (hcd : IsDist pf current gc) :
    ∀ (ns : List Cell) (heap : List (Nat × Cell)) (cf : List (Cell × Cell))
      (gs : List (Cell × Nat)),
    (∀ n ∈ ns, n ∈ get_neighbors pf current) →
    (∀ x v, alookup gs x = some v → ReachN pf v x) →
    (∀ e ∈ heap, e.2 = pf.start ∨ ∃ gx, alookup gs e.2 = some gx ∧
      gx + manhattan_dist e.2 pf.goal ≤ e.1) →
    (∀ x v, alookup gs x = some v → x ∉ V →
      ∃ ky, (ky, x) ∈ heap ∧ ky ≤ v + manhattan_dist x pf.goal) →
    (∀ z ∈ V, ∃ dz, IsDist pf z dz ∧ alookup gs z = some dz) →
    (∀ n c, alookup cf n = some c → ∃ vn vc, alookup gs n = some vn ∧
      alookup gs c = some vc ∧ vc < vn) →
    List.Pairwise (fun a b => entryLe a b = true) heap →
    current ∈ V →
    (∀ x v, alookup (aStarRelax pf current gc ns heap cf gs).2.2 x = some v →
      ReachN pf v x) ∧
    (∀ e ∈ (aStarRelax pf current gc ns heap cf gs).1, e.2 = pf.start ∨
      ∃ gx, alookup (aStarRelax pf current gc ns heap cf gs).2.2 e.2 = some gx ∧
        gx + manhattan_dist e.2 pf.goal ≤ e.1) ∧
    (∀ x v, alookup (aStarRelax pf current gc ns heap cf gs).2.2 x = some v →
      x ∉ V → ∃ ky, (ky, x) ∈ (aStarRelax pf current gc ns heap cf gs).1 ∧
        ky ≤ v + manhattan_dist x pf.goal) ∧
    (∀ z ∈ V, ∃ dz, IsDist pf z dz ∧
      alookup (aStarRelax pf current gc ns heap cf gs).2.2 z = some dz) ∧
    (∀ n c, alookup (aStarRelax pf current gc ns heap cf gs).2.1 n = some c →
      ∃ vn vc, alookup (aStarRelax pf current gc ns heap cf gs).2.2 n = some vn ∧
        alookup (aStarRelax pf current gc ns heap cf gs).2.2 c = some vc ∧ vc < vn) ∧
    List.Pairwise (fun a b => entryLe a b = true)
      (aStarRelax pf current gc ns heap cf gs).1 ∧
    (∀ n ∈ ns, ∃ v, alookup (aStarRelax pf current gc ns heap cf gs).2.2 n = some v ∧
      v ≤ gc + 1) ∧
    (∀ x v, alookup gs x = some v →
      ∃ v', alookup (aStarRelax pf current gc ns heap cf gs).2.2 x = some v' ∧
        v' ≤ v) := by
  intro ns
  induction ns with
  | nil =>
    intro heap cf gs _ hre hHC hpend hVex hCF hsort hcv
    refine ⟨hre, hHC, hpend, hVex, hCF, hsort, ?_, ?_⟩
    · intro n hn; cases hn
    · intro x v hv; exact ⟨v, hv, le_refl v⟩
  | cons m rest ih =>
    intro heap cf gs hns hre hHC hpend hVex hCF hsort hcv
    have hmnb : m ∈ get_neighbors pf current := hns m (List.mem_cons_self m rest)
    have hdm_le : ∀ dm, IsDist pf m dm → dm ≤ gc + 1 := by
      intro dm hdm
      exact hdm.2 (gc + 1) (hcd.1.succ hmnb)
    have hcurex : alookup gs current = some gc := by
      obtain ⟨dz, hdz, hcost⟩ := hVex current hcv
      rw [isDist_unique hdz hcd] at hcost
      exact hcost
    have hrest_ns : ∀ n ∈ rest, n ∈ get_neighbors pf current :=
      fun n hn => hns n (List.mem_cons_of_mem m hn)
    -- the updated-state hypotheses for the `better` branches
    have hupd : ∀ (hbind : alookup gs m = none ∨
        ∃ cn, alookup gs m = some cn ∧ gc + 1 < cn),
        m ∉ V ∧ m ≠ current ∧
        (∀ x v, alookup ((m, gc + 1) :: gs) x = some v → ReachN pf v x) ∧
        (∀ e ∈ heappush heap (gc + 1 + manhattan_dist m pf.goal, m),
          e.2 = pf.start ∨ ∃ gx, alookup ((m, gc + 1) :: gs) e.2 = some gx ∧
            gx + manhattan_dist e.2 pf.goal ≤ e.1) ∧
        (∀ x v, alookup ((m, gc + 1) :: gs) x = some v → x ∉ V →
          ∃ ky, (ky, x) ∈ heappush heap (gc + 1 + manhattan_dist m pf.goal, m) ∧
            ky ≤ v + manhattan_dist x pf.goal) ∧
        (∀ z ∈ V, ∃ dz, IsDist pf z dz ∧
          alookup ((m, gc + 1) :: gs) z = some dz) ∧
        (∀ n c, alookup ((m, current) :: cf) n = some c →
          ∃ vn vc, alookup ((m, gc + 1) :: gs) n = some vn ∧
            alookup ((m, gc + 1) :: gs) c = some vc ∧ vc < vn) ∧
        List.Pairwise (fun a b => entryLe a b = true)
          (heappush heap (gc + 1 + manhattan_dist m pf.goal, m)) := by
      intro hbind
      have hcostm : ∀ v, alookup gs m = some v → gc + 1 < v := by
        intro v hv
        rcases hbind with hb | ⟨cn, hcn, hlt⟩
        · rw [hb] at hv; cases hv
        · rw [hcn] at hv; injection hv with hv'; omega
      have hmV : m ∉ V := by
        intro hmem
        obtain ⟨dz, hdz, hcost⟩ := hVex m hmem
        have h1 := hcostm dz hcost
        have h2 := hdm_le dz hdz
        omega
      have hmc : m ≠ current := fun h => hmV (h ▸ hcv)
      have hlookup : ∀ x, x ≠ m →
          alookup ((m, gc + 1) :: gs) x = alookup gs x := by
        intro x hx
        exact alookup_cons_ne _ _ _ _ (fun h => hx h.symm)
      refine ⟨hmV, hmc, ?_, ?_, ?_, ?_, ?_, heappush_sorted hsort⟩
      · intro x v hv
        by_cases hxm : x = m
        · subst hxm
          rw [alookup_cons_self] at hv
          injection hv with hv'
          rw [← hv']
          exact hcd.1.succ hmnb
        · rw [hlookup _ hxm] at hv
          exact hre x v hv
      · intro e he
        rcases heappush_mem.mp he with h1 | h1
        · rcases hHC e h1 with hS | ⟨gx, hgx, hgxle⟩
          · exact Or.inl hS
          · by_cases hem : e.2 = m
            · rw [hem] at hgx hgxle ⊢
              refine Or.inr ⟨gc + 1, alookup_cons_self _ _ _, ?_⟩
              have := hcostm gx hgx
              omega
            · rw [← hlookup _ hem] at hgx
              exact Or.inr ⟨gx, hgx, hgxle⟩
        · subst h1
          refine Or.inr ⟨gc + 1, ?_, le_refl _⟩
          rw [alookup_cons_self]
      · intro x v hv hxV
        by_cases hxm : x = m
        · subst hxm
          rw [alookup_cons_self] at hv
          injection hv with hv'
          rw [← hv']
          exact ⟨gc + 1 + manhattan_dist x pf.goal,
            heappush_mem.mpr (Or.inr rfl), le_refl _⟩
        · rw [hlookup _ hxm] at hv
          obtain ⟨ky, hky1, hky2⟩ := hpend x v hv hxV
          exact ⟨ky, heappush_mem.mpr (Or.inl hky1), hky2⟩
      · intro z hz
        obtain ⟨dz, hdz, hcost⟩ := hVex z hz
        have hzm : z ≠ m := fun h => hmV (h ▸ hz)
        exact ⟨dz, hdz, by rw [hlookup _ hzm]; exact hcost⟩
      · intro n c h
        by_cases hnm : n = m
        · subst hnm
          rw [alookup_cons_self] at h
          injection h with h'
          subst h'
          rw [alookup_cons_self, hlookup _ hmc.symm]
          exact ⟨gc + 1, gc, rfl, hcurex, by omega⟩
        · rw [alookup_cons_ne _ _ _ _ (fun h' => hnm h'.symm)] at h
          obtain ⟨vn, vc, hvn, hvcc, hlt⟩ := hCF n c h
          rw [hlookup _ hnm]
          by_cases hcm : c = m
          · subst hcm
            rw [alookup_cons_self]
            exact ⟨vn, gc + 1, hvn, rfl, by have := hcostm vc hvcc; omega⟩
          · rw [hlookup _ hcm]
            exact ⟨vn, vc, hvn, hvcc, hlt⟩
    cases hn : alookup gs m with
    | none =>
      obtain ⟨hmV, hmc, u1, u2, u3, u4, u5, u6⟩ := hupd (Or.inl hn)
      obtain ⟨c1, c2, c3, c4, c5, c6, c7, c8⟩ := ih _ _ _ hrest_ns u1 u2 u3 u4 u5 u6 hcv
      simp only [aStarRelax, hn, if_pos]
      refine ⟨c1, c2, c3, c4, c5, c6, ?_, ?_⟩
      · intro n' hn'
        rcases List.mem_cons.mp hn' with hEq | hT
        · subst hEq
          obtain ⟨v', hv', hle'⟩ := c8 n' (gc + 1) (alookup_cons_self _ _ _)
          exact ⟨v', hv', hle'⟩
        · exact c7 n' hT
      · intro x v hv
        have hxm : x ≠ m := by
          intro hEq; rw [hEq, hn] at hv; cases hv
        have : alookup ((m, gc + 1) :: gs) x = some v := by
          rw [alookup_cons_ne _ _ _ _ (fun h => hxm h.symm)]; exact hv
        exact c8 x v this
    | some cn =>
      by_cases hlt : gc + 1 < cn
      · obtain ⟨hmV, hmc, u1, u2, u3, u4, u5, u6⟩ := hupd (Or.inr ⟨cn, hn, hlt⟩)
        obtain ⟨c1, c2, c3, c4, c5, c6, c7, c8⟩ := ih _ _ _ hrest_ns u1 u2 u3 u4 u5 u6 hcv
        simp only [aStarRelax, hn, decide_eq_true_eq, if_pos hlt]
        refine ⟨c1, c2, c3, c4, c5, c6, ?_, ?_⟩
        · intro n' hn'
          rcases List.mem_cons.mp hn' with hEq | hT
          · subst hEq
            obtain ⟨v', hv', hle'⟩ := c8 n' (gc + 1) (alookup_cons_self _ _ _)
            exact ⟨v', hv', hle'⟩
          · exact c7 n' hT
        · intro x v hv
          by_cases hxm : x = m
          · subst hxm
            rw [hn] at hv
            injection hv with hv'
            subst hv'
            obtain ⟨v', hv', hle'⟩ := c8 x (gc + 1) (alookup_cons_self _ _ _)
            exact ⟨v', hv', by omega⟩
          · have : alookup ((m, gc + 1) :: gs) x = some v := by
              rw [alookup_cons_ne _ _ _ _ (fun h => hxm h.symm)]; exact hv
            exact c8 x v this
      · obtain ⟨c1, c2, c3, c4, c5, c6, c7, c8⟩ :=
          ih heap cf gs hrest_ns hre hHC hpend hVex hCF hsort hcv
        simp only [aStarRelax, hn, decide_eq_true_eq, if_neg hlt]
        refine ⟨c1, c2, c3, c4, c5, c6, ?_, c8⟩
        intro n' hn'
        rcases List.mem_cons.mp hn' with hEq | hT
        · subst hEq
          obtain ⟨v', hv', hle'⟩ := c8 n' cn hn
          exact ⟨v', hv', by omega⟩
        · exact c7 n' hT

/-- The optimality run lemma for `a_star`: under the invariants, a
returned path has at most `dist(goal) + 1` cells, and the reported count
is the size of a duplicate-free visited set each of whose cells is the
goal or lies strictly closer to the start than the goal. -/
theorem aStarAux_optimal (pf : PF) (dg : Nat) (hdg : IsDist pf pf.goal dg) :
    ∀ (fuel : Nat) (heap : List (Nat × Cell)) (visited : List Cell)
      (cf : List (Cell × Cell)) (gs : List (Cell × Nat)) (nodes : Nat),
    visited.Nodup →
    nodes = visited.length →
    pf.goal ∉ visited →
    List.Pairwise (fun a b => entryLe a b = true) heap →
    (∀ x v, alookup gs x = some v → ReachN pf v x) →
    (∀ e ∈ heap, e.2 = pf.start ∨ ∃ gx, alookup gs e.2 = some gx ∧
      gx + manhattan_dist e.2 pf.goal ≤ e.1) →
    (∀ x v, alookup gs x = some v → x ∉ visited →
      ∃ ky, (ky, x) ∈ heap ∧ ky ≤ v + manhattan_dist x pf.goal) →
    (∀ z ∈ visited, ∃ dz, IsDist pf z dz ∧ alookup gs z = some dz) →
    (∀ z ∈ visited, ∃ dz, IsDist pf z dz ∧ dz < dg) →
    (∀ z ∈ visited, ∀ dz, IsDist pf z dz → ∀ nb ∈ get_neighbors pf z,
      ∃ v, alookup gs nb = some v ∧ v ≤ dz + 1) →
    alookup gs pf.start = some 0 →
    (∀ n c, alookup cf n = some c → ∃ vn vc, alookup gs n = some vn ∧
      alookup gs c = some vc ∧ vc < vn) →
    ∀ p n, aStarAux pf fuel heap visited cf gs nodes = some (some p, n) →
    p.length ≤ dg + 1 ∧
    ∃ V : List Cell, n = V.length ∧ V.Nodup ∧ pf.goal ∈ V ∧
      ∀ x ∈ V, x = pf.goal ∨ ∃ dx, IsDist pf x dx ∧ dx < dg := by
  intro fuel
  induction fuel with
  | zero =>
    intro heap visited cf gs nodes _ _ _ _ _ _ _ _ _ _ _ _ p n h
    simp [aStarAux] at h
  | succ k ih =>
    intro heap visited cf gs nodes hndv hnodes hgv hsort hre hHC hpend hVex
      hVlt hnbr hstart0 hcfc p n h
    cases heap with
    | nil =>
      simp [aStarAux, heappop] at h
    | cons e rest =>
      obtain ⟨kk, current⟩ := e
      by_cases hcv : current ∈ visited
      · simp only [aStarAux, heappop, if_pos hcv] at h
        refine ih rest visited cf gs nodes hndv hnodes hgv
          (List.pairwise_cons.mp hsort).2 hre
          (fun e he => hHC e (List.mem_cons_of_mem _ he)) ?_ hVex hVlt hnbr
          hstart0 hcfc p n h
        intro x v hv hxV
        obtain ⟨ky, hky1, hky2⟩ := hpend x v hv hxV
        rcases List.mem_cons.mp hky1 with hEq | hT
        · injection hEq with _ hEq2
          exact absurd (hEq2 ▸ hcv) hxV
        · exact ⟨ky, hT, hky2⟩
      · -- upper bound on the popped key via the frontier lemma
        have hub : ∀ (dx : Nat) (x : Cell), ReachN pf dx x → x ∉ visited →
            kk ≤ dx + manhattan_dist x pf.goal := by
          intro dx x hrx hxV
          obtain ⟨y, vy, ky, hy, hyV, hymem, hyle⟩ :=
            astar_frontier hstart0 hpend hVex hnbr hrx hxV
          rcases List.mem_cons.mp hymem with hEq | hT
          · injection hEq with hEq1 _
            omega
          · have := entryLe_key_le (sorted_head_min hsort (ky, y) hT)
            omega
        have hgoal_ub : kk ≤ dg := by
          have := hub dg pf.goal hdg.1 hgv
          rw [manhattan_self] at this
          omega
        -- the popped cell's g-score is its exact distance
        have hpop : ∃ dc, IsDist pf current dc ∧ alookup gs current = some dc ∧
            (current ≠ pf.goal → dc < dg) := by
          rcases hHC (kk, current) (List.mem_cons_self _ _) with hS | ⟨gx, hgx, hgxle⟩
          · have hS' : current = pf.start := hS
            refine ⟨0, ?_, ?_, ?_⟩
            · rw [hS']; exact isDist_start
            · rw [hS']; exact hstart0
            · intro hne
              rcases Nat.eq_zero_or_pos dg with h0 | h0
              · exfalso
                have := hdg.1
                rw [h0] at this
                exact hne (by rw [hS', ← reachN_zero this])
              · omega
          · have hgx' : alookup gs current = some gx := hgx
            have hgxle' : gx + manhattan_dist current pf.goal ≤ kk := hgxle
            have hrg : ReachN pf gx current := hre _ _ hgx'
            obtain ⟨dc, hdc⟩ := reachable_isDist ⟨gx, hrg⟩
            have h1 : dc ≤ gx := hdc.2 _ hrg
            have h2 := hub dc current hdc.1 hcv
            have hgxdc : gx = dc := by omega
            refine ⟨dc, hdc, by rw [← hgxdc]; exact hgx', ?_⟩
            intro hne
            have h3 : 1 ≤ manhattan_dist current pf.goal := manhattan_pos hne
            omega
        obtain ⟨dc, hdc, hcurex, hdclt⟩ := hpop
        by_cases hgoal : current = pf.goal
        · have hdcdg : dc = dg := isDist_unique (hgoal ▸ hdc) hdg
          cases hbp : build_path cf (bpFuel pf) current [] with
          | none =>
            simp [aStarAux, heappop, if_neg hcv, if_pos hgoal, hbp] at h
          | some p0 =>
            simp only [aStarAux, heappop, if_neg hcv, if_pos hgoal, hbp] at h
            injection h with h'
            injection h' with h1 h2
            injection h1 with h1'
            subst h1'
            subst h2
            constructor
            · obtain ⟨q, hpq, hqne, hqlast, ⟨h0, hh0, _⟩, hqchain, _⟩ :=
                build_path_spec cf (bpFuel pf) current [] p0 hbp
              rw [List.append_nil] at hpq
              subst hpq
              set μ : Cell → Nat := fun x => (alookup gs x).getD 0 with hμdef
              have hchainμ : List.Chain' (fun a b => μ a + 1 ≤ μ b) p0 := by
                refine hqchain.imp ?_
                intro a b hab
                obtain ⟨vn, vc', hvn, hvc', hlt⟩ := hcfc b a hab
                simp only [hμdef, hvn, hvc', Option.getD_some]
                omega
              have hμcur : μ current = dc := by
                simp only [hμdef, hcurex, Option.getD_some]
              have := chain_mu_ge μ p0 hchainμ h0 hh0 current hqlast
              omega
            · refine ⟨current :: visited, by simp [hnodes],
                List.nodup_cons.mpr ⟨hcv, hndv⟩, hgoal ▸ List.mem_cons_self _ _, ?_⟩
              intro x hx
              rcases List.mem_cons.mp hx with hEq | hT
              · exact Or.inl (hEq ▸ hgoal)
              · exact Or.inr (hVlt x hT)
        · obtain ⟨c1, c2, c3, c4, c5, c6, c7, c8⟩ :=
            aStarRelax_optimal pf current dc (current :: visited) hdc
              (get_neighbors pf current) rest cf gs (fun n hn => hn) hre
              (fun e he => hHC e (List.mem_cons_of_mem _ he))
              (fun x v hv hxV => by
                obtain ⟨ky, hky1, hky2⟩ := hpend x v hv
                  (fun hx => hxV (List.mem_cons_of_mem _ hx))
                rcases List.mem_cons.mp hky1 with hEq | hT
                · injection hEq with _ hEq2
                  exact absurd (hEq2 ▸ List.mem_cons_self current visited) hxV
                · exact ⟨ky, hT, hky2⟩)
              (fun z hz => by
                rcases List.mem_cons.mp hz with hEq | hT
                · exact hEq ▸ ⟨dc, hdc, hcurex⟩
                · exact hVex z hT)
              hcfc (List.pairwise_cons.mp hsort).2 (List.mem_cons_self _ _)
          rcases hsplit : aStarRelax pf current dc (get_neighbors pf current) rest cf gs
            with ⟨heap', cf', gs'⟩
          have hs1 : heap' =
              (aStarRelax pf current dc (get_neighbors pf current) rest cf gs).1 := by
            rw [hsplit]
          have hc1 : cf' =
              (aStarRelax pf current dc (get_neighbors pf current) rest cf gs).2.1 := by
            rw [hsplit]
          have ho1 : gs' =
              (aStarRelax pf current dc (get_neighbors pf current) rest cf gs).2.2 := by
            rw [hsplit]
          simp only [aStarAux, heappop, if_neg hcv, if_neg hgoal, hcurex, hsplit] at h
          refine ih heap' (current :: visited) cf' gs' (nodes + 1)
            (List.nodup_cons.mpr ⟨hcv, hndv⟩) (by simp [hnodes])
            (fun hx => by
              rcases List.mem_cons.mp hx with hEq | hT
              · exact hgoal hEq.symm
              · exact hgv hT)
            (hs1 ▸ c6) (fun x v hv => c1 x v (ho1 ▸ hv))
            (fun e he => by
              rcases c2 e (hs1 ▸ he) with hS | ⟨gx, hgx, hgxle⟩
              · exact Or.inl hS
              · exact Or.inr ⟨gx, ho1 ▸ hgx, hgxle⟩)
            (fun x v hv hxV => by
              obtain ⟨ky, hky1, hky2⟩ := c3 x v (ho1 ▸ hv) hxV
              exact ⟨ky, hs1 ▸ hky1, hky2⟩)
            (fun z hz => by
              obtain ⟨dz, hdz, hcz⟩ := c4 z hz
              exact ⟨dz, hdz, ho1 ▸ hcz⟩)
            (fun z hz => by
              rcases List.mem_cons.mp hz with hEq | hT
              · exact hEq ▸ ⟨dc, hdc, hdclt hgoal⟩
              · exact hVlt z hT)
            ?_ ?_
            (fun n' c' h' => by
              obtain ⟨vn, vc', hvn, hvc', hlt⟩ := c5 n' c' (hc1 ▸ h')
              exact ⟨vn, vc', ho1 ▸ hvn, ho1 ▸ hvc', hlt⟩)
            p n h
          · intro z hz dz hdz nb hnb
            rcases List.mem_cons.mp hz with hEq | hT
            · rw [hEq] at hdz hnb
              have hdzk : dz = dc := isDist_unique hdz hdc
              obtain ⟨v, hv, hvle⟩ := c7 nb hnb
              exact ⟨v, ho1 ▸ hv, by omega⟩
            · obtain ⟨v, hv, hvle⟩ := hnbr z hT dz hdz nb hnb
              obtain ⟨v', hv', hle'⟩ := c8 nb v hv
              exact ⟨v', ho1 ▸ hv', by omega⟩
          · obtain ⟨v', hv', hle'⟩ := c8 pf.start 0 hstart0
            have : v' = 0 := by omega
            rw [← this]
            exact ho1 ▸ hv'

/-! ### BFS optimality -/

/-- A distance labelling exists (classically): a function agreeing with
the exact shortest-path distance on every reachable cell. -/
theorem exists_dist_fun (pf : PF) :
    ∃ μ : Cell → Nat, ∀ x dx, IsDist pf x dx → μ x = dx := by
  classical
  refine ⟨fun x => if h : ∃ n, ReachN pf n x then Nat.find h else 0, ?_⟩
  intro x dx hdx
  have hr : ∃ n, ReachN pf n x := ⟨dx, hdx.1⟩
  simp only [dif_pos hr]
  exact Nat.le_antisymm (Nat.find_le hdx.1) (hdx.2 _ (Nat.find_spec hr))

/-- Characterization of the `bfs` neighbour loop for the level
invariant: when every unvisited processed neighbour lies at distance
`D + 1`, the loop appends exactly the newly visited cells (all at
distance `D + 1`) to the queue and records their predecessors. -/
theorem bfsPush_opt (pf : PF) (current : Cell) (D : Nat) :
    ∀ (ns visited : List Cell) (cf : List (Cell × Cell)) (queue : List Cell),
    (∀ n ∈ ns, n ∉ visited → IsDist pf n (D + 1)) →
    (∀ x ∈ visited, x ∈ (bfsPush current ns visited cf queue).1) ∧
    (∀ n ∈ ns, n ∈ (bfsPush current ns visited cf queue).1) ∧
    (∀ x ∈ (bfsPush current ns visited cf queue).1,
      x ∈ visited ∨ IsDist pf x (D + 1)) ∧
    (∃ add : List Cell, (bfsPush current ns visited cf queue).2.2 = queue ++ add ∧
      (∀ x ∈ add, IsDist pf x (D + 1) ∧ x ∈ (bfsPush current ns visited cf queue).1) ∧
      (∀ x ∈ (bfsPush current ns visited cf queue).1, x ∉ visited → x ∈ add)) ∧
    (∀ n c, alookup (bfsPush current ns visited cf queue).2.1 n = some c →
      alookup cf n = some c ∨ (c = current ∧ IsDist pf n (D + 1))) := by
  intro ns
  induction ns with
  | nil =>
    intro visited cf queue _
    refine ⟨fun x hx => hx, fun n hn => absurd hn (List.not_mem_nil n),
      fun x hx => Or.inl hx,
      ⟨[], by simp [bfsPush], by simp, fun x hx hxv => absurd hx hxv⟩,
      fun n c hc => Or.inl hc⟩
  | cons m rest ih =>
    intro visited cf queue hns
    by_cases hm : m ∈ visited
    · simp only [bfsPush, if_pos hm]
      obtain ⟨c1, c2, c3, ⟨add, ha1, ha2, ha3⟩, c5⟩ :=
        ih visited cf queue (fun n hn => hns n (List.mem_cons_of_mem _ hn))
      refine ⟨c1, ?_, c3, ⟨add, ha1, ha2, ha3⟩, c5⟩
      intro n hn
      rcases List.mem_cons.mp hn with hEq | hT
      · exact hEq ▸ c1 m hm
      · exact c2 n hT
    · have hdm : IsDist pf m (D + 1) := hns m (List.mem_cons_self _ _) hm
      simp only [bfsPush, if_neg hm]
      obtain ⟨c1, c2, c3, ⟨add, ha1, ha2, ha3⟩, c5⟩ :=
        ih (m :: visited) ((m, current) :: cf) (queue ++ [m])
          (fun n hn hnv => hns n (List.mem_cons_of_mem _ hn)
            (fun hnvv => hnv (List.mem_cons_of_mem _ hnvv)))
      refine ⟨?_, ?_, ?_, ?_, ?_⟩
      · intro x hx
        exact c1 x (List.mem_cons_of_mem _ hx)
      · intro n hn
        rcases List.mem_cons.mp hn with hEq | hT
        · exact hEq ▸ c1 m (List.mem_cons_self _ _)
        · exact c2 n hT
      · intro x hx
        rcases c3 x hx with h1 | h1
        · rcases List.mem_cons.mp h1 with hEq | hT
          · exact Or.inr (hEq ▸ hdm)
          · exact Or.inl hT
        · exact Or.inr h1
      · refine ⟨m :: add, by rw [ha1]; simp, ?_, ?_⟩
        · intro x hx
          rcases List.mem_cons.mp hx with hEq | hT
          · rw [hEq]
            exact ⟨hdm, c1 m (List.mem_cons_self _ _)⟩
          · exact ha2 x hT
        · intro x hx hxv
          by_cases hxm : x = m
          · exact hxm ▸ List.mem_cons_self _ _
          · refine List.mem_cons_of_mem _ (ha3 x hx ?_)
            intro hx2
            rcases List.mem_cons.mp hx2 with hh | hh
            · exact hxm hh
            · exact hxv hh
      · intro n c hc
        rcases c5 n c hc with h1 | h1
        · by_cases hnm : n = m
          · subst hnm
            rw [alookup_cons_self] at h1
            injection h1 with h1'
            exact Or.inr ⟨h1'.symm, hdm⟩
          · rw [alookup_cons_ne _ _ _ _ (fun h => hnm h.symm)] at h1
            exact Or.inl h1
        · exact Or.inr h1

/-- The optimality run lemma for `bfs`: under the level invariant (the
queue splits into a layer at distance `D` followed by a layer at
distance `D + 1`, every cell at distance `≤ D` is discovered, and every
dequeued cell's neighbours are discovered), a returned path has at most
`dist(goal) + 1` cells. -/
theorem bfsAux_optimal (pf : PF) (dg : Nat) (hdg : IsDist pf pf.goal dg) :
    ∀ (fuel : Nat) (queue visited : List Cell) (cf : List (Cell × Cell))
      (nodes D : Nat) (q1 q2 : List Cell),
    queue = q1 ++ q2 →
    (∀ x ∈ q1, IsDist pf x D) →
    (∀ x ∈ q2, IsDist pf x (D + 1)) →
    (∀ x dx, IsDist pf x dx → dx ≤ D → x ∈ visited ∧ (dx < D → x ∉ queue)) →
    (∀ z ∈ visited, z ∉ queue → ∀ nb ∈ get_neighbors pf z, nb ∈ visited) →
    (∀ x ∈ queue, x ∈ visited) →
    (∀ n c, alookup cf n = some c → ∃ dn dc, IsDist pf n dn ∧ IsDist pf c dc ∧
      dn = dc + 1) →
    ∀ p n, bfsAux pf fuel queue visited cf nodes = some (some p, n) →
    p.length ≤ dg + 1 := by
  obtain ⟨μ, hμdist⟩ := exists_dist_fun pf
  intro fuel
  induction fuel with
  | zero =>
    intro queue visited cf nodes D q1 q2 _ _ _ _ _ _ _ p n h
    simp [bfsAux] at h
  | succ k ih =>
    intro queue visited cf nodes D q1 q2 hsplit h1 h2 hb hproc hqv hcf p n h
    cases queue with
    | nil =>
      simp [bfsAux] at h
    | cons current rest =>
      have hstep : ∀ (E : Nat) (r1 r2 : List Cell),
          current :: rest = r1 ++ r2 →
          (∀ x ∈ r1, IsDist pf x E) →
          (∀ x ∈ r2, IsDist pf x (E + 1)) →
          (∀ x dx, IsDist pf x dx → dx ≤ E →
            x ∈ visited ∧ (dx < E → x ∉ current :: rest)) →
          r1 ≠ [] →
          p.length ≤ dg + 1 := by
        intro E r1 r2 hsp hh1 hh2 hhb hne
        cases r1 with
        | nil => exact absurd rfl hne
        | cons c1 t1 =>
          rw [List.cons_append] at hsp
          injection hsp with he1 he2
          have hcur : IsDist pf current E := he1 ▸ hh1 c1 (List.mem_cons_self _ _)
          by_cases hgoal : current = pf.goal
          · cases hbp : build_path cf (bpFuel pf) current [] with
            | none =>
              simp [bfsAux, if_pos hgoal, hbp] at h
            | some p0 =>
              simp only [bfsAux, if_pos hgoal, hbp] at h
              injection h with h'
              injection h' with hp1 hp2
              injection hp1 with hp1'
              subst hp1'
              obtain ⟨q, hpq, hqne, hqlast, ⟨h0, hh0, _⟩, hqchain, _⟩ :=
                build_path_spec cf (bpFuel pf) current [] p0 hbp
              rw [List.append_nil] at hpq
              subst hpq
              have hchainμ : List.Chain' (fun a b => μ a + 1 ≤ μ b) p0 := by
                refine hqchain.imp ?_
                intro a b hab
                obtain ⟨dn, dcc, hdn, hdcc, he⟩ := hcf b a hab
                rw [hμdist b dn hdn, hμdist a dcc hdcc]
                omega
              have hμcur : μ current = dg :=
                hμdist current dg (by rw [hgoal]; exact hdg)
              have := chain_mu_ge μ p0 hchainμ h0 hh0 current hqlast
              omega
          · have hns : ∀ nb ∈ get_neighbors pf current, nb ∉ visited →
                IsDist pf nb (E + 1) := by
              intro nb hnb hnv
              have hr : ReachN pf (E + 1) nb := hcur.1.succ hnb
              obtain ⟨dn, hdn⟩ := reachable_isDist ⟨_, hr⟩
              have hle : dn ≤ E + 1 := hdn.2 _ hr
              have hgt : ¬ dn ≤ E := fun hle2 => hnv (hhb nb dn hdn hle2).1
              have hEq : dn = E + 1 := by omega
              exact hEq ▸ hdn
            obtain ⟨c1', c2, c3, ⟨add, ha1, ha2, ha3⟩, c5⟩ :=
              bfsPush_opt pf current E (get_neighbors pf current) visited cf rest hns
            rcases hpe : bfsPush current (get_neighbors pf current) visited cf rest
              with ⟨visited', cf', queue'⟩
            have e1 : visited' =
                (bfsPush current (get_neighbors pf current) visited cf rest).1 := by
              rw [hpe]
            have e2 : cf' =
                (bfsPush current (get_neighbors pf current) visited cf rest).2.1 := by
              rw [hpe]
            have e3 : queue' =
                (bfsPush current (get_neighbors pf current) visited cf rest).2.2 := by
              rw [hpe]
            simp only [bfsAux, if_neg hgoal, hpe] at h
            refine ih queue' visited' cf' (nodes + 1) E t1 (r2 ++ add)
              ?_ ?_ ?_ ?_ ?_ ?_ ?_ p n h
            · rw [e3, ha1, he2, List.append_assoc]
            · intro x hx
              exact hh1 x (List.mem_cons_of_mem _ hx)
            · intro x hx
              rcases List.mem_append.mp hx with hx1 | hx1
              · exact hh2 x hx1
              · exact (ha2 x hx1).1
            · intro x dx hdx hle
              refine ⟨e1 ▸ c1' x (hhb x dx hdx hle).1, ?_⟩
              intro hlt hxq
              rw [e3, ha1] at hxq
              rcases List.mem_append.mp hxq with hx1 | hx1
              · exact (hhb x dx hdx hle).2 hlt (List.mem_cons_of_mem _ hx1)
              · have := isDist_unique hdx (ha2 x hx1).1
                omega
            · intro z hz hznq nb hnb
              by_cases hzv : z ∈ visited
              · by_cases hzc : z = current
                · subst hzc
                  exact e1 ▸ c2 nb hnb
                · have hznr : z ∉ rest := by
                    intro hzr
                    exact hznq (by rw [e3, ha1]; exact List.mem_append.mpr (Or.inl hzr))
                  have hznq2 : z ∉ current :: rest := by
                    intro hz2
                    rcases List.mem_cons.mp hz2 with hh | hh
                    · exact hzc hh
                    · exact hznr hh
                  exact e1 ▸ c1' nb (hproc z hzv hznq2 nb hnb)
              · exfalso
                have : z ∈ add := ha3 z (e1 ▸ hz) hzv
                exact hznq (by rw [e3, ha1]; exact List.mem_append.mpr (Or.inr this))
            · intro x hx
              rw [e3, ha1] at hx
              rcases List.mem_append.mp hx with hx1 | hx1
              · exact e1 ▸ c1' x (hqv x (List.mem_cons_of_mem _ hx1))
              · exact e1 ▸ (ha2 x hx1).2
            · intro n' c' h'
              rcases c5 n' c' (e2 ▸ h') with h1' | ⟨hc, hdn⟩
              · exact hcf n' c' h1'
              · exact ⟨E + 1, E, hdn, hc ▸ hcur, rfl⟩
      cases hq1e : q1 with
      | cons c1 t1 =>
        rw [hq1e] at hsplit h1
        exact hstep D (c1 :: t1) q2 hsplit h1 h2 hb (by simp)
      | nil =>
        rw [hq1e, List.nil_append] at hsplit
        refine hstep (D + 1) q2 [] (by rw [hsplit, List.append_nil]) h2
          (fun x hx => absurd hx (List.not_mem_nil x)) ?_ ?_
        · intro x dx hdx hle
          by_cases hdxD : dx ≤ D
          · refine ⟨(hb x dx hdx hdxD).1, ?_⟩
            intro _ hxq
            have := isDist_unique hdx (h2 x (hsplit ▸ hxq))
            omega
          · have hdxE : dx = D + 1 := by omega
            constructor
            · subst hdxE
              cases hdx.1 with
              | @succ _ z _ hz hnb =>
                obtain ⟨dz, hdz⟩ := reachable_isDist ⟨D, hz⟩
                have hdzD : dz ≤ D := hdz.2 _ hz
                have hzv : z ∈ visited := (hb z dz hdz hdzD).1
                have hznq : z ∉ current :: rest := by
                  intro hz2
                  have := isDist_unique hdz (h2 z (hsplit ▸ hz2))
                  omega
                exact hproc z hzv hznq x hnb
            · intro hlt
              omega
        · rw [← hsplit]
          simp

/-! ### Optimality at the initial states -/

/-- `ucs()` returns shortest paths, and finalizes every cell strictly
closer than the goal. -/
theorem ucs_optimal_run {pf : PF} {dg : Nat} (hdg : IsDist pf pf.goal dg) :
    ∀ p n, pf.ucs = some (some p, n) →
    p.length ≤ dg + 1 ∧
    ∃ V : List Cell, n = V.length ∧ V.Nodup ∧ pf.goal ∈ V ∧
      ∀ x dx, IsDist pf x dx → dx < dg → x ∈ V := by
  refine ucsAux_optimal pf dg hdg (loopFuel pf) [(0, pf.start)] [] [] [(pf.start, 0)] 0
    (by simp) rfl (by simp) (by simp) ?_ ?_ ?_ (by simp) (by simp) ?_ ?_
  · intro x v hv
    by_cases hx : pf.start = x
    · rw [← hx, alookup_cons_self] at hv
      injection hv with hv'
      rw [← hx, ← hv']
      exact .zero
    · rw [alookup_cons_ne _ _ _ _ hx] at hv
      cases hv
  · intro e he
    rcases List.mem_cons.mp he with hEq | hT
    · rw [hEq]
      exact ⟨0, alookup_cons_self _ _ _, le_refl 0⟩
    · cases hT
  · intro x v hv _
    by_cases hx : pf.start = x
    · rw [← hx, alookup_cons_self] at hv
      injection hv with hv'
      rw [← hx, ← hv']
      exact List.mem_cons_self _ _
    · rw [alookup_cons_ne _ _ _ _ hx] at hv
      cases hv
  · exact alookup_cons_self _ _ _
  · intro n c h
    cases h

/-- `a_star()` returns shortest paths, and every finalized cell is the
goal or lies strictly closer than the goal. -/
theorem a_star_optimal_run {pf : PF} {dg : Nat} (hdg : IsDist pf pf.goal dg) :
    ∀ p n, pf.a_star = some (some p, n) →
    p.length ≤ dg + 1 ∧
    ∃ V : List Cell, n = V.length ∧ V.Nodup ∧ pf.goal ∈ V ∧
      ∀ x ∈ V, x = pf.goal ∨ ∃ dx, IsDist pf x dx ∧ dx < dg := by
  refine aStarAux_optimal pf dg hdg (loopFuel pf) [(0, pf.start)] [] [] [(pf.start, 0)] 0
    (by simp) rfl (by simp) (by simp) ?_ ?_ ?_ (by simp) (by simp) (by simp) ?_ ?_
  · intro x v hv
    by_cases hx : pf.start = x
    · rw [← hx, alookup_cons_self] at hv
      injection hv with hv'
      rw [← hx, ← hv']
      exact .zero
    · rw [alookup_cons_ne _ _ _ _ hx] at hv
      cases hv
  · intro e he
    rcases List.mem_cons.mp he with hEq | hT
    · exact Or.inl (by rw [hEq])
    · cases hT
  · intro x v hv _
    by_cases hx : pf.start = x
    · rw [← hx, alookup_cons_self] at hv
      injection hv with hv'
      refine ⟨0, ?_, by omega⟩
      rw [← hx]
      exact List.mem_cons_self _ _
    · rw [alookup_cons_ne _ _ _ _ hx] at hv
      cases hv
  · exact alookup_cons_self _ _ _
  · intro n c h
    cases h

/-- `bfs()` returns shortest paths. -/
theorem bfs_optimal_run {pf : PF} {dg : Nat} (hdg : IsDist pf pf.goal dg) :
    ∀ p n, pf.bfs = some (some p, n) → p.length ≤ dg + 1 := by
  refine bfsAux_optimal pf dg hdg (loopFuel pf) [pf.start] [pf.start] [] 0 0
    [pf.start] [] (by simp) ?_ (by simp) ?_ ?_ (fun x hx => hx) ?_
  · intro x hx
    rcases List.mem_cons.mp hx with hEq | hT
    · rw [hEq]
      exact isDist_start
    · cases hT
  · intro x dx hdx hle
    have hdx0 : dx = 0 := by omega
    rw [hdx0] at hdx
    rw [reachN_zero hdx.1]
    exact ⟨List.mem_cons_self _ _, by omega⟩
  · intro z hz hznq
    exact absurd hz hznq
  · intro n c h
    cases h

/-! ### Exhaustive search when the goal is unreachable -/

/-- Weak invariants through the `ucs` neighbour loop: recorded cells
stay reachable, heap cells stay recorded, recorded cells stay recorded,
newly recorded cells get heap entries, the heap only grows, and every
processed neighbour ends up recorded. -/
theorem ucsRelax_weak (pf : PF) (current : Cell) (kk : Nat)
    (hrc : Reachable pf current) :
    ∀ (ns : List Cell) (heap : List (Nat × Cell)) (cf : List (Cell × Cell))
      (cost : List (Cell × Nat)),
    (∀ n ∈ ns, n ∈ get_neighbors pf current) →
    (∀ x v, alookup cost x = some v → Reachable pf x) →
    (∀ e ∈ heap, (alookup cost e.2).isSome) →
    (∀ x v, alookup (ucsRelax current kk ns heap cf cost).2.2 x = some v →
      Reachable pf x) ∧
    (∀ e ∈ (ucsRelax current kk ns heap cf cost).1,
      (alookup (ucsRelax current kk ns heap cf cost).2.2 e.2).isSome) ∧
    (∀ x, (alookup cost x).isSome →
      (alookup (ucsRelax current kk ns heap cf cost).2.2 x).isSome) ∧
    (∀ x, (alookup (ucsRelax current kk ns heap cf cost).2.2 x).isSome →
      (alookup cost x).isSome ∨
        ∃ k', (k', x) ∈ (ucsRelax current kk ns heap cf cost).1) ∧
    (∀ e ∈ heap, e ∈ (ucsRelax current kk ns heap cf cost).1) ∧
    (∀ n ∈ ns, (alookup (ucsRelax current kk ns heap cf cost).2.2 n).isSome) := by
  intro ns
  induction ns with
  | nil =>
    intro heap cf cost _ hre hHC
    refine ⟨hre, hHC, fun x hx => hx, fun x hx => Or.inl hx, fun e he => he, ?_⟩
    intro n hn
    cases hn
  | cons m rest ih =>
    intro heap cf cost hns hre hHC
    have hmnb : m ∈ get_neighbors pf current := hns m (List.mem_cons_self m rest)
    have hrm : Reachable pf m := by
      obtain ⟨nr, hr⟩ := hrc
      exact ⟨nr + 1, hr.succ hmnb⟩
    have hrest_ns : ∀ n ∈ rest, n ∈ get_neighbors pf current :=
      fun n hn => hns n (List.mem_cons_of_mem m hn)
    have hupd :
        (∀ x v, alookup ((m, kk + 1) :: cost) x = some v → Reachable pf x) ∧
        (∀ e ∈ heappush heap (kk + 1, m),
          (alookup ((m, kk + 1) :: cost) e.2).isSome) := by
      constructor
      · intro x v hv
        by_cases hxm : x = m
        · exact hxm ▸ hrm
        · rw [alookup_cons_ne _ _ _ _ (fun h => hxm h.symm)] at hv
          exact hre x v hv
      · intro e he
        by_cases hem : e.2 = m
        · rw [hem, alookup_cons_self]
          rfl
        · rw [alookup_cons_ne _ _ _ _ (fun h => hem h.symm)]
          rcases heappush_mem.mp he with h1 | h1
          · exact hHC e h1
          · rw [h1] at hem
            exact absurd rfl hem
    have hkeep : ∀ x, (alookup cost x).isSome →
        (alookup ((m, kk + 1) :: cost) x).isSome := by
      intro x hx
      by_cases hxm : x = m
      · rw [hxm, alookup_cons_self]
        rfl
      · rw [alookup_cons_ne _ _ _ _ (fun h => hxm h.symm)]
        exact hx
    cases hn : alookup cost m with
    | none =>
      obtain ⟨c1, c2, c3, c4, c5, c6⟩ := ih _ _ _ hrest_ns hupd.1 hupd.2
      simp only [ucsRelax, hn, if_pos]
      refine ⟨c1, c2, ?_, ?_, ?_, ?_⟩
      · intro x hx
        exact c3 x (hkeep x hx)
      · intro x hx
        rcases c4 x hx with h1 | h1
        · by_cases hxm : x = m
          · refine Or.inr ⟨kk + 1, ?_⟩
            rw [hxm]
            exact c5 _ (heappush_mem.mpr (Or.inr rfl))
          · rw [alookup_cons_ne _ _ _ _ (fun h => hxm h.symm)] at h1
            exact Or.inl h1
        · exact Or.inr h1
      · intro e he
        exact c5 e (heappush_mem.mpr (Or.inl he))
      · intro n' hn'
        rcases List.mem_cons.mp hn' with hEq | hT
        · rw [hEq]
          exact c3 m (by rw [alookup_cons_self]; rfl)
        · exact c6 n' hT
    | some cn =>
      by_cases hlt : kk + 1 < cn
      · obtain ⟨c1, c2, c3, c4, c5, c6⟩ := ih _ _ _ hrest_ns hupd.1 hupd.2
        simp only [ucsRelax, hn, decide_eq_true_eq, if_pos hlt]
        refine ⟨c1, c2, ?_, ?_, ?_, ?_⟩
        · intro x hx
          exact c3 x (hkeep x hx)
        · intro x hx
          rcases c4 x hx with h1 | h1
          · by_cases hxm : x = m
            · rw [hxm, hn]
              exact Or.inl rfl
            · rw [alookup_cons_ne _ _ _ _ (fun h => hxm h.symm)] at h1
              exact Or.inl h1
          · exact Or.inr h1
        · intro e he
          exact c5 e (heappush_mem.mpr (Or.inl he))
        · intro n' hn'
          rcases List.mem_cons.mp hn' with hEq | hT
          · rw [hEq]
            exact c3 m (by rw [alookup_cons_self]; rfl)
          · exact c6 n' hT
      · obtain ⟨c1, c2, c3, c4, c5, c6⟩ := ih heap cf cost hrest_ns hre hHC
        simp only [ucsRelax, hn, decide_eq_true_eq, if_neg hlt]
        refine ⟨c1, c2, c3, c4, c5, ?_⟩
        intro n' hn'
        rcases List.mem_cons.mp hn' with hEq | hT
        · rw [hEq]
          exact c3 m (by rw [hn]; rfl)
        · exact c6 n' hT

/-- Weak invariants through the `a_star` neighbour loop (shape identical
to `ucsRelax_weak`). -/
theorem aStarRelax_weak (pf : PF) (current : Cell) (gc : Nat)
    (hrc : Reachable pf current) :
    ∀ (ns : List Cell) (heap : List (Nat × Cell)) (cf : List (Cell × Cell))
      (gs : List (Cell × Nat)),
    (∀ n ∈ ns, n ∈ get_neighbors pf current) →
    (∀ x v, alookup gs x = some v → Reachable pf x) →
    (∀ e ∈ heap, (alookup gs e.2).isSome) →
    (∀ x v, alookup (aStarRelax pf current gc ns heap cf gs).2.2 x = some v →
      Reachable pf x) ∧
    (∀ e ∈ (aStarRelax pf current gc ns heap cf gs).1,
      (alookup (aStarRelax pf current gc ns heap cf gs).2.2 e.2).isSome) ∧
    (∀ x, (alookup gs x).isSome →
      (alookup (aStarRelax pf current gc ns heap cf gs).2.2 x).isSome) ∧
    (∀ x, (alookup (aStarRelax pf current gc ns heap cf gs).2.2 x).isSome →
      (alookup gs x).isSome ∨
        ∃ k', (k', x) ∈ (aStarRelax pf current gc ns heap cf gs).1) ∧
    (∀ e ∈ heap, e ∈ (aStarRelax pf current gc ns heap cf gs).1) ∧
    (∀ n ∈ ns, (alookup (aStarRelax pf current gc ns heap cf gs).2.2 n).isSome) := by
  intro ns
  induction ns with
  | nil =>
    intro heap cf gs _ hre hHC
    refine ⟨hre, hHC, fun x hx => hx, fun x hx => Or.inl hx, fun e he => he, ?_⟩
    intro n hn
    cases hn
  | cons m rest ih =>
    intro heap cf gs hns hre hHC
    have hmnb : m ∈ get_neighbors pf current := hns m (List.mem_cons_self m rest)
    have hrm : Reachable pf m := by
      obtain ⟨nr, hr⟩ := hrc
      exact ⟨nr + 1, hr.succ hmnb⟩
    have hrest_ns : ∀ n ∈ rest, n ∈ get_neighbors pf current :=
      fun n hn => hns n (List.mem_cons_of_mem m hn)
    have hupd :
        (∀ x v, alookup ((m, gc + 1) :: gs) x = some v → Reachable pf x) ∧
        (∀ e ∈ heappush heap (gc + 1 + manhattan_dist m pf.goal, m),
          (alookup ((m, gc + 1) :: gs) e.2).isSome) := by
      constructor
      · intro x v hv
        by_cases hxm : x = m
        · exact hxm ▸ hrm
        · rw [alookup_cons_ne _ _ _ _ (fun h => hxm h.symm)] at hv
          exact hre x v hv
      · intro e he
        by_cases hem : e.2 = m
        · rw [hem, alookup_cons_self]
          rfl
        · rw [alookup_cons_ne _ _ _ _ (fun h => hem h.symm)]
          rcases heappush_mem.mp he with h1 | h1
          · exact hHC e h1
          · rw [h1] at hem
            exact absurd rfl hem
    have hkeep : ∀ x, (alookup gs x).isSome →
        (alookup ((m, gc + 1) :: gs) x).isSome := by
      intro x hx
      by_cases hxm : x = m
      · rw [hxm, alookup_cons_self]
        rfl
      · rw [alookup_cons_ne _ _ _ _ (fun h => hxm h.symm)]
        exact hx
    cases hn : alookup gs m with
    | none =>
      obtain ⟨c1, c2, c3, c4, c5, c6⟩ := ih _ _ _ hrest_ns hupd.1 hupd.2
      simp only [aStarRelax, hn, if_pos]
      refine ⟨c1, c2, ?_, ?_, ?_, ?_⟩
      · intro x hx
        exact c3 x (hkeep x hx)
      · intro x hx
        rcases c4 x hx with h1 | h1
        · by_cases hxm : x = m
          · refine Or.inr ⟨gc + 1 + manhattan_dist m pf.goal, ?_⟩
            rw [hxm]
            exact c5 _ (heappush_mem.mpr (Or.inr rfl))
          · rw [alookup_cons_ne _ _ _ _ (fun h => hxm h.symm)] at h1
            exact Or.inl h1
        · exact Or.inr h1
      · intro e he
        exact c5 e (heappush_mem.mpr (Or.inl he))
      · intro n' hn'
        rcases List.mem_cons.mp hn' with hEq | hT
        · rw [hEq]
          exact c3 m (by rw [alookup_cons_self]; rfl)
        · exact c6 n' hT
    | some cn =>
      by_cases hlt : gc + 1 < cn
      · obtain ⟨c1, c2, c3, c4, c5, c6⟩ := ih _ _ _ hrest_ns hupd.1 hupd.2
        simp only [aStarRelax, hn, decide_eq_true_eq, if_pos hlt]
        refine ⟨c1, c2, ?_, ?_, ?_, ?_⟩
        · intro x hx
          exact c3 x (hkeep x hx)
        · intro x hx
          rcases c4 x hx with h1 | h1
          · by_cases hxm : x = m
            · rw [hxm, hn]
              exact Or.inl rfl
            · rw [alookup_cons_ne _ _ _ _ (fun h => hxm h.symm)] at h1
              exact Or.inl h1
          · exact Or.inr h1
        · intro e he
          exact c5 e (heappush_mem.mpr (Or.inl he))
        · intro n' hn'
          rcases List.mem_cons.mp hn' with hEq | hT
          · rw [hEq]
            exact c3 m (by rw [alookup_cons_self]; rfl)
          · exact c6 n' hT
      · obtain ⟨c1, c2, c3, c4, c5, c6⟩ := ih heap cf gs hrest_ns hre hHC
        simp only [aStarRelax, hn, decide_eq_true_eq, if_neg hlt]
        refine ⟨c1, c2, c3, c4, c5, ?_⟩
        intro n' hn'
        rcases List.mem_cons.mp hn' with hEq | hT
        · rw [hEq]
          exact c3 m (by rw [hn]; rfl)
        · exact c6 n' hT

/-- When the goal is unreachable, `ucs` drains its frontier and the
final visited list is exactly the set of reachable cells. -/
theorem ucsAux_exhaustive (pf : PF) (hun : ¬ Reachable pf pf.goal) :
    ∀ (fuel : Nat) (heap : List (Nat × Cell)) (visited : List Cell)
      (cf : List (Cell × Cell)) (cost : List (Cell × Nat)) (nodes : Nat),
    visited.Nodup →
    nodes = visited.length →
    (∀ z ∈ visited, Reachable pf z) →
    (∀ x v, alookup cost x = some v → Reachable pf x) →
    (∀ e ∈ heap, (alookup cost e.2).isSome) →
    (∀ x, (alookup cost x).isSome → x ∉ visited → ∃ k', (k', x) ∈ heap) →
    (∀ z ∈ visited, ∀ nb ∈ get_neighbors pf z, (alookup cost nb).isSome) →
    (alookup cost pf.start).isSome →
    ∀ r n, ucsAux pf fuel heap visited cf cost nodes = some (r, n) →
    r = none ∧ ∃ V : List Cell, n = V.length ∧ V.Nodup ∧
      ∀ x, x ∈ V ↔ Reachable pf x := by
  intro fuel
  induction fuel with
  | zero =>
    intro heap visited cf cost nodes _ _ _ _ _ _ _ _ r n h
    simp [ucsAux] at h
  | succ k ih =>
    intro heap visited cf cost nodes hndv hnodes hvr hre hHC hpend hclose hstart r n h
    cases heap with
    | nil =>
      simp only [ucsAux, heappop] at h
      injection h with h'
      injection h' with h1 h2
      refine ⟨h1.symm, visited, by omega, hndv, ?_⟩
      intro x
      constructor
      · exact hvr x
      · rintro ⟨m, hm⟩
        have hsv : pf.start ∈ visited := by
          by_contra hs
          obtain ⟨k', hk'⟩ := hpend pf.start hstart hs
          cases hk'
        have hcl : ∀ c ∈ visited, ∀ nb ∈ get_neighbors pf c, nb ∈ visited := by
          intro c hc nb hnb
          by_contra hnbv
          obtain ⟨k', hk'⟩ := hpend nb (hclose c hc nb hnb) hnbv
          cases hk'
        exact reach_subset_of_closed hsv hcl hm
    | cons e rest =>
      obtain ⟨kk, current⟩ := e
      by_cases hcv : current ∈ visited
      · simp only [ucsAux, heappop, if_pos hcv] at h
        refine ih rest visited cf cost nodes hndv hnodes hvr hre
          (fun e he => hHC e (List.mem_cons_of_mem _ he)) ?_ hclose hstart r n h
        intro x hx hxV
        obtain ⟨k', hk'⟩ := hpend x hx hxV
        rcases List.mem_cons.mp hk' with hEq | hT
        · injection hEq with _ hEq2
          exact absurd (hEq2 ▸ hcv) hxV
        · exact ⟨k', hT⟩
      · have hcostc : (alookup cost current).isSome :=
          hHC (kk, current) (List.mem_cons_self _ _)
        obtain ⟨vc, hvc⟩ := Option.isSome_iff_exists.mp hcostc
        have hreach_cur : Reachable pf current := hre _ _ hvc
        have hgoal : current ≠ pf.goal := fun hEq => hun (hEq ▸ hreach_cur)
        obtain ⟨c1, c2, c3, c4, c5, c6⟩ :=
          ucsRelax_weak pf current kk hreach_cur (get_neighbors pf current) rest cf
            cost (fun n hn => hn) hre
            (fun e he => hHC e (List.mem_cons_of_mem _ he))
        rcases hsplit : ucsRelax current kk (get_neighbors pf current) rest cf cost
          with ⟨heap', cf', cost'⟩
        have hs1 : heap' =
            (ucsRelax current kk (get_neighbors pf current) rest cf cost).1 := by
          rw [hsplit]
        have ho1 : cost' =
            (ucsRelax current kk (get_neighbors pf current) rest cf cost).2.2 := by
          rw [hsplit]
        simp only [ucsAux, heappop, if_neg hcv, if_neg hgoal, hsplit] at h
        refine ih heap' (current :: visited) cf' cost' (nodes + 1)
          (List.nodup_cons.mpr ⟨hcv, hndv⟩) (by simp [hnodes])
          (fun z hz => by
            rcases List.mem_cons.mp hz with hEq | hT
            · exact hEq ▸ hreach_cur
            · exact hvr z hT)
          (fun x v hv => c1 x v (ho1 ▸ hv))
          (fun e he => ho1 ▸ c2 e (hs1 ▸ he)) ?_ ?_
          (ho1 ▸ c3 pf.start hstart) r n h
        · intro x hx hxV
          rcases c4 x (ho1 ▸ hx) with h1 | h1
          · obtain ⟨k', hk'⟩ := hpend x h1 (fun hx2 => hxV (List.mem_cons_of_mem _ hx2))
            rcases List.mem_cons.mp hk' with hEq | hT
            · injection hEq with _ hEq2
              exact absurd (hEq2 ▸ List.mem_cons_self current visited) hxV
            · exact ⟨k', hs1 ▸ c5 _ hT⟩
          · obtain ⟨k', hk'⟩ := h1
            exact ⟨k', hs1 ▸ hk'⟩
        · intro z hz nb hnb
          rcases List.mem_cons.mp hz with hEq | hT
          · rw [hEq] at hnb
            exact ho1 ▸ c6 nb hnb
          · exact ho1 ▸ c3 nb (hclose z hT nb hnb)

/-- When the goal is unreachable, `a_star` drains its frontier and the
final visited list is exactly the set of reachable cells. -/
theorem aStarAux_exhaustive (pf : PF) (hun : ¬ Reachable pf pf.goal) :
    ∀ (fuel : Nat) (heap : List (Nat × Cell)) (visited : List Cell)
      (cf : List (Cell × Cell)) (gs : List (Cell × Nat)) (nodes : Nat),
    visited.Nodup →
    nodes = visited.length →
    (∀ z ∈ visited, Reachable pf z) →
    (∀ x v, alookup gs x = some v → Reachable pf x) →
    (∀ e ∈ heap, (alookup gs e.2).isSome) →
    (∀ x, (alookup gs x).isSome → x ∉ visited → ∃ k', (k', x) ∈ heap) →
    (∀ z ∈ visited, ∀ nb ∈ get_neighbors pf z, (alookup gs nb).isSome) →
    (alookup gs pf.start).isSome →
    ∀ r n, aStarAux pf fuel heap visited cf gs nodes = some (r, n) →
    r = none ∧ ∃ V : List Cell, n = V.length ∧ V.Nodup ∧
      ∀ x, x ∈ V ↔ Reachable pf x := by
  intro fuel
  induction fuel with
  | zero =>
    intro heap visited cf gs nodes _ _ _ _ _ _ _ _ r n h
    simp [aStarAux] at h
  | succ k ih =>
    intro heap visited cf gs nodes hndv hnodes hvr hre hHC hpend hclose hstart r n h
    cases heap with
    | nil =>
      simp only [aStarAux, heappop] at h
      injection h with h'
      injection h' with h1 h2
      refine ⟨h1.symm, visited, by omega, hndv, ?_⟩
      intro x
      constructor
      · exact hvr x
      · rintro ⟨m, hm⟩
        have hsv : pf.start ∈ visited := by
          by_contra hs
          obtain ⟨k', hk'⟩ := hpend pf.start hstart hs
          cases hk'
        have hcl : ∀ c ∈ visited, ∀ nb ∈ get_neighbors pf c, nb ∈ visited := by
          intro c hc nb hnb
          by_contra hnbv
          obtain ⟨k', hk'⟩ := hpend nb (hclose c hc nb hnb) hnbv
          cases hk'
        exact reach_subset_of_closed hsv hcl hm
    | cons e rest =>
      obtain ⟨kk, current⟩ := e
      by_cases hcv : current ∈ visited
      · simp only [aStarAux, heappop, if_pos hcv] at h
        refine ih rest visited cf gs nodes hndv hnodes hvr hre
          (fun e he => hHC e (List.mem_cons_of_mem _ he)) ?_ hclose hstart r n h
        intro x hx hxV
        obtain ⟨k', hk'⟩ := hpend x hx hxV
        rcases List.mem_cons.mp hk' with hEq | hT
        · injection hEq with _ hEq2
          exact absurd (hEq2 ▸ hcv) hxV
        · exact ⟨k', hT⟩
      · have hcostc : (alookup gs current).isSome :=
          hHC (kk, current) (List.mem_cons_self _ _)
        obtain ⟨gc, hgc⟩ := Option.isSome_iff_exists.mp hcostc
        have hreach_cur : Reachable pf current := hre _ _ hgc
        have hgoal : current ≠ pf.goal := fun hEq => hun (hEq ▸ hreach_cur)
        obtain ⟨c1, c2, c3, c4, c5, c6⟩ :=
          aStarRelax_weak pf current gc hreach_cur (get_neighbors pf current) rest cf
            gs (fun n hn => hn) hre
            (fun e he => hHC e (List.mem_cons_of_mem _ he))
        rcases hsplit : aStarRelax pf current gc (get_neighbors pf current) rest cf gs
          with ⟨heap', cf', gs'⟩
        have hs1 : heap' =
            (aStarRelax pf current gc (get_neighbors pf current) rest cf gs).1 := by
          rw [hsplit]
        have ho1 : gs' =
            (aStarRelax pf current gc (get_neighbors pf current) rest cf gs).2.2 := by
          rw [hsplit]
        simp only [aStarAux, heappop, if_neg hcv, if_neg hgoal, hgc, hsplit] at h
        refine ih heap' (current :: visited) cf' gs' (nodes + 1)
          (List.nodup_cons.mpr ⟨hcv, hndv⟩) (by simp [hnodes])
          (fun z hz => by
            rcases List.mem_cons.mp hz with hEq | hT
            · exact hEq ▸ hreach_cur
            · exact hvr z hT)
          (fun x v hv => c1 x v (ho1 ▸ hv))
          (fun e he => ho1 ▸ c2 e (hs1 ▸ he)) ?_ ?_
          (ho1 ▸ c3 pf.start hstart) r n h
        · intro x hx hxV
          rcases c4 x (ho1 ▸ hx) with h1 | h1
          · obtain ⟨k', hk'⟩ := hpend x h1 (fun hx2 => hxV (List.mem_cons_of_mem _ hx2))
            rcases List.mem_cons.mp hk' with hEq | hT
            · injection hEq with _ hEq2
              exact absurd (hEq2 ▸ List.mem_cons_self current visited) hxV
            · exact ⟨k', hs1 ▸ c5 _ hT⟩
          · obtain ⟨k', hk'⟩ := h1
            exact ⟨k', hs1 ▸ hk'⟩
        · intro z hz nb hnb
          rcases List.mem_cons.mp hz with hEq | hT
          · rw [hEq] at hnb
            exact ho1 ▸ c6 nb hnb
          · exact ho1 ▸ c3 nb (hclose z hT nb hnb)

/-- `ucs()` on an unreachable goal: the result is absent and the count
is the number of reachable cells. -/
theorem ucs_exhaustive_run {pf : PF} (hun : ¬ Reachable pf pf.goal) :
    ∀ r n, pf.ucs = some (r, n) →
    r = none ∧ ∃ V : List Cell, n = V.length ∧ V.Nodup ∧
      ∀ x, x ∈ V ↔ Reachable pf x := by
  refine ucsAux_exhaustive pf hun (loopFuel pf) [(0, pf.start)] [] [] [(pf.start, 0)] 0
    (by simp) rfl (by simp) ?_ ?_ ?_ (by simp) (by rw [alookup_cons_self]; rfl)
  · intro x v hv
    by_cases hx : pf.start = x
    · exact ⟨0, by rw [← hx]; exact .zero⟩
    · rw [alookup_cons_ne _ _ _ _ hx] at hv
      cases hv
  · intro e he
    rcases List.mem_cons.mp he with hEq | hT
    · rw [hEq, alookup_cons_self]
      rfl
    · cases hT
  · intro x hx _
    by_cases hxs : pf.start = x
    · refine ⟨0, ?_⟩
      rw [← hxs]
      exact List.mem_cons_self _ _
    · rw [alookup_cons_ne _ _ _ _ hxs] at hx
      cases hx

/-- `a_star()` on an unreachable goal: the result is absent and the
count is the number of reachable cells. -/
theorem a_star_exhaustive_run {pf : PF} (hun : ¬ Reachable pf pf.goal) :
    ∀ r n, pf.a_star = some (r, n) →
    r = none ∧ ∃ V : List Cell, n = V.length ∧ V.Nodup ∧
      ∀ x, x ∈ V ↔ Reachable pf x := by
  refine aStarAux_exhaustive pf hun (loopFuel pf) [(0, pf.start)] [] [] [(pf.start, 0)] 0
    (by simp) rfl (by simp) ?_ ?_ ?_ (by simp) (by rw [alookup_cons_self]; rfl)
  · intro x v hv
    by_cases hx : pf.start = x
    · exact ⟨0, by rw [← hx]; exact .zero⟩
    · rw [alookup_cons_ne _ _ _ _ hx] at hv
      cases hv
  · intro e he
    rcases List.mem_cons.mp he with hEq | hT
    · rw [hEq, alookup_cons_self]
      rfl
    · cases hT
  · intro x hx _
    by_cases hxs : pf.start = x
    · refine ⟨0, ?_⟩
      rw [← hxs]
      exact List.mem_cons_self _ _
    · rw [alookup_cons_ne _ _ _ _ hxs] at hx
      cases hx

/-! ### Claims C3, C8, C9 -/

/-- On Scenario 2's walled grid the goal is unreachable: the start has
no traversable neighbours. -/
theorem walled_unreachable : ¬ Reachable pfWalled pfWalled.goal := by
  rintro ⟨n, hr⟩
  have hcl : ∀ c ∈ [pfWalled.start], ∀ nb ∈ get_neighbors pfWalled c,
      nb ∈ [pfWalled.start] := by
    intro c hc nb hnb
    rcases List.mem_cons.mp hc with hEq | hT
    · subst hEq
      have hz : get_neighbors pfWalled pfWalled.start = [] := by decide
      rw [hz] at hnb
      cases hnb
    · cases hT
  have hmem := reach_subset_of_closed (List.mem_cons_self _ _) hcl hr
  rcases List.mem_cons.mp hmem with hEq | hT
  · exact absurd hEq (by decide)
  · cases hT

/-- C3.  On every validated grid whose goal is not reachable from the
start, each of the five searches returns an absent path together with a
visited count (no error, no divergence); on Scenario 2's grid
`[['S','X'],['X','G']]` all five return the absent path with
`nodesVisited = 1`. -/
theorem C3_theorem :
    (∀ (g : Grid) (pf : PF), (validate_grid g).1 = true → mkPF g = some pf →
      ¬ Reachable pf pf.goal →
      (∃ n, pf.dfs = some (none, n)) ∧ (∃ n, pf.bfs = some (none, n)) ∧
      (∃ n, pf.ucs = some (none, n)) ∧ (∃ n, pf.a_star = some (none, n)) ∧
      (∃ n, pf.greedy = some (none, n))) ∧
    (mkPF gridWalled = some pfWalled ∧
      pfWalled.dfs = some (none, 1) ∧ pfWalled.bfs = some (none, 1) ∧
      pfWalled.ucs = some (none, 1) ∧ pfWalled.a_star = some (none, 1) ∧
      pfWalled.greedy = some (none, 1)) := by
  constructor
  · intro g pf hv hm hun
    have pick : ∀ (res : Option (Option (List Cell) × Nat)),
        (∃ r n, res = some (r, n) ∧ (r = none → ¬ Reachable pf pf.goal) ∧
          (∀ p, r = some p → ValidPath pf p ∧ p.length ≤ n)) →
        ∃ n, res = some (none, n) := by
      rintro res ⟨r, n, hrun, _, h2⟩
      cases r with
      | none => exact ⟨n, hrun⟩
      | some p => exact absurd (validpath_reachable (h2 p rfl).1) hun
    exact ⟨pick _ (dfs_run hv hm), pick _ (bfs_run hv hm), pick _ (ucs_run hv hm),
      pick _ (a_star_run hv hm), pick _ (greedy_run hv hm)⟩
  · exact ⟨rfl, rfl, rfl, rfl, rfl, rfl⟩

/-- C3 witness: the universal half applied to Scenario 2's grid, whose
hypotheses (validation, construction, unreachability) are discharged
concretely. -/
theorem C3_witness :
    (validate_grid gridWalled).1 = true ∧ mkPF gridWalled = some pfWalled ∧
    ((∃ n, pfWalled.dfs = some (none, n)) ∧ (∃ n, pfWalled.bfs = some (none, n)) ∧
      (∃ n, pfWalled.ucs = some (none, n)) ∧ (∃ n, pfWalled.a_star = some (none, n)) ∧
      (∃ n, pfWalled.greedy = some (none, n))) :=
  ⟨by decide, rfl,
    C3_theorem.1 gridWalled pfWalled (by decide) rfl walled_unreachable⟩

/-- C8.  On every validated grid, whenever one of the five searches
returns a path, the reported `nodesVisited` is at least the number of
cells of that path. -/
theorem C8_theorem (g : Grid) (pf : PF) (hv : (validate_grid g).1 = true)
    (hm : mkPF g = some pf) :
    (∀ p n, pf.dfs = some (some p, n) → p.length ≤ n) ∧
    (∀ p n, pf.bfs = some (some p, n) → p.length ≤ n) ∧
    (∀ p n, pf.ucs = some (some p, n) → p.length ≤ n) ∧
    (∀ p n, pf.a_star = some (some p, n) → p.length ≤ n) ∧
    (∀ p n, pf.greedy = some (some p, n) → p.length ≤ n) := by
  have pick : ∀ (res : Option (Option (List Cell) × Nat)),
      (∃ r n, res = some (r, n) ∧ (r = none → ¬ Reachable pf pf.goal) ∧
        (∀ p, r = some p → ValidPath pf p ∧ p.length ≤ n)) →
      ∀ p n, res = some (some p, n) → p.length ≤ n := by
    rintro res ⟨r, n0, hrun, _, h2⟩ p n h
    rw [hrun] at h
    injection h with h'
    injection h' with hr hn
    exact hn ▸ (h2 p hr).2
  exact ⟨pick _ (dfs_run hv hm), pick _ (bfs_run hv hm), pick _ (ucs_run hv hm),
    pick _ (a_star_run hv hm), pick _ (greedy_run hv hm)⟩

/-- C8 witness: Scenario 4's single-row grid, where `bfs` returns the
3-cell path with 3 nodes visited. -/
theorem C8_witness :
    (validate_grid gridRow).1 = true ∧ mkPF gridRow = some pfRow ∧
    ([((0 : Int), (0 : Int)), (0, 1), (0, 2)].length ≤ 3) :=
  ⟨by decide, rfl,
    (C8_theorem gridRow pfRow (by decide) rfl).2.1 [(0, 0), (0, 1), (0, 2)] 3 rfl⟩

/-- C9.  On every validated grid each of the five searches terminates:
the fuelled loops return a result (their frontier empties or the goal is
popped, and in the latter case `_build_path` also terminates, walking a
strictly decreasing predecessor chain). -/
theorem C9_theorem (g : Grid) (pf : PF) (hv : (validate_grid g).1 = true)
    (hm : mkPF g = some pf) :
    (pf.dfs).isSome ∧ (pf.bfs).isSome ∧ (pf.ucs).isSome ∧
    (pf.a_star).isSome ∧ (pf.greedy).isSome := by
  obtain ⟨r1, n1, h1, _, _⟩ := dfs_run hv hm
  obtain ⟨r2, n2, h2, _, _⟩ := bfs_run hv hm
  obtain ⟨r3, n3, h3, _, _⟩ := ucs_run hv hm
  obtain ⟨r4, n4, h4, _, _⟩ := a_star_run hv hm
  obtain ⟨r5, n5, h5, _, _⟩ := greedy_run hv hm
  rw [h1, h2, h3, h4, h5]
  exact ⟨rfl, rfl, rfl, rfl, rfl⟩

/-- C9 witness: Scenario 4's single-row grid. -/
theorem C9_witness :
    (validate_grid gridRow).1 = true ∧ mkPF gridRow = some pfRow ∧
    ((pfRow.dfs).isSome ∧ (pfRow.bfs).isSome ∧ (pfRow.ucs).isSome ∧
      (pfRow.a_star).isSome ∧ (pfRow.greedy).isSome) :=
  ⟨by decide, rfl, C9_theorem gridRow pfRow (by decide) rfl⟩

/-! ### Claims C1 and C4 -/

/-- C1.  On every validated grid whose goal is reachable, all five
searches return a path; the paths returned by `bfs`, `ucs` and `a_star`
are shortest (hence of equal length), while any path returned by `dfs`
or `greedy` is a valid route at least as long as every shortest one. -/
theorem C1_theorem (g : Grid) (pf : PF) (hv : (validate_grid g).1 = true)
    (hm : mkPF g = some pf) (hreach : Reachable pf pf.goal) :
    ((∃ p n, pf.bfs = some (some p, n)) ∧ (∃ p n, pf.ucs = some (some p, n)) ∧
      (∃ p n, pf.a_star = some (some p, n)) ∧ (∃ p n, pf.dfs = some (some p, n)) ∧
      (∃ p n, pf.greedy = some (some p, n))) ∧
    (∀ p n, pf.bfs = some (some p, n) → Shortest pf p) ∧
    (∀ p n, pf.ucs = some (some p, n) → Shortest pf p) ∧
    (∀ p n, pf.a_star = some (some p, n) → Shortest pf p) ∧
    (∀ p1 n1 p2 n2 p3 n3, pf.bfs = some (some p1, n1) →
      pf.ucs = some (some p2, n2) → pf.a_star = some (some p3, n3) →
      p1.length = p2.length ∧ p2.length = p3.length) ∧
    (∀ p n, pf.dfs = some (some p, n) → ValidPath pf p ∧
      ∀ q, Shortest pf q → q.length ≤ p.length) ∧
    (∀ p n, pf.greedy = some (some p, n) → ValidPath pf p ∧
      ∀ q, Shortest pf q → q.length ≤ p.length) := by
  obtain ⟨dg, hdg⟩ := reachable_isDist hreach
  have pickSome : ∀ (res : Option (Option (List Cell) × Nat)),
      (∃ r n, res = some (r, n) ∧ (r = none → ¬ Reachable pf pf.goal) ∧
        (∀ p, r = some p → ValidPath pf p ∧ p.length ≤ n)) →
      ∃ p n, res = some (some p, n) := by
    rintro res ⟨r, n, hrun, h1, _⟩
    cases r with
    | none => exact absurd hreach (h1 rfl)
    | some p => exact ⟨p, n, hrun⟩
  have pickValid : ∀ (res : Option (Option (List Cell) × Nat)),
      (∃ r n, res = some (r, n) ∧ (r = none → ¬ Reachable pf pf.goal) ∧
        (∀ p, r = some p → ValidPath pf p ∧ p.length ≤ n)) →
      ∀ p n, res = some (some p, n) → ValidPath pf p := by
    rintro res ⟨r, n0, hrun, _, h2⟩ p n h
    rw [hrun] at h
    injection h with h'
    injection h' with hr hn
    exact (h2 p hr).1
  have hbfsS : ∀ p n, pf.bfs = some (some p, n) → Shortest pf p := by
    intro p n h
    have hvp := pickValid _ (bfs_run hv hm) p n h
    have hle := bfs_optimal_run hdg p n h
    exact ⟨hvp, fun q hq => le_trans hle (validpath_min hdg hq)⟩
  have hucsS : ∀ p n, pf.ucs = some (some p, n) → Shortest pf p := by
    intro p n h
    have hvp := pickValid _ (ucs_run hv hm) p n h
    have hle := (ucs_optimal_run hdg p n h).1
    exact ⟨hvp, fun q hq => le_trans hle (validpath_min hdg hq)⟩
  have hastS : ∀ p n, pf.a_star = some (some p, n) → Shortest pf p := by
    intro p n h
    have hvp := pickValid _ (a_star_run hv hm) p n h
    have hle := (a_star_optimal_run hdg p n h).1
    exact ⟨hvp, fun q hq => le_trans hle (validpath_min hdg hq)⟩
  refine ⟨⟨pickSome _ (bfs_run hv hm), pickSome _ (ucs_run hv hm),
    pickSome _ (a_star_run hv hm), pickSome _ (dfs_run hv hm),
    pickSome _ (greedy_run hv hm)⟩, hbfsS, hucsS, hastS, ?_, ?_, ?_⟩
  · intro p1 n1 p2 n2 p3 n3 h1 h2 h3
    have s1 := hbfsS p1 n1 h1
    have s2 := hucsS p2 n2 h2
    have s3 := hastS p3 n3 h3
    exact ⟨Nat.le_antisymm (s1.2 p2 s2.1) (s2.2 p1 s1.1),
      Nat.le_antisymm (s2.2 p3 s3.1) (s3.2 p2 s2.1)⟩
  · intro p n h
    have hvp := pickValid _ (dfs_run hv hm) p n h
    exact ⟨hvp, fun q hq => hq.2 p hvp⟩
  · intro p n h
    have hvp := pickValid _ (greedy_run hv hm) p n h
    exact ⟨hvp, fun q hq => hq.2 p hvp⟩

/-- C1 witness: Scenario 4's single-row grid, validated and constructed,
with the goal reachable in two moves; all five searches return paths. -/
theorem C1_witness :
    ((validate_grid gridRow).1 = true ∧ mkPF gridRow = some pfRow ∧
      Reachable pfRow pfRow.goal) ∧
    ((∃ p n, pfRow.bfs = some (some p, n)) ∧ (∃ p n, pfRow.ucs = some (some p, n)) ∧
      (∃ p n, pfRow.a_star = some (some p, n)) ∧ (∃ p n, pfRow.dfs = some (some p, n)) ∧
      (∃ p n, pfRow.greedy = some (some p, n))) :=
  ⟨⟨by decide, rfl,
    ⟨2, @ReachN.succ pfRow 1 ((0 : Int), (1 : Int)) pfRow.goal
      (@ReachN.succ pfRow 0 pfRow.start ((0 : Int), (1 : Int)) ReachN.zero (by decide))
      (by decide)⟩⟩,
    (C1_theorem gridRow pfRow (by decide) rfl
      ⟨2, @ReachN.succ pfRow 1 ((0 : Int), (1 : Int)) pfRow.goal
        (@ReachN.succ pfRow 0 pfRow.start ((0 : Int), (1 : Int)) ReachN.zero (by decide))
        (by decide)⟩).1⟩

/-- C4.  On every validated grid, `a_star` reports a visited count no
larger than `ucs` does: with a reachable goal, A*'s finalized set (goal
plus cells strictly closer than the goal) is contained in UCS's, and
with an unreachable goal both finalize exactly the reachable cells. -/
theorem C4_theorem (g : Grid) (pf : PF) (hv : (validate_grid g).1 = true)
    (hm : mkPF g = some pf) :
    ∀ ru nu ra na, pf.ucs = some (ru, nu) → pf.a_star = some (ra, na) →
    na ≤ nu := by
  intro ru nu ra na hu ha
  by_cases hreach : Reachable pf pf.goal
  · obtain ⟨dg, hdg⟩ := reachable_isDist hreach
    obtain ⟨r1, n1, hrun1, hn1, _⟩ := ucs_run hv hm
    rw [hu] at hrun1
    injection hrun1 with hrun1'
    injection hrun1' with hr1 hnn1
    subst hr1
    subst hnn1
    obtain ⟨r2, n2, hrun2, hn2, _⟩ := a_star_run hv hm
    rw [ha] at hrun2
    injection hrun2 with hrun2'
    injection hrun2' with hr2 hnn2
    subst hr2
    subst hnn2
    cases ru with
    | none => exact absurd hreach (hn1 rfl)
    | some pu =>
      cases ra with
      | none => exact absurd hreach (hn2 rfl)
      | some pa =>
        obtain ⟨_, VU, hVUn, hVUnd, hVUg, hVUclose⟩ := ucs_optimal_run hdg pu nu hu
        obtain ⟨_, VA, hVAn, hVAnd, hVAg, hVAchar⟩ := a_star_optimal_run hdg pa na ha
        have hsub : ∀ x ∈ VA, x ∈ VU := by
          intro x hx
          rcases hVAchar x hx with hEq | ⟨dx, hdx, hlt⟩
          · exact hEq ▸ hVUg
          · exact hVUclose x dx hdx hlt
        have := nodup_subset_length hVAnd hVUnd hsub
        omega
  · obtain ⟨hrn1, VU, hVUn, hVUnd, hVUiff⟩ := ucs_exhaustive_run hreach ru nu hu
    obtain ⟨hrn2, VA, hVAn, hVAnd, hVAiff⟩ := a_star_exhaustive_run hreach ra na ha
    have hsub : ∀ x ∈ VA, x ∈ VU := fun x hx => (hVUiff x).mpr ((hVAiff x).mp hx)
    have := nodup_subset_length hVAnd hVUnd hsub
    omega

/-- C4 witness: Scenario 4's single-row grid, where both `ucs` and
`a_star` visit 3 cells. -/
theorem C4_witness :
    ((validate_grid gridRow).1 = true ∧ mkPF gridRow = some pfRow ∧
      pfRow.ucs = some (some [((0 : Int), (0 : Int)), (0, 1), (0, 2)], 3) ∧
      pfRow.a_star = some (some [((0 : Int), (0 : Int)), (0, 1), (0, 2)], 3)) ∧
    3 ≤ 3 :=
  ⟨⟨by decide, rfl, rfl, rfl⟩,
    C4_theorem gridRow pfRow (by decide) rfl
      (some [((0 : Int), (0 : Int)), (0, 1), (0, 2)]) 3
      (some [((0 : Int), (0 : Int)), (0, 1), (0, 2)]) 3 rfl rfl⟩

end Drone
